import Mathlib

/-!
# Block chain state engine of go-seele: `core/blockchain.go`

A shallow embedding of `Blockchain.WriteBlock` and the functions it calls
(`validateBlock`, `applyTxs`, `validateMinerRewardTx`, `updateStatedb`,
`updateHashByHeight`), of `NewBlockchain`, and of the RPC methods `GetBalance`
and `GetBlockByHeight` of `seele/api.go`, followed by theorems about them. The
packages these functions call (the blockchain store, the state database, the
block leaves) and the trie of `trie/trie.go`, of which only the tests are at
hand, are modelled from the specification.

Conventions of the embedding:

* `common.Hash` and `common.Address` are opaque identifiers with equality; they
  are natural numbers here and `EmptyHash` is `0`.
* `*big.Int` is `Int`; a `*big.Int` that may be `nil` is `Option Int`.
* `uint64` values are natural numbers and `+` on them is taken modulo `2 ^ 64`
  (`u64add`).
* A Go `error` result is `Option Err` (`none` is `nil`); a Go `(value, error)`
  result is `Except Err value`.
* The readers-writer lock of `Blockchain` has no effect on a single call and is
  left out.
-/

namespace Seele

/-! ## Data model -/

/-- The type `common.Hash`: an opaque identifier with equality. -/
abbrev Hash := Nat

/-- The type `common.Address`: an opaque account identifier with equality. -/
abbrev Address := Nat

/-- The constant `common.EmptyHash`, the distinguished empty hash. -/
def EmptyHash : Hash := 0

/-- Number of values of a Go `uint64`. -/
def uint64Size : Nat := 2 ^ 64

/-- Go addition on `uint64`: wraps around at `2 ^ 64`. -/
def u64add (a b : Nat) : Nat := (a + b) % uint64Size

/-- Errors of the key-value layer under the blockchain store and the state database. -/
inductive StoreErr where
  | ioFailure
  | notFound
  | missingStateNode
  deriving DecidableEq, Repr

/-- The error values that `core/blockchain.go` returns or passes on. -/
inductive Err where
  | ErrBlockHashMismatch
  | ErrBlockTxsHashMismatch
  | ErrBlockInvalidParentHash
  | ErrBlockInvalidHeight
  | ErrBlockAlreadyExists
  | ErrBlockStateHashMismatch
  | ErrBlockEmptyTxs
  | ErrBlockInvalidToAddress
  | ErrBlockCoinbaseMismatch
  | errContractCreationNotSupported
  | ErrAmountNil
  | ErrAmountNegative
  /-- An error of the blockchain store or of the account state database. -/
  | store (e : StoreErr)
  /-- An error value owned by a collaborator (consensus engine, `tx.Validate`). -/
  | other (code : Nat)
  /-- A Go run-time panic on a nil pointer. -/
  | nilDereference
  /-- A Go run-time panic on a slice expression out of range. -/
  | sliceOutOfRange
  /-- The embedding ran out of loop fuel: the Go loop has not returned yet. -/
  | outOfFuel
  deriving DecidableEq, Repr

/-- The type `types.BlockHeader`, with the fields `core/blockchain.go` reads. -/
structure BlockHeader where
  PreviousBlockHash : Hash
  Creator : Address
  StateHash : Hash
  TxHash : Hash
  Difficulty : Int
  Height : Nat
  CreateTimestamp : Nat
  Nonce : Nat
  deriving DecidableEq, Repr

/-- The type `types.TransactionData`; `To` and `Amount` are pointers that may be nil. -/
structure TransactionData where
  From : Address
  To : Option Address
  Amount : Option Int
  AccountNonce : Nat
  Timestamp : Nat
  Payload : List Nat
  deriving DecidableEq, Repr

/-- The type `types.Transaction`; `Data` is a pointer that may be nil. -/
structure Transaction where
  Hash : Hash
  Data : Option TransactionData
  deriving DecidableEq, Repr

/-- The type `types.Block`. -/
structure Block where
  HeaderHash : Hash
  Header : BlockHeader
  Transactions : List Transaction
  deriving DecidableEq, Repr

/-- The interface `consensusEngine` of `core/blockchain.go`. -/
structure consensusEngine where
  ValidateHeader : BlockHeader → Option Err
  ValidateRewardAmount : Int → Option Err

/-- The hash functions that `core/blockchain.go` calls and that live in other
packages: `BlockHeader.Hash` and `types.MerkleRootHash`. -/
structure Hashing where
  headerHash : BlockHeader → Hash
  MerkleRootHash : List Transaction → Hash

/-! ## `validateBlock` and `validateMinerRewardTx` -/

/-- The method `Blockchain.validateBlock` (blockchain.go, lines 242-257). -/
def validateBlock (hs : Hashing) (engine : consensusEngine) (block preBlock : Block) :
    Option Err :=
  if block.HeaderHash ≠ hs.headerHash block.Header then
    some Err.ErrBlockHashMismatch
  else if hs.MerkleRootHash block.Transactions ≠ block.Header.TxHash then
    some Err.ErrBlockTxsHashMismatch
  else if block.Header.Height ≠ u64add preBlock.Header.Height 1 then
    some Err.ErrBlockInvalidHeight
  else
    engine.ValidateHeader block.Header

/-- The method `Blockchain.validateMinerRewardTx` (blockchain.go, lines 284-311). -/
def validateMinerRewardTx (engine : consensusEngine) (block : Block) :
    Except Err Transaction :=
  match block.Transactions with
  | [] => Except.error Err.ErrBlockEmptyTxs
  | minerRewardTx :: _ =>
    match minerRewardTx.Data with
    | none => Except.error Err.ErrBlockInvalidToAddress
    | some data =>
      match data.To with
      | none => Except.error Err.ErrBlockInvalidToAddress
      | some dst =>
        if dst ≠ block.Header.Creator then
          Except.error Err.ErrBlockCoinbaseMismatch
        else
          match data.Amount with
          | none => Except.error Err.ErrAmountNil
          | some amount =>
            if amount < 0 then
              Except.error Err.ErrAmountNegative
            else
              match engine.ValidateRewardAmount amount with
              | some e => Except.error e
              | none => Except.ok minerRewardTx

/-! ## The account state view -/

/-- An account record of the state database: balance and nonce. -/
structure Account where
  Amount : Int
  Nonce : Nat
  deriving DecidableEq, Repr

/-- Modelled from the spec: the type `state.Statedb` (package `core/state`, not
under `src/`), a map from address to account record (spec 4.C). An address
without a record reads as balance `0` and nonce `0`. -/
abbrev Statedb := Address → Option Account

/-- Modelled from the spec: `Statedb.GetBalance` (read-only, spec 4.C). -/
def Statedb.GetBalance (statedb : Statedb) (addr : Address) : Int :=
  match statedb addr with
  | some acc => acc.Amount
  | none => 0

/-- Modelled from the spec: `Statedb.GetNonce` (read-only, spec 4.C). -/
def Statedb.GetNonce (statedb : Statedb) (addr : Address) : Nat :=
  match statedb addr with
  | some acc => acc.Nonce
  | none => 0

/-- Modelled from the spec: `Statedb.GetOrNewStateObject` (`get-or-create`,
spec 4.C). The state object it returns is the record kept in the view under
`addr`; a missing record is created empty. The result is the view holding the
object, and the object is thereafter named by its address. -/
def Statedb.GetOrNewStateObject (statedb : Statedb) (addr : Address) : Statedb :=
  match statedb addr with
  | some _ => statedb
  | none => Function.update statedb addr (some { Amount := 0, Nonce := 0 })

/-- Modelled from the spec: `StateObject.AddAmount` (`add-amount`, spec 4.C) on
the state object of `addr`. -/
def Statedb.AddAmount (statedb : Statedb) (addr : Address) (amount : Int) : Statedb :=
  match statedb addr with
  | some acc => Function.update statedb addr (some { acc with Amount := acc.Amount + amount })
  | none => statedb

/-- Modelled from the spec: `StateObject.SubAmount` (`sub-amount`, spec 4.C) on
the state object of `addr`: "Sub-amount that would drive a balance negative
fails with InsufficientBalance", in which case the balance is left as it is.
`updateStatedb` calls it as a statement and does not look at a result. -/
def Statedb.SubAmount (statedb : Statedb) (addr : Address) (amount : Int) : Statedb :=
  match statedb addr with
  | some acc =>
    if acc.Amount - amount < 0 then statedb
    else Function.update statedb addr (some { acc with Amount := acc.Amount - amount })
  | none => statedb

/-- Modelled from the spec: `StateObject.SetNonce` (`set-nonce`, spec 4.C) on the
state object of `addr`. -/
def Statedb.SetNonce (statedb : Statedb) (addr : Address) (nonce : Nat) : Statedb :=
  match statedb addr with
  | some acc => Function.update statedb addr (some { acc with Nonce := nonce })
  | none => statedb

/-- Modelled from the spec: `Transaction.Validate` (package `core/types`, not
under `src/`). Spec 4.G step 6c: it checks the signature (external, the
parameter `verifySignature`), that the nonce of the sender in the view equals
the account nonce of the transaction, and that the balance of the sender in the
view is at least the amount. The recipient check of that step is made by
`updateStatedb` itself. A transaction without data or without an amount has no
amount to compare and is rejected with `ErrAmountNil`. -/
def Transaction.Validate (verifySignature : Transaction → Bool) (tx : Transaction)
    (statedb : Statedb) : Option Err :=
  match tx.Data with
  | none => some Err.ErrAmountNil
  | some data =>
    match data.Amount with
    | none => some Err.ErrAmountNil
    | some amount =>
      if verifySignature tx = false then some (Err.other 1)
      else if statedb.GetNonce data.From ≠ data.AccountNonce then some (Err.other 2)
      else if statedb.GetBalance data.From < amount then some (Err.other 3)
      else none

/-- The loop body of `updateStatedb` (blockchain.go, lines 319-334) for one
transaction: the error it returns, or the view after the transaction. -/
def updateStatedbTx (validate : Transaction → Statedb → Option Err) (statedb : Statedb)
    (tx : Transaction) : Except Err Statedb :=
  match validate tx statedb with
  | some err => Except.error err
  | none =>
    match tx.Data with
    | none => Except.error Err.nilDereference
    | some data =>
      match data.To with
      | none => Except.error Err.errContractCreationNotSupported
      | some dst =>
        match data.Amount with
        | none => Except.error Err.nilDereference
        | some amount =>
          -- fromStateObj := statedb.GetOrNewStateObject(tx.Data.From)
          let statedb := statedb.GetOrNewStateObject data.From
          let statedb := statedb.SubAmount data.From amount
          let statedb := statedb.SetNonce data.From (u64add data.AccountNonce 1)
          -- toStateObj := statedb.GetOrNewStateObject(*tx.Data.To)
          let statedb := statedb.GetOrNewStateObject dst
          let statedb := statedb.AddAmount dst amount
          Except.ok statedb

/-- The loop `for _, tx := range txs` of `updateStatedb`. -/
def updateStatedbLoop (validate : Transaction → Statedb → Option Err) :
    Statedb → List Transaction → Except Err Statedb
  | statedb, [] => Except.ok statedb
  | statedb, tx :: txs =>
    match updateStatedbTx validate statedb tx with
    | Except.error err => Except.error err
    | Except.ok statedb => updateStatedbLoop validate statedb txs

/-- The function `updateStatedb` (blockchain.go, lines 313-337). Go mutates the
view in place and returns an error; here the result is the error or the view
after the call. Dereferencing a nil `Data`, `To` or `Amount` of the reward
transaction panics. -/
def updateStatedb (validate : Transaction → Statedb → Option Err) (statedb : Statedb)
    (minerRewardTx : Transaction) (txs : List Transaction) : Except Err Statedb :=
  match minerRewardTx.Data with
  | none => Except.error Err.nilDereference
  | some data =>
    match data.To with
    | none => Except.error Err.nilDereference
    | some dst =>
      match data.Amount with
      | none => Except.error Err.nilDereference
      | some amount =>
        let statedb := statedb.GetOrNewStateObject dst
        let statedb := statedb.AddAmount dst amount
        updateStatedbLoop validate statedb txs

/-- The loop body of `updateStatedb` once more, with the view it leaves behind.
Go mutates the view in place: a transaction that is rejected by `tx.Validate` or
by the recipient check returns before the first mutation (line 328), so the view
is as it was when the transaction was reached. -/
def updateStatedbTxView (validate : Transaction → Statedb → Option Err) (statedb : Statedb)
    (tx : Transaction) : Option Err × Statedb :=
  match validate tx statedb with
  | some err => (some err, statedb)
  | none =>
    match tx.Data with
    | none => (some Err.nilDereference, statedb)
    | some data =>
      match data.To with
      | none => (some Err.errContractCreationNotSupported, statedb)
      | some dst =>
        match data.Amount with
        | none => (some Err.nilDereference, statedb.GetOrNewStateObject data.From)
        | some amount =>
          let statedb := statedb.GetOrNewStateObject data.From
          let statedb := statedb.SubAmount data.From amount
          let statedb := statedb.SetNonce data.From (u64add data.AccountNonce 1)
          let statedb := statedb.GetOrNewStateObject dst
          let statedb := statedb.AddAmount dst amount
          (none, statedb)

/-- The loop of `updateStatedb` with the view it leaves behind. -/
def updateStatedbLoopView (validate : Transaction → Statedb → Option Err) :
    Statedb → List Transaction → Option Err × Statedb
  | statedb, [] => (none, statedb)
  | statedb, tx :: txs =>
    match updateStatedbTxView validate statedb tx with
    | (some err, statedb) => (some err, statedb)
    | (none, statedb) => updateStatedbLoopView validate statedb txs

/-- The function `updateStatedb` (blockchain.go, lines 313-337) with the view it
leaves behind: the error returned (`none` is nil) and the view after the call. -/
def updateStatedbView (validate : Transaction → Statedb → Option Err) (statedb : Statedb)
    (minerRewardTx : Transaction) (txs : List Transaction) : Option Err × Statedb :=
  match minerRewardTx.Data with
  | none => (some Err.nilDereference, statedb)
  | some data =>
    match data.To with
    | none => (some Err.nilDereference, statedb)
    | some dst =>
      match data.Amount with
      | none => (some Err.nilDereference, statedb.GetOrNewStateObject dst)
      | some amount =>
        let statedb := statedb.GetOrNewStateObject dst
        let statedb := statedb.AddAmount dst amount
        updateStatedbLoopView validate statedb txs

/-! ### The state change in the words of the specification -/

/-- Crediting `amount` to `recipient`, as a change of the balance function. -/
def creditSpec (view : Statedb) (recipient : Address) (amount : Int) : Statedb :=
  fun a =>
    if a = recipient then some { Amount := view.GetBalance a + amount, Nonce := view.GetNonce a }
    else view a

/-- One ordinary transaction in the words of the specification: subtract the
amount from the balance of the sender, set the nonce of the sender to the
account nonce plus one, add the amount to the balance of the recipient; a
self-transfer leaves the balance unchanged and bumps the nonce. -/
def transferSpec (view : Statedb) (sender recipient : Address) (amount : Int)
    (accountNonce : Nat) : Statedb :=
  fun a =>
    if a = sender then
      if sender = recipient then
        some { Amount := view.GetBalance a, Nonce := u64add accountNonce 1 }
      else
        some { Amount := view.GetBalance a - amount, Nonce := u64add accountNonce 1 }
    else if a = recipient then
      some { Amount := view.GetBalance a + amount, Nonce := view.GetNonce a }
    else view a

/-- The transactions of a list applied in list order, each as `transferSpec`.
A transaction without data, recipient or amount describes no transfer. -/
def transfersSpec : Statedb → List Transaction → Statedb
  | view, [] => view
  | view, tx :: txs =>
    match tx.Data with
    | some { From := sender, To := some recipient, Amount := some amount,
             AccountNonce := accountNonce, .. } =>
      transfersSpec (transferSpec view sender recipient amount accountNonce) txs
    | _ => transfersSpec view txs

/-- Every transaction of the list passes `validate` on the view as it stands
when the transaction is reached, and has a recipient. -/
def TxsPass (validate : Transaction → Statedb → Option Err) :
    Statedb → List Transaction → Prop
  | _, [] => True
  | view, tx :: txs =>
    validate tx view = none ∧ (∃ d dst, tx.Data = some d ∧ d.To = some dst) ∧
      ∀ view', updateStatedbTx validate view tx = Except.ok view' → TxsPass validate view' txs

/-! ### The sum of the balances of a view -/

/-- The sum of the balances that `view` reads for the addresses of `accounts`. -/
def Statedb.totalBalance (view : Statedb) (accounts : Finset Address) : Int :=
  Finset.sum accounts (fun a => view.GetBalance a)

/-- The finite set `accounts` names every address that has a record in `view`,
so that `view.totalBalance accounts` is the sum of all account balances of the
view. -/
def Statedb.CoveredBy (view : Statedb) (accounts : Finset Address) : Prop :=
  ∀ a, view a ≠ none → a ∈ accounts

/-! ## The blockchain store -/

/-- The operations of the blockchain store that `core/blockchain.go` calls. -/
inductive StoreOp where
  | HasBlock
  | GetBlock
  | GetBlockHeader
  | GetBlockTotalDifficulty
  | GetBlockHash
  | GetHeadBlockHash
  | PutBlockHash
  | DeleteBlockHash
  | PutBlock
  deriving DecidableEq, Repr

/-- Modelled from the spec: the interface `store.BlockchainStore` (package
`core/store`, not under `src/`), spec 3 and 4.B: the persistent indices
block-by-hash, header-by-hash, td-by-hash, canonical-height-to-hash and HEAD.
`ioFails op` tells whether operation `op` hits a failure of the underlying
key-value store; every operation then fails with the store's I/O error and
changes nothing. -/
structure BlockchainStore where
  blocks : Hash → Option Block
  headers : Hash → Option BlockHeader
  totalDifficulties : Hash → Option Int
  hashByHeight : Nat → Option Hash
  headBlockHash : Option Hash
  ioFails : StoreOp → Bool

/-- Modelled from the spec: `has-block(hash)`. -/
def BlockchainStore.HasBlock (s : BlockchainStore) (hash : Hash) : Except Err Bool :=
  if s.ioFails StoreOp.HasBlock then Except.error (Err.store StoreErr.ioFailure)
  else Except.ok (s.blocks hash).isSome

/-- Modelled from the spec: `get-block(hash)`; `NotFound` when the key is absent. -/
def BlockchainStore.GetBlock (s : BlockchainStore) (hash : Hash) : Except Err Block :=
  if s.ioFails StoreOp.GetBlock then Except.error (Err.store StoreErr.ioFailure)
  else
    match s.blocks hash with
    | some block => Except.ok block
    | none => Except.error (Err.store StoreErr.notFound)

/-- Modelled from the spec: `get-header(hash)`. -/
def BlockchainStore.GetBlockHeader (s : BlockchainStore) (hash : Hash) :
    Except Err BlockHeader :=
  if s.ioFails StoreOp.GetBlockHeader then Except.error (Err.store StoreErr.ioFailure)
  else
    match s.headers hash with
    | some header => Except.ok header
    | none => Except.error (Err.store StoreErr.notFound)

/-- Modelled from the spec: `get-td(hash)`. -/
def BlockchainStore.GetBlockTotalDifficulty (s : BlockchainStore) (hash : Hash) :
    Except Err Int :=
  if s.ioFails StoreOp.GetBlockTotalDifficulty then Except.error (Err.store StoreErr.ioFailure)
  else
    match s.totalDifficulties hash with
    | some td => Except.ok td
    | none => Except.error (Err.store StoreErr.notFound)

/-- Modelled from the spec: `get-canonical-hash(height)`. -/
def BlockchainStore.GetBlockHash (s : BlockchainStore) (height : Nat) : Except Err Hash :=
  if s.ioFails StoreOp.GetBlockHash then Except.error (Err.store StoreErr.ioFailure)
  else
    match s.hashByHeight height with
    | some hash => Except.ok hash
    | none => Except.error (Err.store StoreErr.notFound)

/-- Modelled from the spec: `get-head-hash()`. -/
def BlockchainStore.GetHeadBlockHash (s : BlockchainStore) : Except Err Hash :=
  if s.ioFails StoreOp.GetHeadBlockHash then Except.error (Err.store StoreErr.ioFailure)
  else
    match s.headBlockHash with
    | some hash => Except.ok hash
    | none => Except.error (Err.store StoreErr.notFound)

/-- Modelled from the spec: `put-canonical-hash(height, hash)`. -/
def BlockchainStore.PutBlockHash (s : BlockchainStore) (height : Nat) (hash : Hash) :
    Except Err BlockchainStore :=
  if s.ioFails StoreOp.PutBlockHash then Except.error (Err.store StoreErr.ioFailure)
  else Except.ok { s with hashByHeight := Function.update s.hashByHeight height (some hash) }

/-- Modelled from the spec: `delete-canonical-hash(height)`, which "returns
whether a mapping existed". -/
def BlockchainStore.DeleteBlockHash (s : BlockchainStore) (height : Nat) :
    Except Err (Bool × BlockchainStore) :=
  if s.ioFails StoreOp.DeleteBlockHash then Except.error (Err.store StoreErr.ioFailure)
  else
    Except.ok ((s.hashByHeight height).isSome,
      { s with hashByHeight := Function.update s.hashByHeight height none })

/-- Modelled from the spec: `put-block(block, td, becomes-canonical)`: "writes
block bytes, header bytes, td, and if becomes-canonical also updates
canonical-height-to-hash[block.height] and HEAD". `WriteBlock` passes no batch
to it, so the writes go to the store. -/
def BlockchainStore.PutBlock (s : BlockchainStore) (block : Block) (td : Int)
    (isHead : Bool) : Except Err BlockchainStore :=
  if s.ioFails StoreOp.PutBlock then Except.error (Err.store StoreErr.ioFailure)
  else
    Except.ok
      { s with
        blocks := Function.update s.blocks block.HeaderHash (some block)
        headers := Function.update s.headers block.HeaderHash (some block.Header)
        totalDifficulties := Function.update s.totalDifficulties block.HeaderHash (some td)
        hashByHeight :=
          if isHead then Function.update s.hashByHeight block.Header.Height (some block.HeaderHash)
          else s.hashByHeight
        headBlockHash := if isHead then some block.HeaderHash else s.headBlockHash }

/-! ## The account state database and its batches -/

/-- Modelled from the spec: the `database.Database` that holds the account
state (spec 4.C and 6): under each root hash the state view that was committed
with that root. `commitFails` tells whether committing a batch hits an I/O
failure. -/
structure Database where
  states : Hash → Option Statedb
  commitFails : Bool

/-- A batch of the account state database: the writes enqueued so far. -/
abbrev Batch := List (Hash × Statedb)

/-- Modelled from the spec: `state.NewStatedb(root, db)`: "Creating a view from a
root that is absent from the KV fails with MissingStateNode". -/
def NewStatedb (root : Hash) (db : Database) : Except Err Statedb :=
  match db.states root with
  | some view => Except.ok view
  | none => Except.error (Err.store StoreErr.missingStateNode)

/-- Modelled from the spec: `Statedb.Commit(batch)`: "serialises all dirty nodes
into the batch and returns the new root hash. Committing does not affect the
underlying KV until the batch itself is committed by the caller". The root hash
of a view is the parameter `stateRootHash`. -/
def Statedb.Commit (stateRootHash : Statedb → Hash) (statedb : Statedb) (batch : Batch) :
    Hash × Batch :=
  (stateRootHash statedb, batch ++ [(stateRootHash statedb, statedb)])

/-- Modelled from the spec: `Batch.Commit()`: all writes of the batch, or an I/O
error and no write. -/
def Batch.Commit (db : Database) (batch : Batch) : Except Err Database :=
  if db.commitFails then Except.error (Err.store StoreErr.ioFailure)
  else
    Except.ok
      { db with
        states := batch.foldl (fun states w => Function.update states w.1 (some w.2)) db.states }

/-! ## Block leaves and header chain -/

/-- The type `BlockIndex`: a tip with its state view and total difficulty. -/
structure BlockIndex where
  state : Statedb
  currentBlock : Block
  totalDifficulty : Int

/-- The function `NewBlockIndex`. -/
def NewBlockIndex (state : Statedb) (block : Block) (td : Int) : BlockIndex :=
  { state := state, currentBlock := block, totalDifficulty := td }

/-- Modelled from the spec: the type `BlockLeaves` (not under `src/`), spec 3 and
4.E: the set of block indices, keyed by block hash. -/
abbrev BlockLeaves := List BlockIndex

/-- Modelled from the spec: `NewBlockLeaves`, the empty set. -/
def NewBlockLeaves : BlockLeaves := []

/-- Modelled from the spec: `add(index)`: "inserts, replacing any existing entry
with the same hash". -/
def BlockLeaves.Add (leaves : BlockLeaves) (index : BlockIndex) : BlockLeaves :=
  index :: leaves.filter (fun i => i.currentBlock.HeaderHash ≠ index.currentBlock.HeaderHash)

/-- Modelled from the spec: `remove-by-hash(hash)`: removes the entry whose
block hash is `hash`. -/
def BlockLeaves.RemoveByHash (leaves : BlockLeaves) (hash : Hash) : BlockLeaves :=
  leaves.filter (fun i => i.currentBlock.HeaderHash ≠ hash)

/-- The order of spec 3: `a` is better than `b` when its total difficulty is
larger, or equal with a lower header hash. -/
def BlockIndex.better (a b : BlockIndex) : Bool :=
  decide (b.totalDifficulty < a.totalDifficulty) ||
    (decide (a.totalDifficulty = b.totalDifficulty) &&
      decide (a.currentBlock.HeaderHash < b.currentBlock.HeaderHash))

/-- Modelled from the spec: `best()`: "returns the member with maximal
total-difficulty, tie-broken by lowest hash"; nil for the empty set. -/
def BlockLeaves.GetBestBlockIndex : BlockLeaves → Option BlockIndex
  | [] => none
  | i :: rest =>
    match BlockLeaves.GetBestBlockIndex rest with
    | none => some i
    | some b => if b.better i then some b else some i

/-- Modelled from the spec: `is-best-candidate(index)`: "true iff index would
become best() after insertion (checked before mutation)". -/
def BlockLeaves.IsBestBlockIndex (leaves : BlockLeaves) (index : BlockIndex) : Bool :=
  match BlockLeaves.GetBestBlockIndex (BlockLeaves.Add leaves index) with
  | some b => decide (b.currentBlock.HeaderHash = index.currentBlock.HeaderHash)
  | none => false

/-- Modelled from the spec: the type `HeaderChain` (not under `src/`), spec 4.D:
the headers that have been written. -/
abbrev HeaderChain := List BlockHeader

/-- Modelled from the spec: `write-header(h)`, which is idempotent. -/
def HeaderChain.WriteHeader (hc : HeaderChain) (header : BlockHeader) : HeaderChain :=
  if header ∈ hc then hc else header :: hc

/-! ## `Blockchain` and `WriteBlock` -/

/-- The type `Blockchain` (blockchain.go, lines 69-78), without the lock. -/
structure Blockchain where
  bcStore : BlockchainStore
  accountStateDB : Database
  engine : consensusEngine
  headerChain : HeaderChain
  genesisBlock : Block
  blockLeaves : BlockLeaves

/-- The functions of other packages that `core/blockchain.go` relies on and
that are pure: the hash functions, the root hash of a state view, and the
signature check inside `tx.Validate`. -/
structure Env where
  hashing : Hashing
  stateRootHash : Statedb → Hash
  verifySignature : Transaction → Bool

/-- The method `Blockchain.applyTxs` (blockchain.go, lines 264-282). -/
def applyTxs (env : Env) (bc : Blockchain) (block preBlock : Block) : Except Err Statedb :=
  match validateMinerRewardTx bc.engine block with
  | Except.error err => Except.error err
  | Except.ok minerRewardTx =>
    match NewStatedb preBlock.Header.StateHash bc.accountStateDB with
    | Except.error err => Except.error err
    | Except.ok statedb =>
      -- block.Transactions[1:] panics on an empty slice
      match block.Transactions with
      | [] => Except.error Err.sliceOutOfRange
      | _ :: txs =>
        match updateStatedb (Transaction.Validate env.verifySignature) statedb minerRewardTx
            txs with
        | Except.error err => Except.error err
        | Except.ok statedb => Except.ok statedb

/-- The first loop of `updateHashByHeight` (blockchain.go, lines 342-351):
delete the mappings of the heights `i`, `i + 1`, ... until a deletion reports
that no mapping existed. Returns the error, if any, and the store after. -/
def deleteLargerHeights : Nat → BlockchainStore → Nat → Option Err × BlockchainStore
  | 0, s, _ => (some Err.outOfFuel, s)
  | fuel + 1, s, i =>
    match s.DeleteBlockHash i with
    | Except.error err => (some err, s)
    | Except.ok (deleted, s') =>
      if deleted = false then (none, s')
      else deleteLargerHeights fuel s' (u64add i 1)

/-- The second loop of `updateHashByHeight` (blockchain.go, lines 354-374):
walk the ancestors from `headerHash` and overwrite stale canonical mappings,
until the empty hash or the first ancestor whose mapping already matches.
Returns the error, if any, and the store after. -/
def overwriteStaleHashes : Nat → BlockchainStore → Hash → Option Err × BlockchainStore
  | 0, s, headerHash =>
    if headerHash = EmptyHash then (none, s) else (some Err.outOfFuel, s)
  | fuel + 1, s, headerHash =>
    if headerHash = EmptyHash then (none, s)
    else
      match s.GetBlockHeader headerHash with
      | Except.error err => (some err, s)
      | Except.ok header =>
        match s.GetBlockHash header.Height with
        | Except.error err => (some err, s)
        | Except.ok canonicalHash =>
          if headerHash = canonicalHash then (none, s)
          else
            match s.PutBlockHash header.Height headerHash with
            | Except.error err => (some err, s)
            | Except.ok s' => overwriteStaleHashes fuel s' header.PreviousBlockHash

/-- The method `Blockchain.updateHashByHeight` (blockchain.go, lines 339-377) on
the blockchain store. `fuel` bounds the number of iterations of each loop;
`Err.outOfFuel` means that the loop has not returned within the bound. -/
def updateHashByHeight (fuel : Nat) (s : BlockchainStore) (block : Block) :
    Option Err × BlockchainStore :=
  match deleteLargerHeights fuel s (u64add block.Header.Height 1) with
  | (some err, s') => (some err, s')
  | (none, s') => overwriteStaleHashes fuel s' block.Header.PreviousBlockHash

/-- The calls of `WriteBlock` on its collaborators that the theorems observe. -/
inductive Event where
  | HasBlock (hash : Hash)
  | GetBlock (hash : Hash)
  | NewBatch
  | StatedbCommit (root : Hash)
  | GetBlockTotalDifficulty (hash : Hash)
  | updateHashByHeight
  | PutBlock (hash : Hash) (td : Int) (isHead : Bool)
  | BatchCommit
  | BatchRollback
  deriving DecidableEq, Repr

/-- The outcome of a call of `WriteBlock`: the error returned (`none` is nil),
the blockchain after the call, and the calls made, in order. -/
structure WriteOutcome where
  err : Option Err
  chain : Blockchain
  calls : List Event

/-- The method `Blockchain.WriteBlock` (blockchain.go, lines 154-240). The
deferred function rolls the batch back on every return after `NewBatch` on
which `committed` is still false. -/
def WriteBlock (env : Env) (fuel : Nat) (bc : Blockchain) (block : Block) : WriteOutcome :=
  match bc.bcStore.HasBlock block.HeaderHash with
  | Except.error err =>
    { err := some err, chain := bc, calls := [Event.HasBlock block.HeaderHash] }
  | Except.ok true =>
    { err := some Err.ErrBlockAlreadyExists, chain := bc,
      calls := [Event.HasBlock block.HeaderHash] }
  | Except.ok false =>
    let calls := [Event.HasBlock block.HeaderHash,
      Event.GetBlock block.Header.PreviousBlockHash]
    match bc.bcStore.GetBlock block.Header.PreviousBlockHash with
    | Except.error _ =>
      { err := some Err.ErrBlockInvalidParentHash, chain := bc, calls := calls }
    | Except.ok preBlock =>
      match validateBlock env.hashing bc.engine block preBlock with
      | some err => { err := some err, chain := bc, calls := calls }
      | none =>
        match applyTxs env bc block preBlock with
        | Except.error err => { err := some err, chain := bc, calls := calls }
        | Except.ok blockStatedb =>
          -- batch := bc.accountStateDB.NewBatch(); committed := false
          let (stateRootHash, batch) := blockStatedb.Commit env.stateRootHash []
          let calls := calls ++ [Event.NewBatch, Event.StatedbCommit stateRootHash]
          if stateRootHash ≠ block.Header.StateHash then
            { err := some Err.ErrBlockStateHashMismatch, chain := bc,
              calls := calls ++ [Event.BatchRollback] }
          else
            let currentBlock : Block :=
              { HeaderHash := block.HeaderHash, Header := block.Header,
                Transactions := block.Transactions }
            let calls := calls ++ [Event.GetBlockTotalDifficulty block.Header.PreviousBlockHash]
            match bc.bcStore.GetBlockTotalDifficulty block.Header.PreviousBlockHash with
            | Except.error err =>
              { err := some err, chain := bc, calls := calls ++ [Event.BatchRollback] }
            | Except.ok td =>
              -- td.Add(td, block.Header.Difficulty) stores the sum in td itself
              let td := td + block.Header.Difficulty
              let blockIndex := NewBlockIndex blockStatedb currentBlock td
              let isHead := bc.blockLeaves.IsBestBlockIndex blockIndex
              let bc1 : Blockchain :=
                { bc with
                  blockLeaves :=
                    (bc.blockLeaves.Add blockIndex).RemoveByHash block.Header.PreviousBlockHash
                  headerChain := bc.headerChain.WriteHeader currentBlock.Header }
              let reindex : Option Err × BlockchainStore :=
                if isHead then updateHashByHeight fuel bc1.bcStore block else (none, bc1.bcStore)
              let calls := if isHead then calls ++ [Event.updateHashByHeight] else calls
              match reindex with
              | (some err, store1) =>
                { err := some err, chain := { bc1 with bcStore := store1 },
                  calls := calls ++ [Event.BatchRollback] }
              | (none, store1) =>
                let calls := calls ++ [Event.PutBlock block.HeaderHash td isHead]
                match store1.PutBlock block td isHead with
                | Except.error err =>
                  { err := some err, chain := { bc1 with bcStore := store1 },
                    calls := calls ++ [Event.BatchRollback] }
                | Except.ok store2 =>
                  let calls := calls ++ [Event.BatchCommit]
                  match Batch.Commit bc1.accountStateDB batch with
                  | Except.error err =>
                    { err := some err, chain := { bc1 with bcStore := store2 },
                      calls := calls ++ [Event.BatchRollback] }
                  | Except.ok db =>
                    { err := none,
                      chain := { bc1 with bcStore := store2, accountStateDB := db },
                      calls := calls }

/-- The errors that come from the stores or from the loop bound. -/
def Err.fromStore : Err → Prop
  | Err.store _ => True
  | Err.outOfFuel => True
  | _ => False

/-- The call `WriteBlock(block)` fails in one of its first steps: the duplicate
check (the store reports the block, or fails), the parent lookup,
`validateBlock`, `applyTxs` (validation of the reward transaction, opening the
state view at the parent, applying the transactions), or the comparison of the
committed state root with `block.Header.StateHash`. -/
def FailsBeforeStoreWrites (env : Env) (bc : Blockchain) (block : Block) : Prop :=
  bc.bcStore.HasBlock block.HeaderHash ≠ Except.ok false ∨
  (∃ e, bc.bcStore.GetBlock block.Header.PreviousBlockHash = Except.error e) ∨
  (∃ preBlock, bc.bcStore.GetBlock block.Header.PreviousBlockHash = Except.ok preBlock ∧
    (validateBlock env.hashing bc.engine block preBlock ≠ none ∨
     (∃ e, applyTxs env bc block preBlock = Except.error e) ∨
     (∃ blockStatedb, applyTxs env bc block preBlock = Except.ok blockStatedb ∧
        (blockStatedb.Commit env.stateRootHash []).1 ≠ block.Header.StateHash)))

/-- Two stores that differ at most in the canonical height-to-hash map. -/
def SameButCanonical (s s' : BlockchainStore) : Prop :=
  s'.blocks = s.blocks ∧ s'.headers = s.headers ∧
    s'.totalDifficulties = s.totalDifficulties ∧ s'.headBlockHash = s.headBlockHash ∧
    s'.ioFails = s.ioFails

/-- A member of the leaves that no member beats in the order of `better`. -/
def IsBestLeaf (leaves : BlockLeaves) (b : BlockIndex) : Prop :=
  b ∈ leaves ∧ ∀ i ∈ leaves, i.better b = false

/-- The ancestor walk of `updateHashByHeight`: `OnChain headers a y` says that
`a` is `y` or an ancestor of `y`, reached from `y` along the
`PreviousBlockHash` links of stored headers without passing the empty hash. -/
inductive OnChain (headers : Hash → Option BlockHeader) : Hash → Hash → Prop where
  | self {y : Hash} {hdr : BlockHeader} :
      y ≠ EmptyHash → headers y = some hdr → OnChain headers y y
  | parent {a y : Hash} {hdr : BlockHeader} :
      y ≠ EmptyHash → headers y = some hdr → OnChain headers a hdr.PreviousBlockHash →
      OnChain headers a y

/-- Every stored header has height equal to the height of its parent plus one. -/
def HeightsConsistent (headers : Hash → Option BlockHeader) : Prop :=
  ∀ x hx hp, headers x = some hx → hx.PreviousBlockHash ≠ EmptyHash →
    headers hx.PreviousBlockHash = some hp → hx.Height = hp.Height + 1

/-- The canonical map holds, for every height up to the height of `head`, the
hash of the ancestor of `head` (or `head` itself) at that height. -/
def CanonicalUpTo (s : BlockchainStore) (head : Hash) (headHeader : BlockHeader) : Prop :=
  s.headers head = some headHeader ∧
  ∀ h, h ≤ headHeader.Height →
    ∃ a ha, s.hashByHeight h = some a ∧ OnChain s.headers a head ∧
      s.headers a = some ha ∧ ha.Height = h

/-- For every height below the height of `block`, the map `canonical` at that
height is the hash of the ancestor of `block` at that height. -/
def AncestorsCanonical (headers : Hash → Option BlockHeader) (canonical : Nat → Option Hash)
    (block : Block) : Prop :=
  ∀ h a ha, h < block.Header.Height → OnChain headers a block.Header.PreviousBlockHash →
    headers a = some ha → ha.Height = h → canonical h = some a

/-- A canonical entry `x` at a height up to `n` is a stored header of that
height, and the whole chain of `x` is canonical. -/
def GoodUpTo (headers : Hash → Option BlockHeader) (canonical : Nat → Option Hash)
    (n : Nat) : Prop :=
  ∀ h x, h ≤ n → canonical h = some x →
    (∃ hx, headers x = some hx ∧ hx.Height = h) ∧
    ∀ a ha, OnChain headers a x → headers a = some ha → canonical ha.Height = some a

/-- No member's previous-block-hash is a key of the leaves set. -/
def NoLeafIsParent (leaves : BlockLeaves) : Prop :=
  ∀ i ∈ leaves, ∀ j ∈ leaves,
    i.currentBlock.Header.PreviousBlockHash ≠ j.currentBlock.HeaderHash

/-! ## `NewBlockchain`, `CurrentBlock` and the RPC methods of `seele/api.go` -/

/-- Modelled from the spec: the constant `genesisBlockHeight` (not under `src/`);
spec 3: "Genesis block: height 0". -/
def genesisBlockHeight : Nat := 0

/-- The function `NewBlockchain` (blockchain.go, lines 80-132). The constructor
`NewHeaderChain` and the engine `pow.Engine` live in files that are not under
`src/` and are parameters. -/
def NewBlockchain (NewHeaderChain : BlockchainStore → Except Err HeaderChain)
    (powEngine : consensusEngine) (bcStore : BlockchainStore) (accountStateDB : Database) :
    Except Err Blockchain :=
  match NewHeaderChain bcStore with
  | Except.error err => Except.error err
  | Except.ok headerChain =>
    -- Get the genesis block from store
    match bcStore.GetBlockHash genesisBlockHeight with
    | Except.error err => Except.error err
    | Except.ok genesisHash =>
      match bcStore.GetBlock genesisHash with
      | Except.error err => Except.error err
      | Except.ok genesisBlock =>
        -- Get the HEAD block from store
        match bcStore.GetHeadBlockHash with
        | Except.error err => Except.error err
        | Except.ok currentHeaderHash =>
          match bcStore.GetBlock currentHeaderHash with
          | Except.error err => Except.error err
          | Except.ok currentBlock =>
            match bcStore.GetBlockTotalDifficulty currentHeaderHash with
            | Except.error err => Except.error err
            | Except.ok td =>
              -- Get the state DB of the current block
              match NewStatedb currentBlock.Header.StateHash accountStateDB with
              | Except.error err => Except.error err
              | Except.ok currentState =>
                let blockIndex := NewBlockIndex currentState currentBlock td
                Except.ok
                  { bcStore := bcStore
                    accountStateDB := accountStateDB
                    engine := powEngine
                    headerChain := headerChain
                    genesisBlock := genesisBlock
                    blockLeaves := NewBlockLeaves.Add blockIndex }

/-- The method `Blockchain.CurrentBlock` (blockchain.go, lines 134-145): the
block and the state of the best block index, or `none` for Go's `nil, nil`. -/
def Blockchain.CurrentBlock (bc : Blockchain) : Option (Block × Statedb) :=
  match bc.blockLeaves.GetBestBlockIndex with
  | none => none
  | some index => some (index.currentBlock, index.state)

/-- The method `Blockchain.CurrentState` (blockchain.go, lines 147-151). -/
def Blockchain.CurrentState (bc : Blockchain) : Option Statedb :=
  match bc.CurrentBlock with
  | none => none
  | some (_, state) => some state

/-- The method `Blockchain.GetStore` (blockchain.go, lines 259-262). -/
def Blockchain.GetStore (bc : Blockchain) : BlockchainStore := bc.bcStore

/-- The type `SeeleService` (seeleservice.go), with the fields `api.go` reads. -/
structure SeeleService where
  Coinbase : Address
  chain : Blockchain

/-- The type `PublicSeeleAPI` (api.go, lines 17-20). -/
structure PublicSeeleAPI where
  s : SeeleService

/-- The type `GetBlockByHeightRequest` (api.go, lines 87-91); `Height` is an `int64`. -/
structure GetBlockByHeightRequest where
  Height : Int
  FullTx : Bool

/-- One element of the `"transactions"` list of the RPC output: the hash of the
transaction, or its fields in full detail. -/
inductive RpcTransaction where
  | hash (hash : Hash)
  | full (hash : Hash) (sender recipient : Address) (amount : Option Int)
      (accountNonce : Nat) (payload : List Nat) (timestamp : Nat)
  deriving DecidableEq, Repr

/-- The map that `rpcOutputBlock` builds, as a record of its keys. The `ToHex`
renderings of hashes and addresses are left as the values themselves. -/
structure RpcBlock where
  height : Nat
  hash : Hash
  parentHash : Hash
  nonce : Nat
  stateHash : Hash
  txHash : Hash
  creator : Address
  timestamp : Nat
  difficulty : Int
  transactions : List RpcTransaction
  deriving DecidableEq, Repr

/-- The closure `formatTx` of `rpcOutputBlock` (api.go, lines 159-176). With
`fullTx` it dereferences `tx.Data` and `tx.Data.To`, which panics when one of
them is nil. -/
def formatTx (fullTx : Bool) (tx : Transaction) : Except Err RpcTransaction :=
  if fullTx then
    match tx.Data with
    | none => Except.error Err.nilDereference
    | some data =>
      match data.To with
      | none => Except.error Err.nilDereference
      | some dst =>
        Except.ok (RpcTransaction.full tx.Hash data.From dst data.Amount data.AccountNonce
          data.Payload data.Timestamp)
  else Except.ok (RpcTransaction.hash tx.Hash)

/-- The loop `for i, tx := range txs` of `rpcOutputBlock` (api.go, lines 178-182). -/
def formatTxs (fullTx : Bool) : List Transaction → Except Err (List RpcTransaction)
  | [] => Except.ok []
  | tx :: txs =>
    match formatTx fullTx tx with
    | Except.error err => Except.error err
    | Except.ok out =>
      match formatTxs fullTx txs with
      | Except.error err => Except.error err
      | Except.ok outs => Except.ok (out :: outs)

/-- The function `rpcOutputBlock` (api.go, lines 143-185). It dereferences the
block, which panics for a nil block. -/
def rpcOutputBlock (b : Option Block) (fullTx : Bool) : Except Err RpcBlock :=
  match b with
  | none => Except.error Err.nilDereference
  | some b =>
    match formatTxs fullTx b.Transactions with
    | Except.error err => Except.error err
    | Except.ok transactions =>
      Except.ok
        { height := b.Header.Height
          hash := b.HeaderHash
          parentHash := b.Header.PreviousBlockHash
          nonce := b.Header.Nonce
          stateHash := b.Header.StateHash
          txHash := b.Header.TxHash
          creator := b.Header.Creator
          timestamp := b.Header.CreateTimestamp
          difficulty := b.Header.Difficulty
          transactions := transactions }

/-- The method `PublicSeeleAPI.GetBlockByHeight` (api.go, lines 93-117). The
argument `result` is what the pointer `result` points to before the call; the
outcome is the error returned and what it points to after the call. -/
def PublicSeeleAPI.GetBlockByHeight (api : PublicSeeleAPI) (request : GetBlockByHeightRequest)
    (result : Option RpcBlock) : Option Err × Option RpcBlock :=
  let store := api.s.chain.GetStore
  let lookup : Except Err (Option Block) :=
    if request.Height < 0 then
      -- block, _ = api.s.chain.CurrentBlock()
      match api.s.chain.CurrentBlock with
      | none => Except.ok none
      | some (block, _) => Except.ok (some block)
    else
      match store.GetBlockHash request.Height.toNat with
      | Except.error err => Except.error err
      | Except.ok hash =>
        match store.GetBlock hash with
        | Except.error er => Except.error er
        | Except.ok block => Except.ok (some block)
  match lookup with
  | Except.error err => (some err, result)
  | Except.ok block =>
    match rpcOutputBlock block request.FullTx with
    | Except.error err => (some err, result)
    | Except.ok response => (none, some response)

/-- The outcome of `GetBalance`: the error returned, and what the pointers
`account` and `result` point to after the call. -/
structure GetBalanceOutcome where
  err : Option Err
  account : Option Address
  result : Option Int
  deriving DecidableEq, Repr

/-- The method `PublicSeeleAPI.GetBalance` (api.go, lines 47-57). `account` and
`result` are pointers (`none` is nil). The zero address `common.Address{}` is
`0`. Line 50 stores the coinbase through `account`, which panics for a nil
`account`; reading through a nil state or writing through a nil `result` panics
as well. -/
def PublicSeeleAPI.GetBalance (api : PublicSeeleAPI) (account : Option Address)
    (result : Option Int) : GetBalanceOutcome :=
  -- if account == nil || account.Equal(common.Address{}) { *account = api.s.Coinbase }
  let stored : Except Err (Option Address) :=
    match account with
    | none => Except.error Err.nilDereference
    | some a => if a = 0 then Except.ok (some api.s.Coinbase) else Except.ok (some a)
  match stored with
  | Except.error err => { err := some err, account := account, result := result }
  | Except.ok account =>
    match api.s.chain.CurrentState, account, result with
    | some state, some a, some _ =>
      { err := none, account := account, result := some (state.GetBalance a) }
    | _, _, _ => { err := some Err.nilDereference, account := account, result := result }

/-! ## The trie of `trie/trie.go` -/

/-- A key of the trie: the bytes of `key []byte`. -/
abbrev TrieKey := List Nat

/-- A value of the trie: the bytes of `value []byte`. -/
abbrev TrieValue := List Nat

/-- Modelled from the spec: the nodes of the "versioned account trie" of spec
4.C. The file `trie/trie.go` is not among the sources; only its test
`trie/trie_test.go` is. The nodes are those of a path-compressed trie: a leaf
holds the rest of a key and its value, an extension holds a shared run of key
bytes and the node below it, a branch holds one child per next key byte and the
value of the key that ends at the branch. -/
inductive TrieNode where
  | nil : TrieNode
  | leaf (key : TrieKey) (value : TrieValue) : TrieNode
  | ext (key : TrieKey) (next : TrieNode) : TrieNode
  | branch (children : Nat → TrieNode) (value : Option TrieValue) : TrieNode

/-- Modelled from the spec: part of the key walk of the absent `trie/trie.go`:
the rest of `key` after the run `run`, if `key` starts with `run`. -/
def keyAfter : TrieKey → TrieKey → Option TrieKey
  | [], key => some key
  | _ :: _, [] => none
  | x :: run, y :: key => if x = y then keyAfter run key else none

/-- Modelled from the spec: part of the key walk of the absent `trie/trie.go`:
the longest run of bytes with which both keys start. -/
def sharedRun : TrieKey → TrieKey → TrieKey
  | x :: a, y :: b => if x = y then x :: sharedRun a b else []
  | _, _ => []

/-- Modelled from the spec: the lookup of a key below a node (`Trie.Get` of the
absent `trie/trie.go`), following the key bytes down the nodes. -/
def TrieNode.get : TrieNode → TrieKey → Option TrieValue
  | TrieNode.nil, _ => none
  | TrieNode.leaf key value, k => if k = key then some value else none
  | TrieNode.ext key next, k =>
    match keyAfter key k with
    | some rest => next.get rest
    | none => none
  | TrieNode.branch _ value, [] => value
  | TrieNode.branch children _, x :: rest => (children x).get rest

/-- Modelled from the spec: part of `Trie.Put` of the absent `trie/trie.go`: an
extension node over `run`, or the node itself for the empty run. -/
def TrieNode.withRun (run : TrieKey) (node : TrieNode) : TrieNode :=
  if run = [] then node else TrieNode.ext run node

/-- Modelled from the spec: part of `Trie.Put` of the absent `trie/trie.go`: the
branch after the value `value` is hung at the key `key` below it, as a leaf in the child slot of the first byte of
`key`, or in the value slot of the branch when `key` is empty. -/
def hang (children : Nat → TrieNode) (slot : Option TrieValue) (key : TrieKey)
    (value : TrieValue) : TrieNode :=
  match key with
  | [] => TrieNode.branch children (some value)
  | x :: rest => TrieNode.branch (Function.update children x (TrieNode.leaf rest value)) slot

/-- Modelled from the spec: part of `Trie.Put` of the absent `trie/trie.go`: the
node that replaces the leaf `(key, old)` when the different key `k` is put: an extension over the run the two keys share, then a branch holding both. -/
def splitLeaf (key : TrieKey) (old : TrieValue) (k : TrieKey) (value : TrieValue) : TrieNode :=
  let run := sharedRun key k
  match key.drop run.length with
  | [] => TrieNode.withRun run (hang (fun _ => TrieNode.nil) (some old) (k.drop run.length) value)
  | x :: rest =>
    TrieNode.withRun run
      (hang (Function.update (fun _ => TrieNode.nil) x (TrieNode.leaf rest old)) none
        (k.drop run.length) value)

/-- Modelled from the spec: part of `Trie.Put` of the absent `trie/trie.go`: the
node that replaces the extension `(key, next)` when a key `k` that does not
start with `key` is put: an extension over the run that `key` and `k`
share, then a branch holding the rest of the extension and the new value. -/
def splitExt (key : TrieKey) (next : TrieNode) (k : TrieKey) (value : TrieValue) : TrieNode :=
  let run := sharedRun key k
  match key.drop run.length with
  | [] => TrieNode.ext key next
  | x :: rest =>
    TrieNode.withRun run
      (hang (Function.update (fun _ => TrieNode.nil) x (TrieNode.withRun rest next)) none
        (k.drop run.length) value)

/-- Modelled from the spec: the insertion of a key below a node (`Trie.Put` of
the absent `trie/trie.go`): an equal key is overwritten, a key that leaves the
path of a leaf or an extension splits it into a branch, and a key that passes a
branch goes on in the child of its next byte. -/
def TrieNode.put : TrieNode → TrieKey → TrieValue → TrieNode
  | TrieNode.nil, k, v => TrieNode.leaf k v
  | TrieNode.leaf key old, k, v =>
    if k = key then TrieNode.leaf key v else splitLeaf key old k v
  | TrieNode.ext key next, k, v =>
    match keyAfter key k with
    | some rest => TrieNode.ext key (next.put rest v)
    | none => splitExt key next k v
  | TrieNode.branch children _, [], v => TrieNode.branch children (some v)
  | TrieNode.branch children slot, x :: rest, v =>
    TrieNode.branch (Function.update children x ((children x).put rest v)) slot

/-- Modelled from the spec: the trie handle of the absent `trie/trie.go`: the
root node and the key prefix under which its nodes are stored. -/
structure Trie where
  root : TrieNode
  dbPrefix : List Nat

/-- Modelled from the spec: the trie that `NewTrie` gives for the empty root
hash, as in `NewTrie(common.Hash{}, []byte("trietest"), db)`. -/
def Trie.empty (dbPrefix : List Nat) : Trie :=
  { root := TrieNode.nil, dbPrefix := dbPrefix }

/-- Modelled from the spec: `Trie.Put(key, value)`. -/
def Trie.Put (t : Trie) (key : TrieKey) (value : TrieValue) : Trie :=
  { t with root := t.root.put key value }

/-- Modelled from the spec: `Trie.Get(key)`, the value and whether the key has
one; the value is empty when it has none. -/
def Trie.Get (t : Trie) (key : TrieKey) : TrieValue × Bool :=
  match t.root.get key with
  | some value => (value, true)
  | none => ([], false)

/-- A sequence of `Put` operations, applied first to last. -/
def Trie.PutAll (t : Trie) (puts : List (TrieKey × TrieValue)) : Trie :=
  puts.foldl (fun t p => t.Put p.1 p.2) t

/-- The value of the most recent `Put` for `key` in a sequence of `Put`
operations, as the specification words it; `none` when no `Put` names the key. -/
def mostRecentPut (puts : List (TrieKey × TrieValue)) (key : TrieKey) : Option TrieValue :=
  match puts.reverse.find? (fun p => p.1 = key) with
  | some p => some p.2
  | none => none

/-- Modelled from the spec: the removal of a key below a node (`Trie.Delete` of
the absent `trie/trie.go`): whether the key had a value, and the node left
behind. The walk is that of `TrieNode.get`; the leaf of the key becomes the
empty node and a value slot of a branch is cleared. Nodes are not merged
afterwards, which reads the same. -/
def TrieNode.delete : TrieNode → TrieKey → Bool × TrieNode
  | TrieNode.nil, _ => (false, TrieNode.nil)
  | TrieNode.leaf key value, k =>
    if k = key then (true, TrieNode.nil) else (false, TrieNode.leaf key value)
  | TrieNode.ext key next, k =>
    match keyAfter key k with
    | some rest => ((next.delete rest).1, TrieNode.ext key (next.delete rest).2)
    | none => (false, TrieNode.ext key next)
  | TrieNode.branch children slot, [] => (slot.isSome, TrieNode.branch children none)
  | TrieNode.branch children slot, x :: rest =>
    (((children x).delete rest).1,
      TrieNode.branch (Function.update children x ((children x).delete rest).2) slot)

/-- Modelled from the spec: `Trie.Delete(key)`: whether the key had a value, and
the trie afterwards (Go changes the trie in place). -/
def Trie.Delete (t : Trie) (key : TrieKey) : Bool × Trie :=
  ((t.root.delete key).1, { t with root := (t.root.delete key).2 })

/-! ### `Commit` and `NewTrie` -/

/-- The number of child slots of a branch: one for each value of a key byte. -/
def branchWidth : Nat := 256

/-- Modelled from the spec: a trie node as the database holds it under its hash
(spec 3: the hash is the "content address for ... trie nodes"): the nodes below
it are named by their hashes, and the empty hash names the empty node. -/
inductive StoredNode where
  | leaf (key : TrieKey) (value : TrieValue) : StoredNode
  | ext (key : TrieKey) (next : Hash) : StoredNode
  | branch (children : List Hash) (value : Option TrieValue) : StoredNode
  deriving DecidableEq, Repr

/-- Modelled from the spec: the `database.Database` as the trie uses it: the
node stored under a key prefix and a hash. `commitFails` tells whether
committing a batch hits an I/O failure. -/
structure TrieDatabase where
  nodes : List Nat → Hash → Option StoredNode
  commitFails : Bool

/-- Modelled from the spec: one write of a batch (`Batch.put(key, bytes)`, spec
6): a stored node under a key prefix and a hash. -/
structure TrieWrite where
  dbPrefix : List Nat
  hash : Hash
  node : StoredNode
  deriving DecidableEq, Repr

/-- Modelled from the spec: a batch of the database under a trie (`new-batch()`,
spec 6): the writes enqueued so far. -/
abbrev TrieBatch := List TrieWrite

/-- Modelled from the spec: the hash of a node (for the root: `Trie.Hash` of the
absent `trie/trie.go`): the hash function `hashNode` of the stored form
of the node, in which the nodes below are named by their hashes; the empty node
has the empty hash. -/
def TrieNode.hash (hashNode : StoredNode → Hash) : TrieNode → Hash
  | TrieNode.nil => EmptyHash
  | TrieNode.leaf key value => hashNode (StoredNode.leaf key value)
  | TrieNode.ext key next => hashNode (StoredNode.ext key (next.hash hashNode))
  | TrieNode.branch children slot =>
    hashNode (StoredNode.branch
      ((List.range branchWidth).map (fun i => (children i).hash hashNode)) slot)

/-- Modelled from the spec: the writes that `commit(batch)` enqueues for a node
("serialises all dirty nodes into the batch"): the nodes below it first, then
the node itself under its hash. The empty node is not stored. Every node counts
as dirty. -/
def TrieNode.writes (hashNode : StoredNode → Hash) (dbPrefix : List Nat) : TrieNode → TrieBatch
  | TrieNode.nil => []
  | TrieNode.leaf key value =>
    [{ dbPrefix := dbPrefix, hash := hashNode (StoredNode.leaf key value),
       node := StoredNode.leaf key value }]
  | TrieNode.ext key next =>
    next.writes hashNode dbPrefix ++
      [{ dbPrefix := dbPrefix, hash := hashNode (StoredNode.ext key (next.hash hashNode)),
         node := StoredNode.ext key (next.hash hashNode) }]
  | TrieNode.branch children slot =>
    (List.range branchWidth).flatMap (fun i => (children i).writes hashNode dbPrefix) ++
      [{ dbPrefix := dbPrefix,
         hash := hashNode (StoredNode.branch
          ((List.range branchWidth).map (fun i => (children i).hash hashNode)) slot),
         node := StoredNode.branch
          ((List.range branchWidth).map (fun i => (children i).hash hashNode)) slot }]

/-- The number of nodes on the longest path from a node down to a leaf, over the
child slots of the key bytes. -/
def TrieNode.height : TrieNode → Nat
  | TrieNode.nil => 0
  | TrieNode.leaf _ _ => 1
  | TrieNode.ext _ next => next.height + 1
  | TrieNode.branch children _ =>
    ((List.range branchWidth).map (fun i => (children i).height)).foldr max 0 + 1

/-- Modelled from the spec: `Trie.Commit(batch)`: "serialises all dirty nodes
into the batch and returns the new root hash. Committing does not affect the
underlying KV until the batch itself is committed by the caller". -/
def Trie.Commit (hashNode : StoredNode → Hash) (t : Trie) (batch : TrieBatch) :
    Hash × TrieBatch :=
  (t.root.hash hashNode, batch ++ t.root.writes hashNode t.dbPrefix)

/-- Modelled from the spec: `Batch.Commit()` on the database under a trie: all
writes of the batch in their order, or an I/O error and no write. -/
def TrieBatch.Commit (db : TrieDatabase) (batch : TrieBatch) : Except Err TrieDatabase :=
  if db.commitFails then Except.error (Err.store StoreErr.ioFailure)
  else
    Except.ok
      { db with
        nodes := batch.foldl
          (fun nodes w => fun p h => if p = w.dbPrefix ∧ h = w.hash then some w.node else nodes p h)
          db.nodes }

/-- The results of `f` on the elements of a list, or the first error. -/
def mapExcept {α β : Type} (f : α → Except Err β) : List α → Except Err (List β)
  | [] => Except.ok []
  | a :: rest =>
    match f a with
    | Except.error err => Except.error err
    | Except.ok b =>
      match mapExcept f rest with
      | Except.error err => Except.error err
      | Except.ok bs => Except.ok (b :: bs)

/-- Modelled from the spec: the loading of the node stored under `hash`, with
the nodes below it. The empty hash names the empty node; a hash without node in
the database fails ("Creating a view from a root that is absent from the KV
fails with MissingStateNode"). The nodes below are loaded at once; `fuel` bounds
the number of nodes on a path. -/
def loadNode (db : TrieDatabase) (dbPrefix : List Nat) : Nat → Hash → Except Err TrieNode
  | 0, hash => if hash = EmptyHash then Except.ok TrieNode.nil else Except.error Err.outOfFuel
  | fuel + 1, hash =>
    if hash = EmptyHash then Except.ok TrieNode.nil
    else
      match db.nodes dbPrefix hash with
      | none => Except.error (Err.store StoreErr.missingStateNode)
      | some (StoredNode.leaf key value) => Except.ok (TrieNode.leaf key value)
      | some (StoredNode.ext key next) =>
        match loadNode db dbPrefix fuel next with
        | Except.error err => Except.error err
        | Except.ok node => Except.ok (TrieNode.ext key node)
      | some (StoredNode.branch children slot) =>
        match mapExcept (loadNode db dbPrefix fuel) children with
        | Except.error err => Except.error err
        | Except.ok nodes =>
          Except.ok (TrieNode.branch (fun i => nodes.getD i TrieNode.nil) slot)

/-- Modelled from the spec: `NewTrie(root, dbPrefix, db)`: the trie whose root
is the node stored under the hash `root`; the empty hash gives the empty trie. -/
def NewTrie (fuel : Nat) (root : Hash) (dbPrefix : List Nat) (db : TrieDatabase) :
    Except Err Trie :=
  match loadNode db dbPrefix fuel root with
  | Except.error err => Except.error err
  | Except.ok node => Except.ok { root := node, dbPrefix := dbPrefix }

/-- A key made of bytes, as every Go `[]byte` is. -/
def IsByteKey (key : TrieKey) : Prop := ∀ b ∈ key, b < branchWidth

instance (key : TrieKey) : Decidable (IsByteKey key) := by
  unfold IsByteKey
  infer_instance

/-- An operation on a trie: `Put(key, value)` or `Delete(key)`. -/
inductive TrieOp where
  | put (key : TrieKey) (value : TrieValue) : TrieOp
  | delete (key : TrieKey) : TrieOp
  deriving DecidableEq, Repr

/-- The key that an operation names. -/
def TrieOp.key : TrieOp → TrieKey
  | TrieOp.put key _ => key
  | TrieOp.delete key => key

/-- One operation applied to a trie. -/
def Trie.apply (t : Trie) : TrieOp → Trie
  | TrieOp.put key value => t.Put key value
  | TrieOp.delete key => (t.Delete key).2

/-- A sequence of `Put` and `Delete` operations, applied first to last. -/
def Trie.applyAll (t : Trie) (ops : List TrieOp) : Trie :=
  ops.foldl Trie.apply t

/-- What a key reads after a sequence of operations on a trie in memory, in the
words of the specification: a deleted key reads empty, a key that was put reads
the value put, by the most recent operation that names the key, and an untouched
key keeps what it read before, which is `before`. -/
def readAfter (before : TrieValue × Bool) (ops : List TrieOp) (key : TrieKey) :
    TrieValue × Bool :=
  match ops.reverse.find? (fun op => op.key = key) with
  | some (TrieOp.put _ value) => (value, true)
  | some (TrieOp.delete _) => ([], false)
  | none => before

/-! ## A concrete chain for the worked examples -/

namespace Example

/-- Hash functions of the examples: a header hashes to its `Nonce` field, a
transaction list to its length, a state view to the balance of address `7`. -/
def env : Env :=
  { hashing := { headerHash := fun h => h.Nonce, MerkleRootHash := fun txs => txs.length }
    stateRootHash := fun view => (view.GetBalance 7).toNat
    verifySignature := fun _ => true }

/-- An engine that accepts every header and every reward amount. -/
def engine : consensusEngine :=
  { ValidateHeader := fun _ => none, ValidateRewardAmount := fun _ => none }

/-- The empty state view. -/
def emptyView : Statedb := fun _ => none

/-- The genesis block: hash `100`, height `0`, difficulty `1`. -/
def genesis : Block :=
  { HeaderHash := 100
    Header := { PreviousBlockHash := EmptyHash, Creator := 0, StateHash := 0, TxHash := 0,
                Difficulty := 1, Height := 0, CreateTimestamp := 0, Nonce := 100 }
    Transactions := [] }

/-- A store that holds the genesis block only. -/
def store : BlockchainStore :=
  { blocks := fun h => if h = 100 then some genesis else none
    headers := fun h => if h = 100 then some genesis.Header else none
    totalDifficulties := fun h => if h = 100 then some 1 else none
    hashByHeight := fun n => if n = 0 then some 100 else none
    headBlockHash := some 100
    ioFails := fun _ => false }

/-- The blockchain right after start-up on `store`. -/
def chain : Blockchain :=
  { bcStore := store
    accountStateDB := { states := fun r => if r = 0 then some emptyView else none,
                        commitFails := false }
    engine := engine
    headerChain := [genesis.Header]
    genesisBlock := genesis
    blockLeaves := [NewBlockIndex emptyView genesis 1] }

/-- A reward transaction of `5` to address `7`. -/
def rewardTx : Transaction :=
  { Hash := 1
    Data := some { From := 0, To := some 7, Amount := some 5, AccountNonce := 0,
                   Timestamp := 0, Payload := [] } }

/-- A transfer of `3` from address `7` (nonce `0`) to address `8`. -/
def transferTx : Transaction :=
  { Hash := 2
    Data := some { From := 7, To := some 8, Amount := some 3, AccountNonce := 0,
                   Timestamp := 0, Payload := [] } }

/-- A valid child of the genesis block: hash `101`, difficulty `2`, one reward
transaction, state root `5`. -/
def block1 : Block :=
  { HeaderHash := 101
    Header := { PreviousBlockHash := 100, Creator := 7, StateHash := 5, TxHash := 1,
                Difficulty := 2, Height := 1, CreateTimestamp := 0, Nonce := 101 }
    Transactions := [rewardTx] }

/-- The block `block1` with a state root that the transactions do not produce. -/
def badRootBlock : Block :=
  { block1 with Header := { block1.Header with StateHash := 6 } }

/-- The state view after the reward of `block1`. -/
def view1 : Statedb :=
  Statedb.AddAmount (Statedb.GetOrNewStateObject emptyView 7) 7 5

/-- The genesis block offered again. -/
def duplicateBlock : Block := genesis

/-- The block `block1` with difficulty `0`. -/
def zeroDifficultyBlock : Block :=
  { block1 with Header := { block1.Header with Difficulty := 0 } }

/-- The store `store` with a failing key-value layer under `GetBlock`. -/
def brokenStore : BlockchainStore :=
  { store with ioFails := fun op => decide (op = StoreOp.GetBlock) }

/-- The blockchain `chain` on `brokenStore`. -/
def brokenChain : Blockchain := { chain with bcStore := brokenStore }

/-- A header of the fork examples: hash `hash`, parent `parent`, height `height`. -/
def forkHeader (hash parent : Hash) (height : Nat) : BlockHeader :=
  { PreviousBlockHash := parent, Creator := 0, StateHash := 0, TxHash := 0,
    Difficulty := 1, Height := height, CreateTimestamp := 0, Nonce := hash }

/-- The headers of a forked chain: genesis `100`, its children `101` and `111`,
and the fork `111`, `112`, `113` of heights `1`, `2`, `3`. -/
def forkHeaders : Hash → Option BlockHeader := fun h =>
  if h = 100 then some (forkHeader 100 EmptyHash 0)
  else if h = 101 then some (forkHeader 101 100 1)
  else if h = 111 then some (forkHeader 111 100 1)
  else if h = 112 then some (forkHeader 112 111 2)
  else if h = 113 then some (forkHeader 113 112 3)
  else none

/-- A store with HEAD `101` whose canonical map is `0 ↦ 100`, `1 ↦ 101`. -/
def forkStore : BlockchainStore :=
  { blocks := fun _ => none
    headers := forkHeaders
    totalDifficulties := fun _ => none
    hashByHeight := fun n => if n = 0 then some 100 else if n = 1 then some 101 else none
    headBlockHash := some 101
    ioFails := fun _ => false }

/-- The store `forkStore` with a stale canonical entry `3 ↦ 113` above HEAD. -/
def staleStore : BlockchainStore :=
  { forkStore with
    hashByHeight := fun n =>
      if n = 0 then some 100 else if n = 1 then some 101
      else if n = 3 then some 113 else none }

/-- A new best block of height `2` on the fork: hash `112`, parent `111`. -/
def forkBlock2 : Block :=
  { HeaderHash := 112, Header := forkHeader 112 111 2, Transactions := [] }

/-- A new best block of height `4` on the fork: hash `114`, parent `113`. -/
def forkBlock4 : Block :=
  { HeaderHash := 114, Header := forkHeader 114 113 4, Transactions := [] }

/-- A transaction from address `7` without recipient, of amount `100`. -/
def creationTx : Transaction :=
  { Hash := 3
    Data := some { From := 7, To := none, Amount := some 100, AccountNonce := 0,
                   Timestamp := 0, Payload := [] } }

/-- A transaction from address `7` without recipient, of amount `1`. -/
def smallCreationTx : Transaction :=
  { Hash := 4
    Data := some { From := 7, To := none, Amount := some 1, AccountNonce := 1,
                   Timestamp := 0, Payload := [] } }

/-- A block of the largest `uint64` height, without parent. -/
def maxHeightBlock : Block :=
  { HeaderHash := 130
    Header := { PreviousBlockHash := EmptyHash, Creator := 0, StateHash := 0, TxHash := 0,
                Difficulty := 1, Height := 18446744073709551615, CreateTimestamp := 0,
                Nonce := 130 }
    Transactions := [] }

/-- A new best block of height `3` on the fork: hash `113`, parent `112`. -/
def forkBlock3 : Block :=
  { HeaderHash := 113, Header := forkHeader 113 112 3, Transactions := [] }

/-- A block with one reward transaction of `5` to address `7`: hash `hash`,
parent `parent`, height `height`, difficulty `difficulty`, state root `root`. -/
def rewardBlock (hash parent : Hash) (height : Nat) (difficulty : Int) (root : Hash) : Block :=
  { HeaderHash := hash
    Header := { PreviousBlockHash := parent, Creator := 7, StateHash := root, TxHash := 1,
                Difficulty := difficulty, Height := height, CreateTimestamp := 0,
                Nonce := hash }
    Transactions := [rewardTx] }

/-- The chain after the heavy block `101` (difficulty `10`) on the genesis block. -/
def chainA : Blockchain := (WriteBlock env 8 chain (rewardBlock 101 100 1 10 5)).chain

/-- The chain `chainA` after the light block `111` (difficulty `1`) on the genesis block. -/
def chainB : Blockchain := (WriteBlock env 8 chainA (rewardBlock 111 100 1 1 5)).chain

/-- The chain `chainB` after the light block `112` (difficulty `1`) on block `111`. -/
def chainC : Blockchain := (WriteBlock env 8 chainB (rewardBlock 112 111 2 1 10)).chain

/-- The block `113` of difficulty `20` on block `112`: the fork `111, 112, 113`
then has total difficulty `23` against `11` for the canonical chain. -/
def winningBlock : Block := rewardBlock 113 112 3 20 15

/-- The blockchain `chain` on an account state database whose batch commit fails. -/
def commitFailChain : Blockchain :=
  { chain with accountStateDB := { chain.accountStateDB with commitFails := true } }

/-- A stored block `120` whose parent `101` is not stored. -/
def orphan : Block :=
  { HeaderHash := 120
    Header := { PreviousBlockHash := 101, Creator := 7, StateHash := 0, TxHash := 0,
                Difficulty := 1, Height := 2, CreateTimestamp := 0, Nonce := 120 }
    Transactions := [] }

/-- The blockchain `chain` with the block `orphan` stored and as only leaf. -/
def orphanChain : Blockchain :=
  { chain with
    bcStore := { store with blocks := fun h =>
                  if h = 100 then some genesis else if h = 120 then some orphan else none }
    blockLeaves := [NewBlockIndex emptyView orphan 1] }

/-- A header chain constructor that reports an I/O error. -/
def failingNewHeaderChain : BlockchainStore → Except Err HeaderChain :=
  fun _ => Except.error (Err.store StoreErr.ioFailure)

/-- A header chain constructor that loads the header of the genesis block. -/
def loadingNewHeaderChain : BlockchainStore → Except Err HeaderChain :=
  fun _ => Except.ok [genesis.Header]

/-- The RPC service on the chain after block `101`, with coinbase `7`. -/
def api : PublicSeeleAPI :=
  { s := { Coinbase := 7, chain := (WriteBlock env 8 chain block1).chain } }

/-- The bytes of a string of decimal digits, as in `[]byte("12345678")`. -/
def digits (ds : List Nat) : TrieKey := ds.map (fun d => d + 48)

/-- The bytes of `"test"` followed by the bytes `suffix`. -/
def testValue (suffix : List Nat) : TrieValue := [116, 101, 115, 116] ++ suffix

/-- The `Put` operations of `Test_trie_Update`, lines 42-50. -/
def updatePuts : List (TrieKey × TrieValue) :=
  [ (digits [1, 2, 3, 4, 5, 6, 7, 8], testValue []),
    (digits [1, 2, 3, 4, 5, 6, 7, 8], testValue [110, 101, 119]),
    (digits [1, 2, 3, 4, 5, 5, 5, 7], testValue [49]),
    (digits [1, 2, 3, 7, 5, 8, 7, 9], testValue [50]),
    (digits [0, 2, 3, 7, 5, 8, 7, 9], testValue [51]),
    (digits [0, 4, 3, 7, 5, 8, 7, 9], testValue [52]),
    (digits [2, 4, 3, 7, 5, 8, 7, 9], testValue [53]),
    (digits [2, 4, 3, 7, 5, 8, 7, 8], testValue [54]),
    (digits [2, 4, 3, 5, 5, 8, 7, 9], testValue [55]) ]

/-- The trie of `Test_trie_Update` after its `Put` operations. -/
def updateTrie : Trie := (Trie.empty [116, 114, 105, 101]).PutAll updatePuts

/-- The `Put` operations of `Test_trie_Delete`, lines 90-97. -/
def deletePuts : List (TrieKey × TrieValue) :=
  [ (digits [1, 2, 3, 4, 5, 6, 7, 8, 1, 2, 3], testValue []),
    (digits [1, 2, 3, 4, 5, 5, 5, 7], testValue [49]),
    (digits [1, 2, 3, 7, 5, 8, 7, 9, 3, 2, 1], testValue [50]),
    (digits [0, 2, 3, 7, 5, 8, 7, 9], testValue [51]),
    (digits [0, 4, 3, 7, 5, 8, 7, 9], testValue [52]),
    (digits [2, 4, 3, 7, 5, 8, 7, 9], testValue [53]),
    (digits [2, 4, 3, 7, 5, 8, 7, 8], testValue [54]),
    (digits [2, 4, 3, 5, 5, 8, 7, 9], testValue [55]) ]

/-- The trie of `Test_trie_Delete` after its `Put` operations. -/
def deleteTrie0 : Trie := (Trie.empty [116, 114, 105, 101]).PutAll deletePuts

/-- The trie of `Test_trie_Delete` after `Delete("12345678123")`. -/
def deleteTrie1 : Trie := (deleteTrie0.Delete (digits [1, 2, 3, 4, 5, 6, 7, 8, 1, 2, 3])).2

/-- The trie of `Test_trie_Delete` after `Delete("12375879321")`. -/
def deleteTrie2 : Trie := (deleteTrie1.Delete (digits [1, 2, 3, 7, 5, 8, 7, 9, 3, 2, 1])).2

/-- The trie of `Test_trie_Delete` after `Delete("24375879")`. -/
def deleteTrie3 : Trie := (deleteTrie2.Delete (digits [2, 4, 3, 7, 5, 8, 7, 9])).2

/-- The trie of `Test_trie_Delete` after `Delete("24375889")`, a key without value. -/
def deleteTrie4 : Trie := (deleteTrie3.Delete (digits [2, 4, 3, 7, 5, 8, 8, 9])).2

/-- A block like `block1` whose transaction list is empty. -/
def emptyTxsBlock : Block := { block1 with Transactions := [] }

/-- A reward transaction that pays the negative amount `-5` to address `7`. -/
def negativeRewardTx : Transaction :=
  { Hash := 3
    Data := some { From := 0, To := some 7, Amount := some (-5), AccountNonce := 0,
                   Timestamp := 0, Payload := [] } }

/-- The view after the reward of `5` to address `7` and the transfer of `3` from
`7` to `8`, on the empty view. -/
def view2 : Statedb :=
  ((((view1.GetOrNewStateObject 7).SubAmount 7 3).SetNonce 7 (u64add 0 1)).GetOrNewStateObject
    8).AddAmount 8 3

/-- The `Put` operations of `Test_trie_Commit`, lines 141-148. -/
def commitPuts : List (TrieKey × TrieValue) :=
  [ (digits [1, 2, 3, 4, 5, 6, 7, 8], testValue []),
    (digits [1, 2, 3, 4, 5, 5, 5, 7], testValue [49]),
    (digits [1, 2, 3, 7, 5, 8, 7, 9], testValue [50]),
    (digits [0, 2, 3, 7, 5, 8, 7, 9], testValue [51]),
    (digits [0, 4, 3, 7, 5, 8, 7, 9], testValue [52]),
    (digits [2, 4, 3, 7, 5, 8, 7, 9], testValue [53]),
    (digits [2, 4, 3, 7, 5, 8, 7, 8], testValue [54]),
    (digits [2, 4, 3, 5, 5, 8, 7, 9], testValue [55]) ]

/-- The bytes of `"trietest"`, the key prefix of the tests. -/
def testPrefix : List Nat := [116, 114, 105, 101, 116, 101, 115, 116]

/-- The trie of `Test_trie_Commit` after its `Put` operations. -/
def commitTrie : Trie := (Trie.empty testPrefix).PutAll commitPuts

/-- The operations of `Test_trie_Commit` on the reopened trie, lines 158-160. -/
def reopenOps : List TrieOp :=
  [ TrieOp.delete (digits [2, 4, 3, 5, 5, 8, 7, 9]),
    TrieOp.put (digits [2, 4, 3, 5, 5, 8, 7, 9, 0]) (testValue [56]),
    TrieOp.put (digits [0, 4, 3, 7, 5, 8, 7, 9, 0]) (testValue [57]) ]

/-- A database without nodes whose batches commit. -/
def emptyTrieDb : TrieDatabase := { nodes := fun _ _ => none, commitFails := false }

/-- The stored nodes as values of a sum of products of lists and numbers. -/
def storedNodeCode :
    StoredNode → (TrieKey × TrieValue) ⊕ ((TrieKey × Hash) ⊕ (List Hash × Option TrieValue))
  | StoredNode.leaf key value => Sum.inl (key, value)
  | StoredNode.ext key next => Sum.inr (Sum.inl (key, next))
  | StoredNode.branch children slot => Sum.inr (Sum.inr (children, slot))

/-- A hash function without collision that never gives the empty hash: the
number of the stored node in an enumeration of all stored nodes, plus one. -/
def hashNode (s : StoredNode) : Hash := Encodable.encode (storedNodeCode s) + 1

/-- A mixing function on lists of numbers, with values below `2 ^ 61 - 1`. -/
def mixHash (l : List Nat) : Nat :=
  l.foldl (fun acc b => (acc * 1000003 + b + 1) % 2305843009213693951) 7

/-- A hash function that is cheap to evaluate: it mixes the fields of the
stored node and never gives the empty hash. -/
def testHash : StoredNode → Hash
  | StoredNode.leaf key value => mixHash (1 :: key.length :: (key ++ value)) + 1
  | StoredNode.ext key next => mixHash (2 :: next :: key) + 1
  | StoredNode.branch children none => mixHash (3 :: children) + 1
  | StoredNode.branch children (some value) => mixHash (4 :: (children ++ value)) + 1

/-- The trie of `Test_trie_Commit` reopened with `NewTrie` from the root hash
that `Commit` returned, after the batch has been committed to an empty
database, under the hash function `testHash`; `none` if a step fails. -/
def reopenedTrie : Option Trie :=
  match TrieBatch.Commit emptyTrieDb (commitTrie.Commit testHash []).2 with
  | Except.error _ => none
  | Except.ok db =>
    match NewTrie 16 (commitTrie.Commit testHash []).1 testPrefix db with
    | Except.error _ => none
    | Except.ok t => some t

/-- The database after the batch of `commitTrie.Commit` under `hashNode` has
been committed to the empty database. -/
def committedTrieDb : TrieDatabase :=
  match TrieBatch.Commit emptyTrieDb (commitTrie.Commit hashNode []).2 with
  | Except.error _ => emptyTrieDb
  | Except.ok db => db

end Example

/-! ## Lemmas on `uint64` arithmetic -/

/-- Below the largest `uint64` value, Go's `+ 1` is the successor. -/
theorem u64add_one_of_lt (n : Nat) (h : n + 1 < uint64Size) : u64add n 1 = n + 1 := by
  unfold u64add
  exact Nat.mod_eq_of_lt h

/-! ## Lemmas on the account state view -/

theorem GetOrNewStateObject_eq_update (view : Statedb) (addr : Address) :
    view.GetOrNewStateObject addr
      = Function.update view addr
          (some { Amount := view.GetBalance addr, Nonce := view.GetNonce addr }) := by
  unfold Statedb.GetOrNewStateObject Statedb.GetBalance Statedb.GetNonce
  cases hv : view addr with
  | none => rfl
  | some acc =>
    simp only
    funext b
    by_cases hb : b = addr
    · subst hb
      simp [hv]
    · simp [Function.update_apply, hb]

theorem AddAmount_update (view : Statedb) (addr : Address) (acc : Account) (amount : Int) :
    Statedb.AddAmount (Function.update view addr (some acc)) addr amount
      = Function.update view addr (some { Amount := acc.Amount + amount, Nonce := acc.Nonce }) := by
  unfold Statedb.AddAmount
  simp

theorem SubAmount_update (view : Statedb) (addr : Address) (acc : Account) (amount : Int)
    (h : amount ≤ acc.Amount) :
    Statedb.SubAmount (Function.update view addr (some acc)) addr amount
      = Function.update view addr (some { Amount := acc.Amount - amount, Nonce := acc.Nonce }) := by
  unfold Statedb.SubAmount
  have h1 : ¬ (acc.Amount - amount < 0) := by omega
  simp [h1]

theorem SetNonce_update (view : Statedb) (addr : Address) (acc : Account) (nonce : Nat) :
    Statedb.SetNonce (Function.update view addr (some acc)) addr nonce
      = Function.update view addr (some { Amount := acc.Amount, Nonce := nonce }) := by
  unfold Statedb.SetNonce
  simp

theorem credit_eq_creditSpec (view : Statedb) (recipient : Address) (amount : Int) :
    (view.GetOrNewStateObject recipient).AddAmount recipient amount
      = creditSpec view recipient amount := by
  rw [GetOrNewStateObject_eq_update, AddAmount_update]
  funext a
  unfold creditSpec
  by_cases ha : a = recipient
  · subst ha
    simp
  · simp [Function.update_apply, ha]

theorem transfer_eq_transferSpec (view : Statedb) (sender recipient : Address)
    (amount : Int) (accountNonce : Nat) (hbal : amount ≤ view.GetBalance sender) :
    ((((view.GetOrNewStateObject sender).SubAmount sender amount).SetNonce sender
        (u64add accountNonce 1)).GetOrNewStateObject recipient).AddAmount recipient amount
      = transferSpec view sender recipient amount accountNonce := by
  rw [GetOrNewStateObject_eq_update view sender, SubAmount_update _ _ _ _ hbal,
    SetNonce_update, GetOrNewStateObject_eq_update _ recipient, AddAmount_update]
  funext a
  unfold transferSpec
  by_cases hsr : sender = recipient
  · subst hsr
    by_cases ha : a = sender
    · subst ha
      simp [Statedb.GetBalance, Statedb.GetNonce]
    · simp [Function.update_apply, ha]
  · have hrs : ¬ recipient = sender := fun h => hsr h.symm
    by_cases ha : a = sender
    · subst ha
      simp [Function.update_apply, hsr]
    · by_cases har : a = recipient
      · subst har
        simp [Function.update_apply, ha, Statedb.GetBalance, Statedb.GetNonce]
      · simp [Function.update_apply, ha, har]

/-- What a transaction that passes `Transaction.Validate` carries. -/
theorem Validate_eq_none (verifySignature : Transaction → Bool) (tx : Transaction)
    (view : Statedb) (h : Transaction.Validate verifySignature tx view = none) :
    ∃ d amount, tx.Data = some d ∧ d.Amount = some amount ∧ verifySignature tx = true ∧
      view.GetNonce d.From = d.AccountNonce ∧ amount ≤ view.GetBalance d.From := by
  unfold Transaction.Validate at h
  cases hd : tx.Data with
  | none => simp [hd] at h
  | some d =>
    cases ha : d.Amount with
    | none => simp [hd, ha] at h
    | some amount =>
      simp only [hd, ha] at h
      by_cases h1 : verifySignature tx = false
      · simp [h1] at h
      · by_cases h2 : view.GetNonce d.From ≠ d.AccountNonce
        · simp [h1, h2] at h
        · by_cases h3 : view.GetBalance d.From < amount
          · simp [h1, h2, h3] at h
          · refine ⟨d, amount, rfl, ha, ?_, ?_, ?_⟩
            · simpa using h1
            · simpa using h2
            · exact not_lt.mp h3

theorem updateStatedbTx_eq_transferSpec (verifySignature : Transaction → Bool)
    (view : Statedb) (tx : Transaction) (d : TransactionData) (dst : Address)
    (hv : Transaction.Validate verifySignature tx view = none)
    (hd : tx.Data = some d) (hto : d.To = some dst) :
    ∃ amount, d.Amount = some amount ∧
      updateStatedbTx (Transaction.Validate verifySignature) view tx
        = Except.ok (transferSpec view d.From dst amount d.AccountNonce) := by
  obtain ⟨d', amount, hd', ham, -, -, hbal⟩ := Validate_eq_none verifySignature tx view hv
  rw [hd] at hd'
  cases hd'
  refine ⟨amount, ham, ?_⟩
  unfold updateStatedbTx
  simp only [hv, hd, hto, ham]
  rw [transfer_eq_transferSpec view d.From dst amount d.AccountNonce hbal]

theorem updateStatedbLoop_eq_transfersSpec (verifySignature : Transaction → Bool)
    (txs : List Transaction) :
    ∀ view : Statedb, TxsPass (Transaction.Validate verifySignature) view txs →
      updateStatedbLoop (Transaction.Validate verifySignature) view txs
        = Except.ok (transfersSpec view txs) := by
  induction txs with
  | nil => intro view _; rfl
  | cons tx txs ih =>
    intro view hpass
    obtain ⟨hv, ⟨d, dst, hd, hto⟩, hrest⟩ := hpass
    obtain ⟨amount, ham, hstep⟩ :=
      updateStatedbTx_eq_transferSpec verifySignature view tx d dst hv hd hto
    have hspec : transfersSpec view (tx :: txs)
        = transfersSpec (transferSpec view d.From dst amount d.AccountNonce) txs := by
      cases d
      simp only at hto ham
      subst hto ham
      simp [transfersSpec, hd]
    rw [hspec]
    unfold updateStatedbLoop
    rw [hstep]
    exact ih _ (hrest _ hstep)

/-! ## Lemmas on `updateHashByHeight` and `WriteBlock` -/

theorem deleteLargerHeights_err (fuel : Nat) :
    ∀ (s : BlockchainStore) (i : Nat) (e : Err),
      (deleteLargerHeights fuel s i).1 = some e → e.fromStore := by
  induction fuel with
  | zero =>
    intro s i e h
    simp only [deleteLargerHeights, Option.some.injEq] at h
    subst h
    trivial
  | succ fuel ih =>
    intro s i e h
    unfold deleteLargerHeights BlockchainStore.DeleteBlockHash at h
    by_cases hio : s.ioFails StoreOp.DeleteBlockHash = true
    · simp only [hio, if_true, Option.some.injEq] at h
      subst h
      trivial
    · simp only [hio] at h
      by_cases hd : (s.hashByHeight i).isSome = false
      · simp [hd] at h
      · simp only [hd] at h
        exact ih _ _ e h

theorem overwriteStaleHashes_err (fuel : Nat) :
    ∀ (s : BlockchainStore) (headerHash : Hash) (e : Err),
      (overwriteStaleHashes fuel s headerHash).1 = some e → e.fromStore := by
  induction fuel with
  | zero =>
    intro s headerHash e h
    unfold overwriteStaleHashes at h
    by_cases hh : headerHash = EmptyHash
    · simp [hh] at h
    · simp only [hh, if_false, Option.some.injEq] at h
      subst h
      trivial
  | succ fuel ih =>
    intro s headerHash e h
    unfold overwriteStaleHashes at h
    by_cases hh : headerHash = EmptyHash
    · simp [hh] at h
    · simp only [hh, if_false] at h
      unfold BlockchainStore.GetBlockHeader BlockchainStore.GetBlockHash
        BlockchainStore.PutBlockHash at h
      split at h
      · rename_i err hget
        simp only [Option.some.injEq] at h
        subst h
        split at hget
        · cases hget; trivial
        · split at hget
          · cases hget
          · cases hget; trivial
      · rename_i header hget
        split at h
        · rename_i err hcan
          simp only [Option.some.injEq] at h
          subst h
          split at hcan
          · cases hcan; trivial
          · split at hcan
            · cases hcan
            · cases hcan; trivial
        · rename_i canonicalHash hcan
          split at h
          · simp at h
          · split at h
            · rename_i err hput
              simp only [Option.some.injEq] at h
              subst h
              split at hput
              · cases hput; trivial
              · cases hput
            · exact ih _ _ e h

theorem updateHashByHeight_err (fuel : Nat) (s : BlockchainStore) (block : Block) (e : Err)
    (h : (updateHashByHeight fuel s block).1 = some e) : e.fromStore := by
  unfold updateHashByHeight at h
  split at h
  · rename_i err s' hdel
    simp only [Option.some.injEq] at h
    subst h
    exact deleteLargerHeights_err fuel s _ err (by rw [hdel])
  · exact overwriteStaleHashes_err fuel _ _ e h

theorem SameButCanonical.same_refl (s : BlockchainStore) : SameButCanonical s s :=
  ⟨rfl, rfl, rfl, rfl, rfl⟩

theorem SameButCanonical.same_trans {s s' s'' : BlockchainStore} (h : SameButCanonical s s')
    (h' : SameButCanonical s' s'') : SameButCanonical s s'' :=
  ⟨h'.1.trans h.1, h'.2.1.trans h.2.1, h'.2.2.1.trans h.2.2.1, h'.2.2.2.1.trans h.2.2.2.1,
    h'.2.2.2.2.trans h.2.2.2.2⟩

theorem DeleteBlockHash_same (s s' : BlockchainStore) (i : Nat) (deleted : Bool)
    (h : s.DeleteBlockHash i = Except.ok (deleted, s')) :
    SameButCanonical s s' ∧ deleted = (s.hashByHeight i).isSome ∧
      s'.hashByHeight = Function.update s.hashByHeight i none := by
  unfold BlockchainStore.DeleteBlockHash at h
  split at h
  · cases h
  · cases h
    exact ⟨SameButCanonical.same_refl _, rfl, rfl⟩

theorem PutBlockHash_same (s s' : BlockchainStore) (height : Nat) (hash : Hash)
    (h : s.PutBlockHash height hash = Except.ok s') :
    SameButCanonical s s' ∧
      s'.hashByHeight = Function.update s.hashByHeight height (some hash) := by
  unfold BlockchainStore.PutBlockHash at h
  split at h
  · cases h
  · cases h
    exact ⟨SameButCanonical.same_refl _, rfl⟩

theorem deleteLargerHeights_same (fuel : Nat) :
    ∀ (s : BlockchainStore) (i : Nat),
      SameButCanonical s (deleteLargerHeights fuel s i).2 := by
  induction fuel with
  | zero => intro s i; exact SameButCanonical.same_refl s
  | succ fuel ih =>
    intro s i
    unfold deleteLargerHeights
    cases hdel : s.DeleteBlockHash i with
    | error err => exact SameButCanonical.same_refl s
    | ok r =>
      obtain ⟨deleted, s'⟩ := r
      have hs := (DeleteBlockHash_same s s' i deleted hdel).1
      simp only
      cases deleted with
      | false => simpa using hs
      | true => simpa using hs.same_trans (ih s' _)

theorem overwriteStaleHashes_same (fuel : Nat) :
    ∀ (s : BlockchainStore) (headerHash : Hash),
      SameButCanonical s (overwriteStaleHashes fuel s headerHash).2 := by
  induction fuel with
  | zero =>
    intro s headerHash
    unfold overwriteStaleHashes
    split <;> exact SameButCanonical.same_refl s
  | succ fuel ih =>
    intro s headerHash
    unfold overwriteStaleHashes
    split
    · exact SameButCanonical.same_refl s
    · cases s.GetBlockHeader headerHash with
      | error err => exact SameButCanonical.same_refl s
      | ok header =>
        simp only
        cases s.GetBlockHash header.Height with
        | error err => exact SameButCanonical.same_refl s
        | ok canonicalHash =>
          simp only
          split
          · exact SameButCanonical.same_refl s
          · cases hput : s.PutBlockHash header.Height headerHash with
            | error err => exact SameButCanonical.same_refl s
            | ok s' =>
              simp only
              exact (PutBlockHash_same s s' _ _ hput).1.same_trans (ih s' _)

theorem updateHashByHeight_same (fuel : Nat) (s : BlockchainStore) (block : Block) :
    SameButCanonical s (updateHashByHeight fuel s block).2 := by
  unfold updateHashByHeight
  have h1 := deleteLargerHeights_same fuel s (u64add block.Header.Height 1)
  generalize deleteLargerHeights fuel s (u64add block.Header.Height 1) = r at h1
  obtain ⟨e, s'⟩ := r
  cases e with
  | some err => exact h1
  | none => exact h1.same_trans (overwriteStaleHashes_same fuel s' _)

/-- What a successful `WriteBlock` went through, and the block leaves and HEAD
it leaves behind. -/
theorem WriteBlock_ok_inv (env : Env) (fuel : Nat) (bc : Blockchain) (block : Block)
    (hok : (WriteBlock env fuel bc block).err = none) :
    ∃ preBlock blockStatedb parentTd,
      bc.bcStore.HasBlock block.HeaderHash = Except.ok false ∧
      bc.bcStore.GetBlock block.Header.PreviousBlockHash = Except.ok preBlock ∧
      validateBlock env.hashing bc.engine block preBlock = none ∧
      applyTxs env bc block preBlock = Except.ok blockStatedb ∧
      env.stateRootHash blockStatedb = block.Header.StateHash ∧
      bc.bcStore.GetBlockTotalDifficulty block.Header.PreviousBlockHash
        = Except.ok parentTd ∧
      (WriteBlock env fuel bc block).chain.blockLeaves
        = (bc.blockLeaves.Add (NewBlockIndex blockStatedb block
            (parentTd + block.Header.Difficulty))).RemoveByHash
            block.Header.PreviousBlockHash ∧
      (WriteBlock env fuel bc block).chain.bcStore.headBlockHash
        = (if bc.blockLeaves.IsBestBlockIndex (NewBlockIndex blockStatedb block
              (parentTd + block.Header.Difficulty)) = true
            then some block.HeaderHash else bc.bcStore.headBlockHash) := by
  have hblock : Block.mk block.HeaderHash block.Header block.Transactions = block := rfl
  unfold WriteBlock at hok
  cases hhas : bc.bcStore.HasBlock block.HeaderHash with
  | error err => simp [hhas] at hok
  | ok exist =>
    cases exist with
    | true => simp [hhas] at hok
    | false =>
      simp only [hhas] at hok
      cases hget : bc.bcStore.GetBlock block.Header.PreviousBlockHash with
      | error err => simp [hget] at hok
      | ok preBlock =>
        simp only [hget] at hok
        cases hval : validateBlock env.hashing bc.engine block preBlock with
        | some err => simp [hval] at hok
        | none =>
          simp only [hval] at hok
          cases happ : applyTxs env bc block preBlock with
          | error err => simp [happ] at hok
          | ok blockStatedb =>
            simp only [happ, Statedb.Commit] at hok
            by_cases hroot : env.stateRootHash blockStatedb = block.Header.StateHash
            · simp only [hroot, ne_eq, not_true_eq_false, if_false] at hok
              cases htd : bc.bcStore.GetBlockTotalDifficulty block.Header.PreviousBlockHash with
              | error err => simp [htd] at hok
              | ok parentTd =>
                simp only [htd] at hok
                refine ⟨preBlock, blockStatedb, parentTd, rfl, rfl, hval, happ, hroot, rfl, ?_⟩
                unfold WriteBlock
                simp only [hhas, hget, hval, happ, Statedb.Commit, hroot, ne_eq,
                  not_true_eq_false, if_false, htd]
                rw [hblock] at hok ⊢
                generalize bc.blockLeaves.IsBestBlockIndex _ = isHead at hok ⊢
                have hsame := updateHashByHeight_same fuel bc.bcStore block
                generalize hre : (if isHead = true then updateHashByHeight fuel bc.bcStore block
                  else (none, bc.bcStore)) = re at hok ⊢
                have hhead : re.2.headBlockHash = bc.bcStore.headBlockHash := by
                  cases isHead with
                  | true =>
                    simp only [if_true] at hre
                    rw [← hre]
                    exact hsame.2.2.2.1
                  | false =>
                    simp only [Bool.false_eq_true, if_false] at hre
                    rw [← hre]
                obtain ⟨e, store1⟩ := re
                cases e with
                | some err => simp at hok
                | none =>
                  simp only at hok hhead ⊢
                  cases hput : store1.PutBlock block (parentTd + block.Header.Difficulty)
                      isHead with
                  | error err => simp [hput] at hok
                  | ok store2 =>
                    simp only [hput] at hok ⊢
                    have h2 : store2.headBlockHash
                        = if isHead = true then some block.HeaderHash
                          else store1.headBlockHash := by
                      unfold BlockchainStore.PutBlock at hput
                      split at hput
                      · cases hput
                      · cases hput
                        rfl
                    cases hcommit : Batch.Commit bc.accountStateDB
                        ([] ++ [(block.Header.StateHash, blockStatedb)]) with
                    | error err =>
                      rw [hcommit] at hok
                      simp at hok
                    | ok db =>
                      refine ⟨rfl, ?_⟩
                      rw [h2, hhead]
            · simp [hroot] at hok

/-! ## Lemmas on the block leaves -/

theorem better_irrefl (a : BlockIndex) : a.better a = false := by
  unfold BlockIndex.better
  simp

theorem better_iff (a b : BlockIndex) :
    a.better b = true ↔
      (b.totalDifficulty < a.totalDifficulty ∨
        (a.totalDifficulty = b.totalDifficulty ∧
          (a.currentBlock.HeaderHash : Nat) < (b.currentBlock.HeaderHash : Nat))) := by
  unfold BlockIndex.better
  simp

theorem better_false_iff (a b : BlockIndex) :
    a.better b = false ↔
      ¬ (b.totalDifficulty < a.totalDifficulty ∨
        (a.totalDifficulty = b.totalDifficulty ∧
          (a.currentBlock.HeaderHash : Nat) < (b.currentBlock.HeaderHash : Nat))) := by
  rw [← better_iff]
  simp

theorem better_asymm (a b : BlockIndex) (h : a.better b = true) : b.better a = false := by
  rw [better_iff] at h
  rw [better_false_iff]
  simp only [Hash] at *
  omega

theorem not_better_trans (a b c : BlockIndex) (h1 : a.better b = false)
    (h2 : b.better c = false) : a.better c = false := by
  rw [better_false_iff] at h1 h2 ⊢
  simp only [Hash] at *
  omega

theorem not_better_antisymm (a b : BlockIndex) (h1 : a.better b = false)
    (h2 : b.better a = false) :
    a.totalDifficulty = b.totalDifficulty ∧
      a.currentBlock.HeaderHash = b.currentBlock.HeaderHash := by
  rw [better_false_iff] at h1 h2
  simp only [Hash] at *
  omega

theorem better_of_lt (a b : BlockIndex) (h : b.totalDifficulty < a.totalDifficulty) :
    a.better b = true := by
  unfold BlockIndex.better
  simp [h]

theorem GetBestBlockIndex_eq_none (leaves : BlockLeaves)
    (h : BlockLeaves.GetBestBlockIndex leaves = none) : leaves = [] := by
  cases leaves with
  | nil => rfl
  | cons i rest =>
    unfold BlockLeaves.GetBestBlockIndex at h
    split at h
    · cases h
    · split at h <;> cases h

theorem GetBestBlockIndex_isBest :
    ∀ (leaves : BlockLeaves) (b : BlockIndex),
      BlockLeaves.GetBestBlockIndex leaves = some b → IsBestLeaf leaves b := by
  intro leaves
  induction leaves with
  | nil =>
    intro b h
    cases h
  | cons i rest ih =>
    intro b h
    unfold BlockLeaves.GetBestBlockIndex at h
    cases hrest : BlockLeaves.GetBestBlockIndex rest with
    | none =>
      have hnil := GetBestBlockIndex_eq_none rest hrest
      subst hnil
      simp only [hrest, Option.some.injEq] at h
      subst h
      refine ⟨List.mem_singleton.mpr rfl, ?_⟩
      intro x hx
      rw [List.mem_singleton.mp hx]
      exact better_irrefl _
    | some b' =>
      obtain ⟨hmem, hmax⟩ := ih b' hrest
      simp only [hrest] at h
      by_cases hb : b'.better i = true
      · simp only [hb, if_true, Option.some.injEq] at h
        subst h
        refine ⟨List.mem_cons_of_mem _ hmem, ?_⟩
        intro x hx
        rcases List.mem_cons.mp hx with hx | hx
        · rw [hx]
          exact better_asymm _ _ hb
        · exact hmax x hx
      · simp only [hb, Bool.false_eq_true, if_false, Option.some.injEq] at h
        subst h
        have hb' : b'.better i = false := by simpa using hb
        refine ⟨List.mem_cons_self _ _, ?_⟩
        intro x hx
        rcases List.mem_cons.mp hx with hx | hx
        · rw [hx]
          exact better_irrefl _
        · exact not_better_trans x b' i (hmax x hx) hb'

theorem IsBestLeaf_hash_unique (leaves : BlockLeaves) (a b : BlockIndex)
    (ha : IsBestLeaf leaves a) (hb : IsBestLeaf leaves b) :
    a.currentBlock.HeaderHash = b.currentBlock.HeaderHash :=
  (not_better_antisymm a b (hb.2 a ha.1) (ha.2 b hb.1)).2

theorem GetBestBlockIndex_of_isBest (leaves : BlockLeaves) (m : BlockIndex)
    (hm : IsBestLeaf leaves m) :
    ∃ b, BlockLeaves.GetBestBlockIndex leaves = some b ∧
      b.currentBlock.HeaderHash = m.currentBlock.HeaderHash := by
  cases hbest : BlockLeaves.GetBestBlockIndex leaves with
  | none =>
    have := GetBestBlockIndex_eq_none leaves hbest
    subst this
    exact absurd hm.1 (List.not_mem_nil _)
  | some b =>
    exact ⟨b, rfl, IsBestLeaf_hash_unique leaves b m (GetBestBlockIndex_isBest leaves b hbest) hm⟩

theorem HasBlock_false (s : BlockchainStore) (hash : Hash)
    (h : s.HasBlock hash = Except.ok false) : s.blocks hash = none := by
  unfold BlockchainStore.HasBlock at h
  split at h
  · cases h
  · cases hb : s.blocks hash with
    | none => rfl
    | some b => simp [hb] at h

theorem GetBlock_ok (s : BlockchainStore) (hash : Hash) (block : Block)
    (h : s.GetBlock hash = Except.ok block) : s.blocks hash = some block := by
  unfold BlockchainStore.GetBlock at h
  split at h
  · cases h
  · split at h
    · cases h
      assumption
    · cases h

theorem GetBlockTotalDifficulty_ok (s : BlockchainStore) (hash : Hash) (td : Int)
    (h : s.GetBlockTotalDifficulty hash = Except.ok td) :
    s.totalDifficulties hash = some td := by
  unfold BlockchainStore.GetBlockTotalDifficulty at h
  split at h
  · cases h
  · split at h
    · cases h
      assumption
    · cases h

/-! ## Lemmas on ancestor chains -/

theorem OnChain.ne_empty {headers : Hash → Option BlockHeader} {a y : Hash}
    (h : OnChain headers a y) : y ≠ EmptyHash := by
  cases h with
  | self hy _ => exact hy
  | parent hy _ _ => exact hy

theorem OnChain.stored {headers : Hash → Option BlockHeader} {a y : Hash}
    (h : OnChain headers a y) : ∃ hy, headers y = some hy := by
  cases h with
  | self _ hy => exact ⟨_, hy⟩
  | parent _ hy _ => exact ⟨_, hy⟩

theorem OnChain.stored_left {headers : Hash → Option BlockHeader} {a y : Hash}
    (h : OnChain headers a y) : ∃ ha, headers a = some ha := by
  induction h with
  | self _ hy => exact ⟨_, hy⟩
  | parent _ _ _ ih => exact ih

theorem OnChain.chain_trans {headers : Hash → Option BlockHeader} {a x y : Hash}
    (h1 : OnChain headers a x) (h2 : OnChain headers x y) : OnChain headers a y := by
  induction h2 with
  | self _ _ => exact h1
  | parent hy hhdr _ ih => exact OnChain.parent hy hhdr ih

/-- Along a chain the height strictly decreases. -/
theorem OnChain.height {headers : Hash → Option BlockHeader}
    (hc : HeightsConsistent headers) {a y : Hash} (h : OnChain headers a y) :
    ∀ ha hy, headers a = some ha → headers y = some hy →
      a = y ∨ ha.Height < hy.Height := by
  induction h with
  | self _ _ => intro _ _ _ _; exact Or.inl rfl
  | parent hne hhdr hrest ih =>
    intro ha hy hha hhy
    rw [hhdr] at hhy
    cases hhy
    obtain ⟨hp, hhp⟩ := hrest.stored
    have hstep := hc _ _ hp hhdr hrest.ne_empty hhp
    rcases ih ha hp hha hhp with h | h
    · subst h
      rw [hha] at hhp
      cases hhp
      exact Or.inr (by omega)
    · exact Or.inr (by omega)

/-- A chain has at most one member of each height. -/
theorem OnChain.unique {headers : Hash → Option BlockHeader}
    (hc : HeightsConsistent headers) {a y : Hash} (h : OnChain headers a y) :
    ∀ b ha hb, OnChain headers b y → headers a = some ha → headers b = some hb →
      ha.Height = hb.Height → a = b := by
  induction h with
  | self hne hhdr =>
    intro b ha hb hby hha hhb heq
    rcases hby.height hc hb ha hhb hha with h | h
    · exact h.symm
    · omega
  | parent hne hhdr hrest ih =>
    intro b ha hb hby hha hhb heq
    cases hby with
    | self _ hhdr' =>
      rcases (OnChain.parent hne hhdr hrest).height hc ha hb hha hhb with h | h
      · exact h
      · omega
    | parent _ hhdr' hrest' =>
      rw [hhdr] at hhdr'
      cases hhdr'
      exact ih b ha hb hrest' hha hhb heq

/-! ## Lemmas on the two loops of `updateHashByHeight` -/

theorem uint64Size_eq : uint64Size = 18446744073709551616 := by
  norm_num [uint64Size]

theorem GetBlockHeader_ok (s : BlockchainStore) (hash : Hash) (header : BlockHeader)
    (h : s.GetBlockHeader hash = Except.ok header) : s.headers hash = some header := by
  unfold BlockchainStore.GetBlockHeader at h
  split at h
  · cases h
  · split at h
    · cases h
      assumption
    · cases h

theorem GetBlockHash_ok (s : BlockchainStore) (height : Nat) (hash : Hash)
    (h : s.GetBlockHash height = Except.ok hash) : s.hashByHeight height = some hash := by
  unfold BlockchainStore.GetBlockHash at h
  split at h
  · cases h
  · split at h
    · cases h
      assumption
    · cases h

/-- The deletion loop on a canonical map whose entries are the heights below
`a` and the heights from `i` up to `e`: what survives is an initial segment of
the entries below `a`, unchanged. -/
theorem deleteLargerHeights_survivors (fuel : Nat) :
    ∀ (s s1 : BlockchainStore) (i a e : Nat),
      i < uint64Size → a ≤ i → e ≤ uint64Size →
      (∀ h, s.hashByHeight h ≠ none ↔ (h < a ∨ (i ≤ h ∧ h < e))) →
      deleteLargerHeights fuel s i = (none, s1) →
      ∃ c, c ≤ a ∧ ∀ h, s1.hashByHeight h = if h < c then s.hashByHeight h else none := by
  induction fuel with
  | zero =>
    intro s s1 i a e _ _ _ _ hrun
    simp [deleteLargerHeights] at hrun
  | succ fuel ih =>
    intro s s1 i a e hi ha he hchar hrun
    unfold deleteLargerHeights at hrun
    cases hdel : s.DeleteBlockHash i with
    | error err => simp [hdel] at hrun
    | ok r =>
      obtain ⟨deleted, s'⟩ := r
      obtain ⟨-, hdeleted, hcanon⟩ := DeleteBlockHash_same s s' i deleted hdel
      simp only [hdel] at hrun
      have hs' : ∀ h, s'.hashByHeight h = if h = i then none else s.hashByHeight h := by
        intro h
        rw [hcanon, Function.update_apply]
      cases deleted with
      | false =>
        simp only [if_true, Prod.mk.injEq, true_and] at hrun
        subst hrun
        have hnone : s.hashByHeight i = none := by
          cases hv : s.hashByHeight i with
          | none => rfl
          | some v => simp [hv] at hdeleted
        have hnot : ¬ (i < a ∨ (i ≤ i ∧ i < e)) := fun hh => (hchar i).mpr hh hnone
        refine ⟨a, le_refl a, ?_⟩
        intro h
        rw [hs']
        by_cases hlt : h < a
        · have : h ≠ i := by omega
          simp [hlt, this]
        · simp only [hlt, if_false]
          by_cases hhi : h = i
          · simp [hhi]
          · simp only [hhi, if_false]
            by_contra hsome
            have := (hchar h).mp hsome
            omega
      | true =>
        simp only [Bool.true_eq_false, if_false] at hrun
        have hsome : s.hashByHeight i ≠ none := by
          cases hv : s.hashByHeight i with
          | none => simp [hv] at hdeleted
          | some v => simp
        have hie := (hchar i).mp hsome
        have hsz := uint64Size_eq
        by_cases hwrap : i + 1 < uint64Size
        · have hnext : u64add i 1 = i + 1 := by
            unfold u64add
            exact Nat.mod_eq_of_lt hwrap
          rw [hnext] at hrun
          have hchar' : ∀ h, s'.hashByHeight h ≠ none ↔ (h < a ∨ (i + 1 ≤ h ∧ h < e)) := by
            intro h
            rw [hs']
            by_cases hhi : h = i
            · simp only [hhi, if_true, ne_eq, not_true_eq_false, false_iff]
              omega
            · simp only [hhi, if_false]
              rw [hchar h]
              omega
          obtain ⟨c, hca, hc⟩ := ih s' s1 (i + 1) a e hwrap (by omega) he hchar' hrun
          refine ⟨c, hca, ?_⟩
          intro h
          rw [hc h, hs']
          by_cases hlt : h < c
          · have : h ≠ i := by omega
            simp [hlt, this]
          · simp [hlt]
        · have hnext : u64add i 1 = 0 := by
            unfold u64add
            have : i + 1 = uint64Size := by omega
            rw [this]
            exact Nat.mod_self _
          rw [hnext] at hrun
          have hchar' : ∀ h, s'.hashByHeight h ≠ none ↔ (h < 0 ∨ (0 ≤ h ∧ h < a)) := by
            intro h
            rw [hs']
            by_cases hhi : h = i
            · simp only [hhi, if_true, ne_eq, not_true_eq_false, false_iff]
              omega
            · simp only [hhi, if_false]
              rw [hchar h]
              omega
          obtain ⟨c, hca, hc⟩ := ih s' s1 0 0 a (by omega) (le_refl 0) (by omega) hchar' hrun
          refine ⟨0, Nat.zero_le a, ?_⟩
          intro h
          rw [hc h]
          have : ¬ h < c := by omega
          simp [this]

/-- The ancestor walk from `y` on a store whose canonical entries up to the
height of `y` are good: after a walk that returns nil every member of the chain
of `y` is canonical, and the heights above `y` are untouched. -/
theorem overwriteStaleHashes_canonical (fuel : Nat) :
    ∀ (s2 s3 : BlockchainStore) (y : Hash),
      HeightsConsistent s2.headers →
      (y ≠ EmptyHash → ∀ hy, s2.headers y = some hy →
        GoodUpTo s2.headers s2.hashByHeight hy.Height) →
      overwriteStaleHashes fuel s2 y = (none, s3) →
      (∀ a ha, OnChain s2.headers a y → s2.headers a = some ha →
        s3.hashByHeight ha.Height = some a) ∧
      (∀ h, (y ≠ EmptyHash → ∀ hy, s2.headers y = some hy → hy.Height < h) →
        s3.hashByHeight h = s2.hashByHeight h) := by
  induction fuel with
  | zero =>
    intro s2 s3 y _ _ hrun
    unfold overwriteStaleHashes at hrun
    by_cases hy : y = EmptyHash
    · simp only [hy, if_true, Prod.mk.injEq, true_and] at hrun
      subst hrun
      exact ⟨fun a ha hon _ => absurd hy hon.ne_empty, fun _ _ => rfl⟩
    · simp [hy] at hrun
  | succ fuel ih =>
    intro s2 s3 y hc hgood hrun
    unfold overwriteStaleHashes at hrun
    by_cases hy : y = EmptyHash
    · simp only [hy, if_true, Prod.mk.injEq, true_and] at hrun
      subst hrun
      exact ⟨fun a ha hon _ => absurd hy hon.ne_empty, fun _ _ => rfl⟩
    · simp only [hy, if_false] at hrun
      cases hget : s2.GetBlockHeader y with
      | error err => simp [hget] at hrun
      | ok header =>
        have hheader := GetBlockHeader_ok s2 y header hget
        simp only [hget] at hrun
        cases hcan : s2.GetBlockHash header.Height with
        | error err => simp [hcan] at hrun
        | ok canonicalHash =>
          have hentry := GetBlockHash_ok s2 _ _ hcan
          simp only [hcan] at hrun
          have hg := hgood hy header hheader
          by_cases heq : y = canonicalHash
          · simp only [heq, if_true, Prod.mk.injEq, true_and] at hrun
            subst hrun
            refine ⟨?_, fun _ _ => rfl⟩
            intro a ha hon hha
            rw [← heq] at hentry
            exact (hg header.Height y (le_refl _) hentry).2 a ha hon hha
          · simp only [heq, if_false] at hrun
            cases hput : s2.PutBlockHash header.Height y with
            | error err => simp [hput] at hrun
            | ok s2' =>
              simp only [hput] at hrun
              obtain ⟨hsame, hcanon'⟩ := PutBlockHash_same s2 s2' _ _ hput
              have hheaders : s2'.headers = s2.headers := hsame.2.1
              have hparentlt : header.PreviousBlockHash ≠ EmptyHash →
                  ∀ hp, s2.headers header.PreviousBlockHash = some hp →
                    hp.Height < header.Height := by
                intro hpne hp hhp
                have := hc y header hp hheader hpne hhp
                omega
              have hgood' : header.PreviousBlockHash ≠ EmptyHash →
                  ∀ hp, s2'.headers header.PreviousBlockHash = some hp →
                    GoodUpTo s2'.headers s2'.hashByHeight hp.Height := by
                intro hpne hp hhp
                rw [hheaders] at hhp ⊢
                have hlt := hparentlt hpne hp hhp
                intro h x hle hx
                have hne : h ≠ header.Height := by omega
                rw [hcanon', Function.update_apply] at hx
                simp only [hne, if_false] at hx
                obtain ⟨⟨hxh, hhx, hxheight⟩, hchain⟩ := hg h x (by omega) hx
                refine ⟨⟨hxh, hhx, hxheight⟩, ?_⟩
                intro a ha hon hha
                have hle' : ha.Height ≤ hxh.Height := by
                  rcases hon.height hc ha hxh hha hhx with h' | h'
                  · subst h'
                    rw [hha] at hhx
                    cases hhx
                    exact le_refl _
                  · omega
                have hne' : ha.Height ≠ header.Height := by omega
                rw [hcanon', Function.update_apply]
                simp only [hne', if_false]
                exact hchain a ha hon hha
              obtain ⟨hA, hB⟩ := ih s2' s3 header.PreviousBlockHash
                (by rw [hheaders]; exact hc) hgood' hrun
              have hself : s3.hashByHeight header.Height = some y := by
                rw [hB header.Height (by
                  intro hpne hp hhp
                  rw [hheaders] at hhp
                  exact hparentlt hpne hp hhp)]
                rw [hcanon']
                simp
              constructor
              · intro a ha hon hha
                cases hon with
                | self _ hhdr =>
                  rw [hheader] at hha
                  cases hha
                  exact hself
                | parent _ hhdr hrest =>
                  rw [hheader] at hhdr
                  cases hhdr
                  exact hA a ha (by rw [hheaders]; exact hrest) (by rw [hheaders]; exact hha)
              · intro h hh
                have hlt := hh hy header hheader
                rw [hB h (by
                  intro hpne hp hhp
                  rw [hheaders] at hhp
                  have := hparentlt hpne hp hhp
                  omega)]
                rw [hcanon', Function.update_apply]
                have hne : h ≠ header.Height := by omega
                simp [hne]

/-! ## Lemmas on the worked examples -/

theorem Example.forkHeaders_consistent : HeightsConsistent Example.forkHeaders := by
  intro x hx hp h1 hne h2
  unfold Example.forkHeaders at h1
  split at h1
  · cases h1
    exact absurd rfl hne
  · split at h1
    · cases h1
      cases h2
      rfl
    · split at h1
      · cases h1
        cases h2
        rfl
      · split at h1
        · cases h1
          cases h2
          rfl
        · split at h1
          · cases h1
            cases h2
            rfl
          · cases h1

theorem Example.onChain_100_101 : OnChain Example.forkHeaders 100 101 :=
  OnChain.parent (by decide)
    (rfl : Example.forkHeaders 101 = some (Example.forkHeader 101 100 1))
    (OnChain.self (by decide)
      (rfl : Example.forkHeaders 100 = some (Example.forkHeader 100 EmptyHash 0)))

theorem Example.onChain_101_101 : OnChain Example.forkHeaders 101 101 :=
  OnChain.self (by decide)
    (rfl : Example.forkHeaders 101 = some (Example.forkHeader 101 100 1))

theorem Example.onChain_111_111 : OnChain Example.forkHeaders 111 111 :=
  OnChain.self (by decide)
    (rfl : Example.forkHeaders 111 = some (Example.forkHeader 111 100 1))

theorem Example.onChain_111_113 : OnChain Example.forkHeaders 111 113 :=
  OnChain.parent (by decide)
    (rfl : Example.forkHeaders 113 = some (Example.forkHeader 113 112 3))
    (OnChain.parent (by decide)
      (rfl : Example.forkHeaders 112 = some (Example.forkHeader 112 111 2))
      Example.onChain_111_111)

theorem Example.forkStore_canonical :
    CanonicalUpTo Example.forkStore 101 (Example.forkHeader 101 100 1) := by
  refine ⟨rfl, ?_⟩
  intro h hh
  have hh' : h ≤ 1 := hh
  interval_cases h
  · exact ⟨100, Example.forkHeader 100 EmptyHash 0, rfl, Example.onChain_100_101, rfl, rfl⟩
  · exact ⟨101, Example.forkHeader 101 100 1, rfl, Example.onChain_101_101, rfl, rfl⟩

theorem Example.staleStore_canonical :
    CanonicalUpTo Example.staleStore 101 (Example.forkHeader 101 100 1) := by
  refine ⟨rfl, ?_⟩
  intro h hh
  have hh' : h ≤ 1 := hh
  interval_cases h
  · exact ⟨100, Example.forkHeader 100 EmptyHash 0, rfl, Example.onChain_100_101, rfl, rfl⟩
  · exact ⟨101, Example.forkHeader 101 100 1, rfl, Example.onChain_101_101, rfl, rfl⟩

/-! ## Lemmas on the view that `updateStatedb` leaves behind -/

theorem updateStatedbTx_eq_view (validate : Transaction → Statedb → Option Err)
    (view : Statedb) (tx : Transaction) :
    updateStatedbTx validate view tx
      = match updateStatedbTxView validate view tx with
        | (some err, _) => Except.error err
        | (none, view') => Except.ok view' := by
  unfold updateStatedbTx updateStatedbTxView
  cases hv : validate tx view with
  | some err => rfl
  | none =>
    cases hd : tx.Data with
    | none => rfl
    | some data =>
      cases hto : data.To with
      | none => simp only [hto]
      | some dst =>
        cases ham : data.Amount with
        | none => simp only [hto, ham]
        | some amount => simp only [hto, ham]

theorem updateStatedbLoop_eq_view (validate : Transaction → Statedb → Option Err)
    (txs : List Transaction) :
    ∀ view : Statedb,
      updateStatedbLoop validate view txs
        = match updateStatedbLoopView validate view txs with
          | (some err, _) => Except.error err
          | (none, view') => Except.ok view' := by
  induction txs with
  | nil => intro view; rfl
  | cons tx txs ih =>
    intro view
    unfold updateStatedbLoop updateStatedbLoopView
    rw [updateStatedbTx_eq_view]
    generalize updateStatedbTxView validate view tx = r
    obtain ⟨e, view'⟩ := r
    cases e with
    | some err => rfl
    | none => exact ih view'

theorem updateStatedb_eq_view (validate : Transaction → Statedb → Option Err)
    (view : Statedb) (minerRewardTx : Transaction) (txs : List Transaction) :
    updateStatedb validate view minerRewardTx txs
      = match updateStatedbView validate view minerRewardTx txs with
        | (some err, _) => Except.error err
        | (none, view') => Except.ok view' := by
  unfold updateStatedb updateStatedbView
  cases hd : minerRewardTx.Data with
  | none => rfl
  | some data =>
    cases hto : data.To with
    | none => simp only [hto]
    | some dst =>
      cases ham : data.Amount with
      | none => simp only [hto, ham]
      | some amount =>
        simp only [hto, ham]
        exact updateStatedbLoop_eq_view validate txs _

theorem updateStatedbLoopView_append (validate : Transaction → Statedb → Option Err)
    (txs : List Transaction) :
    ∀ (view view1 : Statedb) (rest : List Transaction),
      updateStatedbLoopView validate view txs = (none, view1) →
      updateStatedbLoopView validate view (txs ++ rest)
        = updateStatedbLoopView validate view1 rest := by
  induction txs with
  | nil =>
    intro view view1 rest h
    simp only [updateStatedbLoopView, Prod.mk.injEq, true_and] at h
    subst h
    rfl
  | cons tx txs ih =>
    intro view view1 rest h
    have hstep : updateStatedbLoopView validate view (tx :: (txs ++ rest))
        = match updateStatedbTxView validate view tx with
          | (some err, statedb) => (some err, statedb)
          | (none, statedb) => updateStatedbLoopView validate statedb (txs ++ rest) := rfl
    rw [List.cons_append, hstep]
    unfold updateStatedbLoopView at h
    generalize updateStatedbTxView validate view tx = r at h ⊢
    obtain ⟨e, view'⟩ := r
    cases e with
    | some err => simp at h
    | none => exact ih view' view1 rest h

/-! ## Lemmas on the heights that `updateHashByHeight` touches -/

/-- With a gap at or above `i` within the `uint64` range, the deletion loop from
`i` leaves every height below `i` as it was. -/
theorem deleteLargerHeights_below (fuel : Nat) :
    ∀ (s : BlockchainStore) (i j : Nat),
      i ≤ j → j < uint64Size → s.hashByHeight j = none →
      ∀ h, h < i → (deleteLargerHeights fuel s i).2.hashByHeight h = s.hashByHeight h := by
  induction fuel with
  | zero =>
    intro s i j _ _ _ h _
    rfl
  | succ fuel ih =>
    intro s i j hij hj hgap h hlt
    unfold deleteLargerHeights
    cases hdel : s.DeleteBlockHash i with
    | error err => rfl
    | ok r =>
      obtain ⟨deleted, s'⟩ := r
      obtain ⟨-, hdeleted, hcanon⟩ := DeleteBlockHash_same s s' i deleted hdel
      have hs' : ∀ x, x ≠ i → s'.hashByHeight x = s.hashByHeight x := by
        intro x hx
        rw [hcanon, Function.update_apply]
        simp [hx]
      simp only
      cases deleted with
      | false =>
        simp only [if_true]
        exact hs' h (by omega)
      | true =>
        simp only [Bool.true_eq_false, if_false]
        have hne : j ≠ i := by
          intro heq
          rw [heq] at hgap
          rw [hgap] at hdeleted
          simp at hdeleted
        have hnext : u64add i 1 = i + 1 := u64add_one_of_lt i (by omega)
        rw [hnext]
        rw [ih s' (i + 1) j (by omega) hj (by rw [hs' j hne]; exact hgap) h (by omega)]
        exact hs' h (by omega)

/-- The ancestor walk overwrites existing mappings only: the heights that have a
mapping are the same before and after. -/
theorem overwriteStaleHashes_domain (fuel : Nat) :
    ∀ (s : BlockchainStore) (y : Hash) (h : Nat),
      (overwriteStaleHashes fuel s y).2.hashByHeight h = none ↔ s.hashByHeight h = none := by
  induction fuel with
  | zero =>
    intro s y h
    unfold overwriteStaleHashes
    split <;> rfl
  | succ fuel ih =>
    intro s y h
    unfold overwriteStaleHashes
    split
    · rfl
    · cases hget : s.GetBlockHeader y with
      | error err => rfl
      | ok header =>
        simp only
        cases hcan : s.GetBlockHash header.Height with
        | error err => rfl
        | ok canonicalHash =>
          have hentry := GetBlockHash_ok s _ _ hcan
          simp only
          split
          · rfl
          · cases hput : s.PutBlockHash header.Height y with
            | error err => rfl
            | ok s' =>
              simp only
              rw [ih s' header.PreviousBlockHash h]
              rw [(PutBlockHash_same s s' _ _ hput).2, Function.update_apply]
              by_cases hh : h = header.Height
              · simp [hh, hentry]
              · simp [hh]

/-! ## Lemmas on the RPC methods -/

/-- With a non-nil account, a current state and a non-nil result, `GetBalance`
returns nil and stores the balance of the account, or of the coinbase for the
zero address. -/
theorem GetBalance_of_account (api : PublicSeeleAPI) (a : Address) (r : Int)
    (state : Statedb) (hstate : api.s.chain.CurrentState = some state) :
    api.GetBalance (some a) (some r)
      = { err := none
          account := some (if a = 0 then api.s.Coinbase else a)
          result := some (state.GetBalance (if a = 0 then api.s.Coinbase else a)) } := by
  unfold PublicSeeleAPI.GetBalance
  by_cases ha : a = 0
  · simp [ha, hstate]
  · simp [ha, hstate]

/-! ## Lemmas on the trie -/

theorem keyAfter_eq_some (run key rest : TrieKey) :
    keyAfter run key = some rest ↔ key = run ++ rest := by
  induction run generalizing key with
  | nil => simp [keyAfter, eq_comm]
  | cons x run ih =>
    cases key with
    | nil => simp [keyAfter]
    | cons y key =>
      by_cases hxy : x = y
      · simp [keyAfter, hxy, ih]
      · simp [keyAfter, hxy]
        intro h
        exact absurd h.symm hxy

theorem keyAfter_append (run rest : TrieKey) : keyAfter run (run ++ rest) = some rest :=
  (keyAfter_eq_some run (run ++ rest) rest).mpr rfl

theorem keyAfter_eq_none (run key : TrieKey) (h : keyAfter run key = none) (rest : TrieKey) :
    key ≠ run ++ rest := by
  intro heq
  rw [heq, keyAfter_append] at h
  cases h

/-- Both keys start with their shared run, and after it one of them ends or
their next bytes differ. -/
theorem sharedRun_spec (a b : TrieKey) :
    a = sharedRun a b ++ a.drop (sharedRun a b).length ∧
    b = sharedRun a b ++ b.drop (sharedRun a b).length ∧
    (∀ x ra y rb, a.drop (sharedRun a b).length = x :: ra →
      b.drop (sharedRun a b).length = y :: rb → x ≠ y) := by
  induction a generalizing b with
  | nil => simp [sharedRun]
  | cons x a ih =>
    cases b with
    | nil => simp [sharedRun]
    | cons y b =>
      by_cases hxy : x = y
      · subst hxy
        obtain ⟨h1, h2, h3⟩ := ih b
        simp only [sharedRun, if_true, List.length_cons, List.drop_succ_cons, List.cons_append]
        exact ⟨by rw [← h1], by rw [← h2], h3⟩
      · simp only [sharedRun, hxy, if_false, List.length_nil, List.drop_zero, List.nil_append]
        refine ⟨trivial, trivial, ?_⟩
        intro x1 ra y1 rb h1 h2
        cases h1
        cases h2
        exact hxy

theorem get_withRun (run : TrieKey) (node : TrieNode) (k : TrieKey) :
    (TrieNode.withRun run node).get k
      = match keyAfter run k with
        | some rest => node.get rest
        | none => none := by
  unfold TrieNode.withRun
  by_cases h : run = []
  · subst h
    simp [keyAfter]
  · simp only [h, if_false, TrieNode.get]

theorem get_hang (children : Nat → TrieNode) (slot : Option TrieValue) (a : TrieKey)
    (v : TrieValue) (r : TrieKey)
    (hfree : ∀ x rest, a = x :: rest → ∀ r, (children x).get r = none) :
    (hang children slot a v).get r
      = if r = a then some v else (TrieNode.branch children slot).get r := by
  cases a with
  | nil =>
    cases r with
    | nil => simp [hang, TrieNode.get]
    | cons y r => simp [hang, TrieNode.get]
  | cons x rest =>
    cases r with
    | nil => simp [hang, TrieNode.get]
    | cons y r =>
      by_cases hyx : y = x
      · subst hyx
        simp [hang, TrieNode.get, hfree y rest rfl r]
      · simp [hang, TrieNode.get, hyx, Function.update_noteq hyx]

theorem get_splitLeaf (key : TrieKey) (old : TrieValue) (k : TrieKey) (v : TrieValue)
    (hne : k ≠ key) (q : TrieKey) :
    (splitLeaf key old k v).get q
      = if q = k then some v else if q = key then some old else none := by
  obtain ⟨h1, h2, h3⟩ := sharedRun_spec key k
  unfold splitLeaf
  simp only []
  generalize hrun : sharedRun key k = run at h1 h2 h3
  generalize hra : key.drop run.length = ra at h1 h3
  generalize hrb : k.drop run.length = rb at h2 h3
  subst h1 h2
  cases ra with
  | nil =>
    simp only [get_withRun]
    cases hq : keyAfter run q with
    | none =>
      have hq1 := keyAfter_eq_none run q hq
      simp [hq1 rb, (by simpa using hq1 [] : q ≠ run)]
    | some rest =>
      have hq1 := (keyAfter_eq_some run q rest).mp hq
      subst hq1
      simp only []
      rw [get_hang _ _ _ _ _ (by intro x r _ r2; rfl)]
      have hrb0 : rb ≠ [] := by
        intro h
        apply hne
        simp [h]
      cases rest with
      | nil => simp [TrieNode.get, hrb0, eq_comm]
      | cons y rest => simp [TrieNode.get]
  | cons x ra =>
    simp only [get_withRun]
    cases hq : keyAfter run q with
    | none =>
      have hq1 := keyAfter_eq_none run q hq
      simp [hq1 rb, hq1 (x :: ra)]
    | some rest =>
      have hq1 := (keyAfter_eq_some run q rest).mp hq
      subst hq1
      simp only []
      rw [get_hang]
      · cases rest with
        | nil => simp [TrieNode.get]
        | cons y rest =>
          by_cases hyx : y = x
          · subst hyx
            simp [TrieNode.get, eq_comm]
          · simp [TrieNode.get, hyx, Function.update_noteq hyx]
      · intro y rest hy r
        have hyx : y ≠ x := fun h => h3 x ra y rest rfl hy h.symm
        simp [Function.update_noteq hyx, TrieNode.get]

theorem get_splitExt (key : TrieKey) (next : TrieNode) (k : TrieKey) (v : TrieValue)
    (hnone : keyAfter key k = none) (q : TrieKey) :
    (splitExt key next k v).get q
      = if q = k then some v else (TrieNode.ext key next).get q := by
  obtain ⟨h1, h2, h3⟩ := sharedRun_spec key k
  unfold splitExt
  simp only []
  generalize hrun : sharedRun key k = run at h1 h2 h3
  generalize hra : key.drop run.length = ra at h1 h3
  generalize hrb : k.drop run.length = rb at h2 h3
  subst h1 h2
  cases ra with
  | nil =>
    rw [List.append_nil, keyAfter_append] at hnone
    cases hnone
  | cons x ra =>
    simp only [get_withRun]
    cases hq : keyAfter run q with
    | none =>
      have hq1 := keyAfter_eq_none run q hq
      have hq2 : keyAfter (run ++ x :: ra) q = none := by
        cases h : keyAfter (run ++ x :: ra) q with
        | none => rfl
        | some r =>
          have := (keyAfter_eq_some _ _ _).mp h
          rw [List.append_assoc] at this
          exact absurd this (hq1 _)
      simp [hq1 rb, TrieNode.get, hq2]
    | some rest =>
      have hq1 := (keyAfter_eq_some run q rest).mp hq
      subst hq1
      simp only []
      rw [get_hang]
      · have hkey : keyAfter (run ++ x :: ra) (run ++ rest) = keyAfter (x :: ra) rest := by
          cases h : keyAfter (x :: ra) rest with
          | none =>
            cases h2 : keyAfter (run ++ x :: ra) (run ++ rest) with
            | none => rfl
            | some r =>
              have := (keyAfter_eq_some _ _ _).mp h2
              rw [List.append_assoc, List.append_cancel_left_eq] at this
              rw [(keyAfter_eq_some _ _ _).mpr this] at h
              cases h
          | some r =>
            have := (keyAfter_eq_some _ _ _).mp h
            subst this
            rw [← List.append_assoc, keyAfter_append]
        cases rest with
        | nil =>
          have hkey2 : keyAfter (run ++ x :: ra) run = none := by
            simpa [keyAfter] using hkey
          simp [TrieNode.get, hkey2]
        | cons y rest =>
          by_cases hyx : y = x
          · subst hyx
            simp [TrieNode.get, hkey, keyAfter, get_withRun]
          · have hxy : ¬ x = y := fun h => hyx h.symm
            simp [TrieNode.get, hkey, keyAfter, hyx, hxy, Function.update_noteq hyx]
      · intro y rest hy r
        have hyx : y ≠ x := fun h => h3 x ra y rest rfl hy h.symm
        simp [Function.update_noteq hyx, TrieNode.get]

/-- After a `put` of `k`, the key `k` reads the new value and every other key
reads what it read before. -/
theorem TrieNode.get_put (node : TrieNode) (k : TrieKey) (v : TrieValue) (q : TrieKey) :
    (node.put k v).get q = if q = k then some v else node.get q := by
  induction node generalizing k q with
  | nil => simp [TrieNode.put, TrieNode.get]
  | leaf key old =>
    unfold TrieNode.put
    by_cases hk : k = key
    · subst hk
      by_cases hq : q = k
      · simp [TrieNode.get, hq]
      · simp [TrieNode.get, hq]
    · simp only [hk, if_false, get_splitLeaf key old k v hk q, TrieNode.get]
  | ext key next ih =>
    unfold TrieNode.put
    cases hk : keyAfter key k with
    | none => simp only [get_splitExt key next k v hk q]
    | some rest =>
      have hk1 := (keyAfter_eq_some key k rest).mp hk
      subst hk1
      simp only [TrieNode.get]
      cases hq : keyAfter key q with
      | none => simp [keyAfter_eq_none key q hq rest]
      | some r =>
        have hq1 := (keyAfter_eq_some key q r).mp hq
        subst hq1
        simp [ih]
  | branch children slot ih =>
    cases k with
    | nil =>
      cases q with
      | nil => simp [TrieNode.put, TrieNode.get]
      | cons y q => simp [TrieNode.put, TrieNode.get]
    | cons x k =>
      cases q with
      | nil => simp [TrieNode.put, TrieNode.get]
      | cons y q =>
        by_cases hyx : y = x
        · subst hyx
          simp [TrieNode.put, TrieNode.get, ih]
        · simp [TrieNode.put, TrieNode.get, hyx, Function.update_noteq hyx]

theorem Trie.Get_Put (t : Trie) (k : TrieKey) (v : TrieValue) (q : TrieKey) :
    (t.Put k v).Get q = if q = k then (v, true) else t.Get q := by
  unfold Trie.Get Trie.Put
  simp only [TrieNode.get_put]
  by_cases h : q = k
  · simp [h]
  · simp [h]

theorem Trie.PutAll_append (t : Trie) (puts : List (TrieKey × TrieValue))
    (p : TrieKey × TrieValue) :
    t.PutAll (puts ++ [p]) = (t.PutAll puts).Put p.1 p.2 := by
  simp [Trie.PutAll, List.foldl_append]

theorem mostRecentPut_append (puts : List (TrieKey × TrieValue)) (p : TrieKey × TrieValue)
    (key : TrieKey) :
    mostRecentPut (puts ++ [p]) key
      = if p.1 = key then some p.2 else mostRecentPut puts key := by
  unfold mostRecentPut
  by_cases h : p.1 = key
  · simp [h, List.find?]
  · simp [h, List.find?]

/-- The reads of `Test_trie_Update`, lines 51-74, evaluated on the nodes of the
trie: every key reads the value the test expects, and a key that was never put
reads the empty value. -/
theorem Test_trie_Update_passes :
    Example.updateTrie.Get (Example.digits [1, 2, 3, 4, 5, 6, 7, 8])
      = (Example.testValue [110, 101, 119], true) ∧
    Example.updateTrie.Get (Example.digits [1, 2, 3, 4, 5, 5, 5, 7])
      = (Example.testValue [49], true) ∧
    Example.updateTrie.Get (Example.digits [1, 2, 3, 7, 5, 8, 7, 9])
      = (Example.testValue [50], true) ∧
    Example.updateTrie.Get (Example.digits [0, 2, 3, 7, 5, 8, 7, 9])
      = (Example.testValue [51], true) ∧
    Example.updateTrie.Get (Example.digits [0, 4, 3, 7, 5, 8, 7, 9])
      = (Example.testValue [52], true) ∧
    Example.updateTrie.Get (Example.digits [2, 4, 3, 7, 5, 8, 7, 9])
      = (Example.testValue [53], true) ∧
    Example.updateTrie.Get (Example.digits [2, 4, 3, 7, 5, 8, 7, 8])
      = (Example.testValue [54], true) ∧
    Example.updateTrie.Get (Example.digits [2, 4, 3, 5, 5, 8, 7, 9])
      = (Example.testValue [55], true) ∧
    Example.updateTrie.Get (Example.digits [2, 4, 3, 5, 5, 8, 7]) = ([], false) := by
  decide

/-! ## Lemmas on `Delete` -/

/-- The removal of a key reports whether the key had a value. -/
theorem TrieNode.delete_fst (node : TrieNode) (k : TrieKey) :
    (node.delete k).1 = (node.get k).isSome := by
  induction node generalizing k with
  | nil => rfl
  | leaf key value =>
    unfold TrieNode.delete TrieNode.get
    by_cases hk : k = key
    · simp [hk]
    · simp [hk]
  | ext key next ih =>
    unfold TrieNode.delete TrieNode.get
    cases hk : keyAfter key k with
    | none => rfl
    | some rest => simp only [ih]
  | branch children slot ih =>
    cases k with
    | nil => rfl
    | cons x rest => simp only [TrieNode.delete, TrieNode.get, ih]

/-- After the removal of `k`, the key `k` reads no value and every other key
reads what it read before. -/
theorem TrieNode.get_delete (node : TrieNode) (k q : TrieKey) :
    (node.delete k).2.get q = if q = k then none else node.get q := by
  induction node generalizing k q with
  | nil => simp [TrieNode.delete, TrieNode.get]
  | leaf key value =>
    unfold TrieNode.delete
    by_cases hk : k = key
    · subst hk
      by_cases hq : q = k
      · simp [TrieNode.get, hq]
      · simp [TrieNode.get, hq]
    · by_cases hq : q = k
      · subst hq
        simp [TrieNode.get, hk]
      · simp [TrieNode.get, hk, hq]
  | ext key next ih =>
    unfold TrieNode.delete
    cases hk : keyAfter key k with
    | none =>
      by_cases hq : q = k
      · subst hq
        simp [TrieNode.get, hk]
      · simp [hq]
    | some rest =>
      have hk1 := (keyAfter_eq_some key k rest).mp hk
      subst hk1
      simp only [TrieNode.get]
      cases hq : keyAfter key q with
      | none => simp [keyAfter_eq_none key q hq rest]
      | some r =>
        have hq1 := (keyAfter_eq_some key q r).mp hq
        subst hq1
        simp [ih]
  | branch children slot ih =>
    cases k with
    | nil =>
      cases q with
      | nil => simp [TrieNode.delete, TrieNode.get]
      | cons y q => simp [TrieNode.delete, TrieNode.get]
    | cons x k =>
      cases q with
      | nil => simp [TrieNode.delete, TrieNode.get]
      | cons y q =>
        by_cases hyx : y = x
        · subst hyx
          simp [TrieNode.delete, TrieNode.get, ih]
        · simp [TrieNode.delete, TrieNode.get, hyx, Function.update_noteq hyx]

theorem Trie.Get_snd (t : Trie) (k : TrieKey) : (t.Get k).2 = (t.root.get k).isSome := by
  unfold Trie.Get
  cases t.root.get k with
  | none => rfl
  | some v => rfl

theorem Trie.Get_Delete (t : Trie) (k q : TrieKey) :
    (t.Delete k).2.Get q = if q = k then ([], false) else t.Get q := by
  unfold Trie.Get Trie.Delete
  simp only [TrieNode.get_delete]
  by_cases h : q = k
  · simp [h]
  · simp [h]

/-- The calls of `Test_trie_Delete`, lines 98-131, evaluated on the nodes of the
trie: the three keys that were put are reported as deleted and read empty
afterwards, the key that was never put is reported as absent, and the other keys
read the values the test expects. -/
theorem Test_trie_Delete_passes :
    (Example.deleteTrie0.Delete (Example.digits [1, 2, 3, 4, 5, 6, 7, 8, 1, 2, 3])).1 = true ∧
    (Example.deleteTrie1.Delete (Example.digits [1, 2, 3, 7, 5, 8, 7, 9, 3, 2, 1])).1 = true ∧
    (Example.deleteTrie2.Delete (Example.digits [2, 4, 3, 7, 5, 8, 7, 9])).1 = true ∧
    (Example.deleteTrie3.Delete (Example.digits [2, 4, 3, 7, 5, 8, 8, 9])).1 = false ∧
    Example.deleteTrie4.Get (Example.digits [1, 2, 3, 4, 5, 6, 7, 8, 1, 2, 3]) = ([], false) ∧
    Example.deleteTrie4.Get (Example.digits [1, 2, 3, 7, 5, 8, 7, 9, 3, 2, 1]) = ([], false) ∧
    Example.deleteTrie4.Get (Example.digits [0, 2, 3, 7, 5, 8, 7, 9])
      = (Example.testValue [51], true) ∧
    Example.deleteTrie4.Get (Example.digits [0, 4, 3, 7, 5, 8, 7, 9])
      = (Example.testValue [52], true) ∧
    Example.deleteTrie4.Get (Example.digits [2, 4, 3, 7, 5, 8, 7, 9]) = ([], false) ∧
    Example.deleteTrie4.Get (Example.digits [2, 4, 3, 7, 5, 8, 7, 8])
      = (Example.testValue [54], true) ∧
    Example.deleteTrie4.Get (Example.digits [2, 4, 3, 5, 5, 8, 7, 9])
      = (Example.testValue [55], true) := by
  decide

/-! ## Lemmas on `applyTxs` -/

/-- What a block carries when `validateMinerRewardTx` succeeds: the returned
transaction is the first one of the block, and it has data, a recipient and an
amount. -/
theorem validateMinerRewardTx_ok_inv (engine : consensusEngine) (block : Block)
    (minerRewardTx : Transaction)
    (h : validateMinerRewardTx engine block = Except.ok minerRewardTx) :
    ∃ txs d dst amount, block.Transactions = minerRewardTx :: txs ∧
      minerRewardTx.Data = some d ∧ d.To = some dst ∧ d.Amount = some amount ∧
      dst = block.Header.Creator ∧ 0 ≤ amount ∧ engine.ValidateRewardAmount amount = none := by
  unfold validateMinerRewardTx at h
  cases htxs : block.Transactions with
  | nil => simp [htxs] at h
  | cons tx txs =>
    cases hd : tx.Data with
    | none => simp [htxs, hd] at h
    | some d =>
      cases hto : d.To with
      | none => simp [htxs, hd, hto] at h
      | some dst =>
        cases ham : d.Amount with
        | none =>
          by_cases hc : dst = block.Header.Creator
          · simp [htxs, hd, hto, ham, hc] at h
          · simp [htxs, hd, hto, ham, hc] at h
        | some amount =>
          by_cases hc : dst = block.Header.Creator
          · by_cases hneg : amount < 0
            · simp [htxs, hd, hto, ham, hc, hneg] at h
            · cases he : engine.ValidateRewardAmount amount with
              | some e => simp [htxs, hd, hto, ham, hc, hneg, he] at h
              | none =>
                simp [htxs, hd, hto, ham, hc, hneg, he] at h
                subst h
                exact ⟨txs, d, dst, amount, rfl, hd, hto, ham, hc, not_lt.mp hneg, he⟩
          · simp [htxs, hd, hto, ham, hc] at h

/-! ## Lemmas on the sum of the balances -/

/-- The sum of all account balances does not depend on the set that names the
accounts: an address without a record reads balance `0`. -/
theorem totalBalance_cover_indep (view : Statedb) (s t : Finset Address)
    (hs : view.CoveredBy s) (ht : view.CoveredBy t) :
    view.totalBalance s = view.totalBalance t := by
  have hzero : ∀ u : Finset Address, view.CoveredBy u → ∀ x, x ∉ u → view.GetBalance x = 0 := by
    intro u hu x hx
    have hnone : view x = none := by
      by_contra hne
      exact hx (hu x hne)
    simp [Statedb.GetBalance, hnone]
  have h1 : view.totalBalance s = view.totalBalance (s ∪ t) :=
    Finset.sum_subset Finset.subset_union_left (fun x _ hx => hzero s hs x hx)
  have h2 : view.totalBalance t = view.totalBalance (s ∪ t) :=
    Finset.sum_subset Finset.subset_union_right (fun x _ hx => hzero t ht x hx)
  rw [h1, h2]

theorem GetBalance_creditSpec (view : Statedb) (recipient : Address) (amount : Int)
    (a : Address) :
    (creditSpec view recipient amount).GetBalance a
      = view.GetBalance a + if a = recipient then amount else 0 := by
  by_cases ha : a = recipient
  · simp [creditSpec, Statedb.GetBalance, ha]
  · simp [creditSpec, Statedb.GetBalance, ha]

theorem GetBalance_transferSpec (view : Statedb) (sender recipient : Address) (amount : Int)
    (accountNonce : Nat) (a : Address) :
    (transferSpec view sender recipient amount accountNonce).GetBalance a
      = view.GetBalance a - (if a = sender then amount else 0)
          + (if a = recipient then amount else 0) := by
  by_cases hs : a = sender
  · by_cases hsr : sender = recipient
    · subst hs
      subst hsr
      simp [transferSpec, Statedb.GetBalance]
    · have har : ¬ a = recipient := fun h => hsr (hs.symm.trans h)
      subst hs
      simp [transferSpec, Statedb.GetBalance, hsr]
  · by_cases hr : a = recipient
    · simp [transferSpec, Statedb.GetBalance, hs, hr]
      subst hr
      simp [hs]
    · simp [transferSpec, Statedb.GetBalance, hs, hr]

theorem creditSpec_record (view : Statedb) (recipient : Address) (amount : Int) (a : Address)
    (h : view a ≠ none ∨ a = recipient) : creditSpec view recipient amount a ≠ none := by
  by_cases ha : a = recipient
  · simp [creditSpec, ha]
  · cases h with
    | inl h => simpa [creditSpec, ha] using h
    | inr h => exact absurd h ha

theorem transferSpec_record (view : Statedb) (sender recipient : Address) (amount : Int)
    (accountNonce : Nat) (a : Address) (h : view a ≠ none ∨ a = sender ∨ a = recipient) :
    transferSpec view sender recipient amount accountNonce a ≠ none := by
  by_cases hs : a = sender
  · by_cases hsr : sender = recipient
    · simp [transferSpec, hs, hsr]
    · simp [transferSpec, hs, hsr]
  · by_cases hr : a = recipient
    · subst hr
      simp [transferSpec, hs]
    · rcases h with h | h | h
      · simpa [transferSpec, hs, hr] using h
      · exact absurd h hs
      · exact absurd h hr

theorem totalBalance_creditSpec (view : Statedb) (recipient : Address) (amount : Int)
    (accounts : Finset Address) (hr : recipient ∈ accounts) :
    (creditSpec view recipient amount).totalBalance accounts
      = view.totalBalance accounts + amount := by
  unfold Statedb.totalBalance
  simp only [GetBalance_creditSpec, Finset.sum_add_distrib, Finset.sum_ite_eq', hr, if_true]

theorem totalBalance_transferSpec (view : Statedb) (sender recipient : Address) (amount : Int)
    (accountNonce : Nat) (accounts : Finset Address) (hs : sender ∈ accounts)
    (hr : recipient ∈ accounts) :
    (transferSpec view sender recipient amount accountNonce).totalBalance accounts
      = view.totalBalance accounts := by
  unfold Statedb.totalBalance
  simp only [GetBalance_transferSpec, Finset.sum_add_distrib, Finset.sum_sub_distrib,
    Finset.sum_ite_eq', hs, hr, if_true]
  omega

/-- What a transaction that `updateStatedb` applies without error carries, and
the view after it. -/
theorem updateStatedbTx_ok_inv (verifySignature : Transaction → Bool) (view view1 : Statedb)
    (tx : Transaction)
    (h : updateStatedbTx (Transaction.Validate verifySignature) view tx = Except.ok view1) :
    ∃ d dst amount, tx.Data = some d ∧ d.To = some dst ∧ d.Amount = some amount ∧
      amount ≤ view.GetBalance d.From ∧
      view1 = transferSpec view d.From dst amount d.AccountNonce := by
  cases hv : Transaction.Validate verifySignature tx view with
  | some e => simp [updateStatedbTx, hv] at h
  | none =>
    obtain ⟨d, amount, hd, ham, -, -, hbal⟩ := Validate_eq_none verifySignature tx view hv
    cases hto : d.To with
    | none => simp [updateStatedbTx, hv, hd, hto] at h
    | some dst =>
      obtain ⟨amount2, ham2, hstep⟩ :=
        updateStatedbTx_eq_transferSpec verifySignature view tx d dst hv hd hto
      rw [ham] at ham2
      cases ham2
      rw [hstep] at h
      cases h
      exact ⟨d, dst, amount, hd, hto, ham, hbal, rfl⟩

/-- The loop of `updateStatedb`, when it ends without error, keeps every record,
keeps the sum of all balances, and keeps balances non-negative when no amount is
negative. -/
theorem updateStatedbLoop_balances (verifySignature : Transaction → Bool)
    (txs : List Transaction) :
    ∀ view view1 : Statedb,
      updateStatedbLoop (Transaction.Validate verifySignature) view txs = Except.ok view1 →
      (∀ a, view a ≠ none → view1 a ≠ none) ∧
      (∀ accounts, view1.CoveredBy accounts →
        view1.totalBalance accounts = view.totalBalance accounts) ∧
      ((∀ a, 0 ≤ view.GetBalance a) →
        (∀ tx ∈ txs, ∀ d amount, tx.Data = some d → d.Amount = some amount → 0 ≤ amount) →
        ∀ a, 0 ≤ view1.GetBalance a) := by
  induction txs with
  | nil =>
    intro view view1 h
    simp only [updateStatedbLoop] at h
    cases h
    exact ⟨fun _ h => h, fun _ _ => rfl, fun h _ => h⟩
  | cons tx txs ih =>
    intro view view1 h
    unfold updateStatedbLoop at h
    cases hstep : updateStatedbTx (Transaction.Validate verifySignature) view tx with
    | error e => simp [hstep] at h
    | ok mid =>
      simp only [hstep] at h
      obtain ⟨d, dst, amount, hd, hto, ham, hbal, hmid⟩ :=
        updateStatedbTx_ok_inv verifySignature view mid tx hstep
      obtain ⟨hrec, hsum, hpos⟩ := ih mid view1 h
      refine ⟨?_, ?_, ?_⟩
      · intro a ha
        apply hrec
        rw [hmid]
        exact transferSpec_record _ _ _ _ _ _ (Or.inl ha)
      · intro accounts hcov
        rw [hsum accounts hcov, hmid]
        apply totalBalance_transferSpec
        · apply hcov
          apply hrec
          rw [hmid]
          exact transferSpec_record _ _ _ _ _ _ (Or.inr (Or.inl rfl))
        · apply hcov
          apply hrec
          rw [hmid]
          exact transferSpec_record _ _ _ _ _ _ (Or.inr (Or.inr rfl))
      · intro hview hamounts
        apply hpos
        · intro a
          rw [hmid, GetBalance_transferSpec]
          have hamt : 0 ≤ amount := hamounts tx (List.mem_cons_self _ _) d amount hd ham
          have ha := hview a
          by_cases hs : a = d.From
          · subst hs
            by_cases hr : d.From = dst
            · simp [hr]
              rw [hr] at ha
              exact ha
            · simp [hr]
              omega
          · by_cases hr : a = dst
            · simp [hs, hr]
              rw [hr] at ha
              omega
            · simp [hs, hr]
              exact ha
        · intro tx2 htx2
          exact hamounts tx2 (List.mem_cons_of_mem _ htx2)

/-! ## Lemmas on `Commit` and `NewTrie` -/

theorem mapExcept_ok {α β : Type} (f : α → Except Err β) (d : β) (l : List α) :
    ∀ Q : Nat → β → Prop,
      (∀ i a, l[i]? = some a → ∃ b, f a = Except.ok b ∧ Q i b) →
      ∃ bs, mapExcept f l = Except.ok bs ∧ ∀ i, i < l.length → Q i (bs.getD i d) := by
  induction l with
  | nil =>
    intro Q _
    exact ⟨[], rfl, fun i hi => absurd hi (Nat.not_lt_zero i)⟩
  | cons a rest ih =>
    intro Q h
    obtain ⟨b, hb, hQ⟩ := h 0 a (by simp)
    obtain ⟨bs, hbs, hrest⟩ := ih (fun i => Q (i + 1)) (fun i x hx => h (i + 1) x (by simpa using hx))
    refine ⟨b :: bs, ?_, ?_⟩
    · simp only [mapExcept, hb, hbs]
    · intro i hi
      cases i with
      | zero => simpa using hQ
      | succ i =>
        have := hrest i (by simpa using hi)
        simpa using this

theorem le_foldr_max (l : List Nat) (x : Nat) (hx : x ∈ l) : x ≤ l.foldr max 0 := by
  induction l with
  | nil => cases hx
  | cons y rest ih =>
    simp only [List.foldr_cons]
    rcases List.mem_cons.mp hx with h | h
    · subst h
      exact le_max_left _ _
    · exact le_trans (ih h) (le_max_right _ _)

theorem height_child_le (children : Nat → TrieNode) (slot : Option TrieValue) (i : Nat)
    (hi : i < branchWidth) :
    (children i).height < (TrieNode.branch children slot).height := by
  have hmem : (children i).height
      ∈ (List.range branchWidth).map (fun i => (children i).height) :=
    List.mem_map.mpr ⟨i, List.mem_range.mpr hi, rfl⟩
  have := le_foldr_max _ _ hmem
  simp only [TrieNode.height]
  omega

/-- Every write of a node is made under the key prefix and under the hash of the
node written. -/
theorem writes_wellformed (hashNode : StoredNode → Hash) (dbPrefix : List Nat)
    (node : TrieNode) :
    ∀ w ∈ node.writes hashNode dbPrefix, w.dbPrefix = dbPrefix ∧ w.hash = hashNode w.node := by
  induction node with
  | nil =>
    intro w hw
    simp [TrieNode.writes] at hw
  | leaf key value =>
    intro w hw
    simp only [TrieNode.writes, List.mem_singleton] at hw
    subst hw
    exact ⟨rfl, rfl⟩
  | ext key next ih =>
    intro w hw
    simp only [TrieNode.writes, List.mem_append, List.mem_singleton] at hw
    rcases hw with hw | hw
    · exact ih w hw
    · subst hw
      exact ⟨rfl, rfl⟩
  | branch children slot ih =>
    intro w hw
    simp only [TrieNode.writes, List.mem_append, List.mem_singleton, List.mem_flatMap] at hw
    rcases hw with ⟨i, _, hw⟩ | hw
    · exact ih i w hw
    · subst hw
      exact ⟨rfl, rfl⟩

/-- After the writes `ws`, each under the hash of its node, the database holds
every node of `ws` under its key: two writes to one key carry the same node when
the hash function has no collision. -/
theorem foldl_writes_nodes (hashNode : StoredNode → Hash)
    (hinj : Function.Injective hashNode) (ws : TrieBatch)
    (hws : ∀ w ∈ ws, w.hash = hashNode w.node)
    (nodes : List Nat → Hash → Option StoredNode) :
    ∀ w ∈ ws,
      (ws.foldl
        (fun nodes w => fun p h => if p = w.dbPrefix ∧ h = w.hash then some w.node else nodes p h)
        nodes) w.dbPrefix w.hash = some w.node := by
  induction ws using List.reverseRecOn with
  | nil =>
    intro w hw
    cases hw
  | append_singleton ws x ih =>
    intro w hw
    rw [List.foldl_append]
    simp only [List.foldl_cons, List.foldl_nil]
    by_cases hkey : w.dbPrefix = x.dbPrefix ∧ w.hash = x.hash
    · rw [if_pos hkey]
      have hw1 := hws w hw
      have hx1 := hws x (by simp)
      have : hashNode w.node = hashNode x.node := by rw [← hw1, ← hx1, hkey.2]
      rw [hinj this]
    · rw [if_neg hkey]
      rcases List.mem_append.mp hw with h | h
      · exact ih (fun w hw => hws w (List.mem_append_left _ hw)) w h
      · simp only [List.mem_singleton] at h
        subst h
        exact absurd ⟨rfl, rfl⟩ hkey

theorem IsByteKey.tail (x : Nat) (rest : TrieKey) (h : IsByteKey (x :: rest)) :
    x < branchWidth ∧ IsByteKey rest :=
  ⟨h x (List.mem_cons_self _ _), fun b hb => h b (List.mem_cons_of_mem _ hb)⟩

theorem IsByteKey.after (run rest : TrieKey) (h : IsByteKey (run ++ rest)) : IsByteKey rest :=
  fun b hb => h b (List.mem_append_right _ hb)

/-- A node whose writes are all in the database is loaded from its hash with
enough fuel, and the loaded node reads like the node itself. -/
theorem loadNode_of_writes (hashNode : StoredNode → Hash)
    (hne : ∀ s, hashNode s ≠ EmptyHash) (db : TrieDatabase) (dbPrefix : List Nat)
    (node : TrieNode) :
    (∀ w ∈ node.writes hashNode dbPrefix, db.nodes w.dbPrefix w.hash = some w.node) →
    ∀ fuel, node.height ≤ fuel →
      ∃ loaded, loadNode db dbPrefix fuel (node.hash hashNode) = Except.ok loaded ∧
        ∀ k, IsByteKey k → loaded.get k = node.get k := by
  induction node with
  | nil =>
    intro _ fuel _
    refine ⟨TrieNode.nil, ?_, fun _ _ => rfl⟩
    cases fuel with
    | zero => simp [loadNode, TrieNode.hash]
    | succ fuel => simp [loadNode, TrieNode.hash]
  | leaf key value =>
    intro hw fuel hfuel
    cases fuel with
    | zero => simp [TrieNode.height] at hfuel
    | succ fuel =>
      have hdb := hw ⟨dbPrefix, hashNode (StoredNode.leaf key value), StoredNode.leaf key value⟩
        (by simp [TrieNode.writes])
      simp only at hdb
      refine ⟨TrieNode.leaf key value, ?_, fun _ _ => rfl⟩
      simp only [loadNode, TrieNode.hash, hne, if_false, hdb]
  | ext key next ih =>
    intro hw fuel hfuel
    cases fuel with
    | zero => simp [TrieNode.height] at hfuel
    | succ fuel =>
      have hdb := hw ⟨dbPrefix, hashNode (StoredNode.ext key (next.hash hashNode)),
        StoredNode.ext key (next.hash hashNode)⟩ (by simp [TrieNode.writes])
      simp only at hdb
      obtain ⟨loaded, hload, hread⟩ :=
        ih (fun w hw1 => hw w (by simp [TrieNode.writes, hw1])) fuel
          (by simp only [TrieNode.height] at hfuel; omega)
      refine ⟨TrieNode.ext key loaded, ?_, ?_⟩
      · simp only [loadNode, TrieNode.hash, hne, if_false, hdb, hload]
      · intro k hk
        simp only [TrieNode.get]
        cases hkey : keyAfter key k with
        | none => rfl
        | some rest =>
          have hk1 := (keyAfter_eq_some key k rest).mp hkey
          subst hk1
          exact hread rest (IsByteKey.after key rest hk)
  | branch children slot ih =>
    intro hw fuel hfuel
    cases fuel with
    | zero => simp [TrieNode.height] at hfuel
    | succ fuel =>
      have hdb := hw ⟨dbPrefix,
        hashNode (StoredNode.branch
          ((List.range branchWidth).map (fun i => (children i).hash hashNode)) slot),
        StoredNode.branch
          ((List.range branchWidth).map (fun i => (children i).hash hashNode)) slot⟩
        (by simp [TrieNode.writes])
      simp only at hdb
      have hchild : ∀ i a,
          ((List.range branchWidth).map (fun i => (children i).hash hashNode))[i]? = some a →
          ∃ b, loadNode db dbPrefix fuel a = Except.ok b ∧
            ∀ k, IsByteKey k → b.get k = (children i).get k := by
        intro i a hia
        simp only [List.getElem?_map, Option.map_eq_some', List.getElem?_eq_some_iff,
          List.getElem_range, List.length_range] at hia
        obtain ⟨j, ⟨hj, hji⟩, hja⟩ := hia
        subst hji
        subst hja
        apply ih i
        · intro w hw1
          apply hw
          simp only [TrieNode.writes, List.mem_append, List.mem_flatMap, List.mem_range]
          exact Or.inl ⟨i, hj, hw1⟩
        · have := height_child_le children slot i hj
          omega
      obtain ⟨nodes, hnodes, hread⟩ :=
        mapExcept_ok (loadNode db dbPrefix fuel) TrieNode.nil _
          (fun i b => ∀ k, IsByteKey k → b.get k = (children i).get k) hchild
      refine ⟨TrieNode.branch (fun i => nodes.getD i TrieNode.nil) slot, ?_, ?_⟩
      · simp only [loadNode, TrieNode.hash, hne, if_false, hdb, hnodes]
      · intro k hk
        cases k with
        | nil => rfl
        | cons x rest =>
          obtain ⟨hx, hrest⟩ := IsByteKey.tail x rest hk
          simp only [TrieNode.get]
          exact hread x (by simpa using hx) rest hrest

/-- On a trie in memory a key reads, after a sequence of operations, what the
most recent operation that names it left, and what it read before when none
names it. -/
theorem Trie.Get_applyAll (t : Trie) (ops : List TrieOp) (k : TrieKey) :
    (t.applyAll ops).Get k = readAfter (t.Get k) ops k := by
  induction ops using List.reverseRecOn with
  | nil => rfl
  | append_singleton ops op ih =>
    have happly : t.applyAll (ops ++ [op]) = (t.applyAll ops).apply op := by
      simp [Trie.applyAll, List.foldl_append]
    rw [happly]
    unfold readAfter
    rw [List.reverse_append]
    simp only [List.reverse_cons, List.reverse_nil, List.nil_append, List.singleton_append,
      List.find?_cons]
    cases op with
    | put key value =>
      simp only [Trie.apply, Trie.Get_Put, TrieOp.key]
      by_cases hk : k = key
      · subst hk
        simp
      · have hk2 : ¬ key = k := fun h => hk h.symm
        simp only [hk, if_false, ih, hk2, decide_False]
        rfl
    | delete key =>
      simp only [Trie.apply, Trie.Get_Delete, TrieOp.key]
      by_cases hk : k = key
      · subst hk
        simp
      · have hk2 : ¬ key = k := fun h => hk h.symm
        simp only [hk, if_false, ih, hk2, decide_False]
        rfl

/-- The hash function `Example.hashNode` has no collision. -/
theorem Example.hashNode_injective : Function.Injective Example.hashNode := by
  intro a b h
  have h1 : Example.storedNodeCode a = Example.storedNodeCode b :=
    Encodable.encode_injective (Nat.succ_injective h)
  cases a <;> cases b <;> simp [Example.storedNodeCode] at h1 <;> simp [h1]

/-- The hash function `Example.hashNode` never gives the empty hash. -/
theorem Example.hashNode_ne_empty (s : StoredNode) : Example.hashNode s ≠ EmptyHash :=
  Nat.succ_ne_zero _

/-- The reads of `Test_trie_Commit`, lines 162-197, evaluated through `Commit`,
the commit of the batch and `NewTrie` under the hash function
`Example.testHash`: the reopened trie, after its `Delete` and its two `Put`
operations, reads the values the test expects. -/
theorem Test_trie_Commit_passes :
    Example.reopenedTrie.map
        (fun t => (t.applyAll Example.reopenOps).Get (Example.digits [1, 2, 3, 4, 5, 6, 7, 8]))
      = some (Example.testValue [], true) ∧
    Example.reopenedTrie.map
        (fun t => (t.applyAll Example.reopenOps).Get (Example.digits [2, 4, 3, 7, 5, 8, 7, 8]))
      = some (Example.testValue [54], true) ∧
    Example.reopenedTrie.map
        (fun t => (t.applyAll Example.reopenOps).Get (Example.digits [2, 4, 3, 5, 5, 8, 7, 9]))
      = some ([], false) ∧
    Example.reopenedTrie.map
        (fun t => (t.applyAll Example.reopenOps).Get (Example.digits [2, 4, 3, 5, 5, 8, 7, 9, 0]))
      = some (Example.testValue [56], true) ∧
    Example.reopenedTrie.map
        (fun t => (t.applyAll Example.reopenOps).Get (Example.digits [0, 4, 3, 7, 5, 8, 7, 9, 0]))
      = some (Example.testValue [57], true) := by
  decide!

/-! ## Theorems -/

/-- C1: `validateBlock` is a cascade of four checks. It returns
`ErrBlockHashMismatch` when `block.HeaderHash` differs from the hash of
`block.Header`; otherwise `ErrBlockTxsHashMismatch` when the merkle root of the
transactions differs from `block.Header.TxHash`; otherwise
`ErrBlockInvalidHeight` when `block.Header.Height` is not
`preBlock.Header.Height + 1` (Go `uint64` addition); otherwise exactly the
result of `engine.ValidateHeader`. Hence it returns nil if and only if all four
checks pass. -/
theorem validateBlock_cascade (hs : Hashing) (engine : consensusEngine)
    (block preBlock : Block) :
    (block.HeaderHash ≠ hs.headerHash block.Header →
      validateBlock hs engine block preBlock = some Err.ErrBlockHashMismatch) ∧
    (block.HeaderHash = hs.headerHash block.Header →
      hs.MerkleRootHash block.Transactions ≠ block.Header.TxHash →
      validateBlock hs engine block preBlock = some Err.ErrBlockTxsHashMismatch) ∧
    (block.HeaderHash = hs.headerHash block.Header →
      hs.MerkleRootHash block.Transactions = block.Header.TxHash →
      block.Header.Height ≠ u64add preBlock.Header.Height 1 →
      validateBlock hs engine block preBlock = some Err.ErrBlockInvalidHeight) ∧
    (block.HeaderHash = hs.headerHash block.Header →
      hs.MerkleRootHash block.Transactions = block.Header.TxHash →
      block.Header.Height = u64add preBlock.Header.Height 1 →
      validateBlock hs engine block preBlock = engine.ValidateHeader block.Header) ∧
    (validateBlock hs engine block preBlock = none ↔
      (block.HeaderHash = hs.headerHash block.Header ∧
        hs.MerkleRootHash block.Transactions = block.Header.TxHash ∧
        block.Header.Height = u64add preBlock.Header.Height 1 ∧
        engine.ValidateHeader block.Header = none)) := by
  refine ⟨?_, ?_, ?_, ?_, ?_⟩
  · intro h
    simp [validateBlock, h]
  · intro h1 h2
    simp [validateBlock, h1, h2]
  · intro h1 h2 h3
    simp [validateBlock, h1, h2, h3]
  · intro h1 h2 h3
    simp [validateBlock, h1, h2, h3]
  · unfold validateBlock
    by_cases h1 : block.HeaderHash = hs.headerHash block.Header
    · by_cases h2 : hs.MerkleRootHash block.Transactions = block.Header.TxHash
      · by_cases h3 : block.Header.Height = u64add preBlock.Header.Height 1
        · simp [h1, h2, h3]
        · simp [h1, h2, h3]
      · simp [h1, h2]
    · simp [h1]

/-- C2: `validateMinerRewardTx` returns `ErrBlockEmptyTxs` for an empty
transaction list; otherwise `ErrBlockInvalidToAddress` when the first
transaction has no data or no recipient; otherwise `ErrBlockCoinbaseMismatch`
when the recipient differs from `block.Header.Creator`; otherwise `ErrAmountNil`
for a nil amount; otherwise `ErrAmountNegative` for a negative amount; otherwise
the error of `engine.ValidateRewardAmount`, if any. It returns a transaction
without error exactly when none of these holds, and that transaction is
`block.Transactions[0]`. -/
theorem validateMinerRewardTx_cascade (engine : consensusEngine) (block : Block) :
    (block.Transactions = [] →
      validateMinerRewardTx engine block = Except.error Err.ErrBlockEmptyTxs) ∧
    (∀ tx rest, block.Transactions = tx :: rest →
      ((tx.Data = none ∨ ∃ d, tx.Data = some d ∧ d.To = none) →
        validateMinerRewardTx engine block = Except.error Err.ErrBlockInvalidToAddress) ∧
      (∀ d dst, tx.Data = some d → d.To = some dst →
        (dst ≠ block.Header.Creator →
          validateMinerRewardTx engine block = Except.error Err.ErrBlockCoinbaseMismatch) ∧
        (dst = block.Header.Creator →
          (d.Amount = none →
            validateMinerRewardTx engine block = Except.error Err.ErrAmountNil) ∧
          (∀ a, d.Amount = some a →
            (a < 0 →
              validateMinerRewardTx engine block = Except.error Err.ErrAmountNegative) ∧
            (0 ≤ a →
              (∀ e, engine.ValidateRewardAmount a = some e →
                validateMinerRewardTx engine block = Except.error e) ∧
              (engine.ValidateRewardAmount a = none →
                validateMinerRewardTx engine block = Except.ok tx)))))) ∧
    (∀ t, validateMinerRewardTx engine block = Except.ok t ↔
      ∃ rest d dst a, block.Transactions = t :: rest ∧ t.Data = some d ∧
        d.To = some dst ∧ dst = block.Header.Creator ∧ d.Amount = some a ∧ 0 ≤ a ∧
        engine.ValidateRewardAmount a = none) := by
  refine ⟨?_, ?_, ?_⟩
  · intro h
    simp [validateMinerRewardTx, h]
  · intro tx rest htx
    refine ⟨?_, ?_⟩
    · rintro (h | ⟨d, hd, hto⟩)
      · simp [validateMinerRewardTx, htx, h]
      · simp [validateMinerRewardTx, htx, hd, hto]
    · intro d dst hd hto
      refine ⟨?_, ?_⟩
      · intro hne
        simp [validateMinerRewardTx, htx, hd, hto, hne]
      · intro heq
        refine ⟨?_, ?_⟩
        · intro ha
          simp [validateMinerRewardTx, htx, hd, hto, heq, ha]
        · intro a ha
          refine ⟨?_, ?_⟩
          · intro hneg
            simp [validateMinerRewardTx, htx, hd, hto, heq, ha, hneg]
          · intro hpos
            have hnot : ¬ a < 0 := not_lt.mpr hpos
            refine ⟨?_, ?_⟩
            · intro e he
              simp [validateMinerRewardTx, htx, hd, hto, heq, ha, hnot, he]
            · intro he
              simp [validateMinerRewardTx, htx, hd, hto, heq, ha, hnot, he]
  · intro t
    unfold validateMinerRewardTx
    cases htx : block.Transactions with
    | nil => simp
    | cons tx rest =>
      cases hd : tx.Data with
      | none =>
        simp only [hd]
        constructor
        · intro h; cases h
        · rintro ⟨rest', d, dst, a, h1, h2, -⟩
          simp only [List.cons.injEq] at h1
          rw [← h1.1, hd] at h2
          cases h2
      | some d =>
        cases hto : d.To with
        | none =>
          simp only [hd, hto]
          constructor
          · intro h; cases h
          · rintro ⟨rest', d', dst, a, h1, h2, h3, -⟩
            simp only [List.cons.injEq] at h1
            rw [← h1.1, hd] at h2
            cases h2
            rw [hto] at h3
            cases h3
        | some dst =>
          simp only [hd, hto]
          by_cases hc : dst = block.Header.Creator
          · cases ha : d.Amount with
            | none =>
              simp only [hc, ne_eq, not_true_eq_false, if_false]
              constructor
              · intro h; cases h
              · rintro ⟨rest', d', dst', a, h1, h2, h3, h4, h5, -⟩
                simp only [List.cons.injEq] at h1
                rw [← h1.1, hd] at h2
                cases h2
                rw [ha] at h5
                cases h5
            | some a =>
              simp only [hc, ne_eq, not_true_eq_false, if_false]
              by_cases hneg : a < 0
              · simp only [hneg, if_true]
                constructor
                · intro h; cases h
                · rintro ⟨rest', d', dst', a', h1, h2, h3, h4, h5, h6, -⟩
                  simp only [List.cons.injEq] at h1
                  rw [← h1.1, hd] at h2
                  cases h2
                  rw [ha] at h5
                  cases h5
                  omega
              · simp only [hneg, if_false]
                cases he : engine.ValidateRewardAmount a with
                | some e =>
                  simp only
                  constructor
                  · intro h; cases h
                  · rintro ⟨rest', d', dst', a', h1, h2, h3, h4, h5, h6, h7⟩
                    simp only [List.cons.injEq] at h1
                    rw [← h1.1, hd] at h2
                    cases h2
                    rw [ha] at h5
                    cases h5
                    rw [he] at h7
                    cases h7
                | none =>
                  simp only
                  constructor
                  · intro h
                    cases h
                    exact ⟨rest, d, block.Header.Creator, a, rfl, hd, hc ▸ hto, rfl, ha,
                      not_lt.mp hneg, he⟩
                  · rintro ⟨rest', d', dst', a', h1, -⟩
                    simp only [List.cons.injEq] at h1
                    rw [h1.1]
          · simp only [ne_eq, hc, not_false_eq_true, if_true]
            constructor
            · intro h; cases h
            · rintro ⟨rest', d', dst', a, h1, h2, h3, h4, -⟩
              simp only [List.cons.injEq] at h1
              rw [← h1.1, hd] at h2
              cases h2
              rw [hto] at h3
              cases h3
              exact absurd h4 hc

/-- C3: for a reward transaction that carries a recipient and an amount, and a
list of further transactions each of which passes `tx.Validate` on the view as
it stands when it is reached and has a recipient, `updateStatedb` returns nil
and the resulting view is: the reward amount credited to the reward recipient,
then, in list order, for each transaction the amount subtracted from the
balance of the sender, the nonce of the sender set to `AccountNonce + 1` (Go
`uint64` addition) and the amount added to the balance of the recipient; a
self-transfer leaves the balance unchanged and bumps the nonce. -/
theorem updateStatedb_refines_spec (verifySignature : Transaction → Bool)
    (view : Statedb) (minerRewardTx : Transaction) (txs : List Transaction)
    (d : TransactionData) (recipient : Address) (amount : Int)
    (hd : minerRewardTx.Data = some d) (hto : d.To = some recipient)
    (ham : d.Amount = some amount)
    (hpass : TxsPass (Transaction.Validate verifySignature)
      (creditSpec view recipient amount) txs) :
    updateStatedb (Transaction.Validate verifySignature) view minerRewardTx txs
      = Except.ok (transfersSpec (creditSpec view recipient amount) txs) := by
  unfold updateStatedb
  simp only [hd, hto, ham]
  rw [credit_eq_creditSpec]
  exact updateStatedbLoop_eq_transfersSpec verifySignature txs _ hpass

/-- C4: for a block that is not a duplicate, whose parent is in the store and
that passes `validateBlock` and `applyTxs`, `WriteBlock` returns
`ErrBlockStateHashMismatch` if and only if the root hash returned by committing
the applied state view into the batch differs from `block.Header.StateHash`; in
that case the batch is rolled back and never committed. -/
theorem WriteBlock_stateHashMismatch_iff (env : Env) (fuel : Nat) (bc : Blockchain)
    (block preBlock : Block) (blockStatedb : Statedb)
    (hdup : bc.bcStore.HasBlock block.HeaderHash = Except.ok false)
    (hpar : bc.bcStore.GetBlock block.Header.PreviousBlockHash = Except.ok preBlock)
    (hval : validateBlock env.hashing bc.engine block preBlock = none)
    (happ : applyTxs env bc block preBlock = Except.ok blockStatedb) :
    ((WriteBlock env fuel bc block).err = some Err.ErrBlockStateHashMismatch ↔
      (blockStatedb.Commit env.stateRootHash []).1 ≠ block.Header.StateHash) ∧
    ((blockStatedb.Commit env.stateRootHash []).1 ≠ block.Header.StateHash →
      (WriteBlock env fuel bc block).calls.getLast? = some Event.BatchRollback ∧
      Event.BatchCommit ∉ (WriteBlock env fuel bc block).calls ∧
      (WriteBlock env fuel bc block).chain.accountStateDB = bc.accountStateDB) := by
  by_cases hroot : (blockStatedb.Commit env.stateRootHash []).1 = block.Header.StateHash
  · refine ⟨?_, fun h => absurd hroot h⟩
    simp only [ne_eq, hroot, not_true_eq_false, iff_false]
    intro herr
    unfold WriteBlock at herr
    simp only [hdup, hpar, hval, happ] at herr
    simp only [Statedb.Commit] at hroot
    simp only [Statedb.Commit, ne_eq, hroot, not_true_eq_false, if_false] at herr
    split at herr
    · rename_i err htd
      simp only [Option.some.injEq] at herr
      subst herr
      unfold BlockchainStore.GetBlockTotalDifficulty at htd
      split at htd
      · cases htd
      · split at htd <;> cases htd
    · rename_i td htd
      split at herr
      · rename_i err store1 hre
        simp only [Option.some.injEq] at herr
        subst herr
        split at hre
        · have := updateHashByHeight_err fuel _ _ Err.ErrBlockStateHashMismatch
            (by rw [hre])
          exact this
        · cases hre
      · rename_i store1 hre
        split at herr
        · rename_i err hput
          simp only [Option.some.injEq] at herr
          subst herr
          unfold BlockchainStore.PutBlock at hput
          split at hput <;> cases hput
        · rename_i store2 hput
          split at herr
          · rename_i err hcommit
            simp only [Option.some.injEq] at herr
            subst herr
            unfold Batch.Commit at hcommit
            split at hcommit <;> cases hcommit
          · cases herr
  · have hroot' := hroot
    simp only [Statedb.Commit] at hroot'
    refine ⟨?_, fun _ => ?_⟩
    · simp only [ne_eq, hroot, not_false_eq_true, iff_true]
      unfold WriteBlock
      simp only [hdup, hpar, hval, happ]
      simp [Statedb.Commit, hroot']
    · unfold WriteBlock
      simp only [hdup, hpar, hval, happ]
      simp [Statedb.Commit, hroot']

/-- C5: when `WriteBlock` fails in the duplicate check, the parent lookup,
`validateBlock`, the reward-transaction validation, the application of the
transactions or the state-root comparison, it returns an error, the block
leaves, the header chain and the blockchain store (blocks, headers, total
difficulties, canonical height-to-hash map, HEAD) are exactly as before the
call, and no batch has been committed. -/
theorem WriteBlock_early_failure_frame (env : Env) (fuel : Nat) (bc : Blockchain)
    (block : Block) (hfail : FailsBeforeStoreWrites env bc block) :
    (WriteBlock env fuel bc block).err ≠ none ∧
    (WriteBlock env fuel bc block).chain = bc ∧
    Event.BatchCommit ∉ (WriteBlock env fuel bc block).calls := by
  unfold WriteBlock
  cases hhas : bc.bcStore.HasBlock block.HeaderHash with
  | error err => simp
  | ok exist =>
    cases exist with
    | true => simp
    | false =>
      simp only
      cases hget : bc.bcStore.GetBlock block.Header.PreviousBlockHash with
      | error err => simp
      | ok preBlock =>
        simp only
        cases hval : validateBlock env.hashing bc.engine block preBlock with
        | some err => simp
        | none =>
          simp only
          cases happ : applyTxs env bc block preBlock with
          | error err => simp
          | ok blockStatedb =>
            simp only
            rcases hfail with h | ⟨e, h⟩ | ⟨pre, hpre, h⟩
            · exact absurd hhas h
            · rw [hget] at h
              cases h
            · rw [hget] at hpre
              cases hpre
              rcases h with h | ⟨e, h⟩ | ⟨sdb, hsdb, h⟩
              · exact absurd hval h
              · rw [happ] at h
                cases h
              · rw [happ] at hsdb
                cases hsdb
                simp only [Statedb.Commit] at h
                simp [Statedb.Commit, h]

/-- C6: for a block whose `HeaderHash` the store reports as present,
`WriteBlock` returns `ErrBlockAlreadyExists` whatever the other contents of the
block; the only call it makes is `HasBlock` (no parent lookup, no batch, no
write to the store) and the blockchain, block leaves included, is unchanged. -/
theorem WriteBlock_duplicate (env : Env) (fuel : Nat) (bc : Blockchain) (block : Block)
    (hhas : bc.bcStore.HasBlock block.HeaderHash = Except.ok true) :
    (WriteBlock env fuel bc block).err = some Err.ErrBlockAlreadyExists ∧
    (WriteBlock env fuel bc block).calls = [Event.HasBlock block.HeaderHash] ∧
    (WriteBlock env fuel bc block).chain = bc := by
  unfold WriteBlock
  simp [hhas]

/-- C8: for a block that `WriteBlock` processes past the state-root check and
whose parent has the stored total difficulty `parentTd`, the total difficulty
in the new block index and the total difficulty handed to `PutBlock` are both
`parentTd + block.Header.Difficulty` as integers; after a successful call that
sum is the total difficulty stored for the block. -/
theorem WriteBlock_totalDifficulty (env : Env) (fuel : Nat) (bc : Blockchain)
    (block preBlock : Block) (blockStatedb : Statedb) (parentTd : Int)
    (hdup : bc.bcStore.HasBlock block.HeaderHash = Except.ok false)
    (hpar : bc.bcStore.GetBlock block.Header.PreviousBlockHash = Except.ok preBlock)
    (hval : validateBlock env.hashing bc.engine block preBlock = none)
    (happ : applyTxs env bc block preBlock = Except.ok blockStatedb)
    (hroot : (blockStatedb.Commit env.stateRootHash []).1 = block.Header.StateHash)
    (htd : bc.bcStore.GetBlockTotalDifficulty block.Header.PreviousBlockHash
      = Except.ok parentTd) :
    (∃ index ∈ (WriteBlock env fuel bc block).chain.blockLeaves,
      index.currentBlock.HeaderHash = block.HeaderHash ∧
      index.totalDifficulty = parentTd + block.Header.Difficulty) ∧
    (∀ index ∈ (WriteBlock env fuel bc block).chain.blockLeaves,
      index.currentBlock.HeaderHash = block.HeaderHash →
      index.totalDifficulty = parentTd + block.Header.Difficulty) ∧
    (∀ hash td isHead, Event.PutBlock hash td isHead ∈ (WriteBlock env fuel bc block).calls →
      td = parentTd + block.Header.Difficulty) ∧
    ((WriteBlock env fuel bc block).err = none →
      (∃ isHead, Event.PutBlock block.HeaderHash (parentTd + block.Header.Difficulty) isHead
        ∈ (WriteBlock env fuel bc block).calls) ∧
      (WriteBlock env fuel bc block).chain.bcStore.totalDifficulties block.HeaderHash
        = some (parentTd + block.Header.Difficulty)) := by
  have hne : block.HeaderHash ≠ block.Header.PreviousBlockHash := by
    intro heq
    unfold BlockchainStore.HasBlock at hdup
    unfold BlockchainStore.GetBlock at hpar
    rw [← heq] at hpar
    split at hdup
    · cases hdup
    · split at hpar
      · cases hpar
      · cases hb : bc.bcStore.blocks block.HeaderHash with
        | none => simp [hb] at hpar
        | some b => simp [hb] at hdup
  have hleaves :
      (∃ index ∈ (bc.blockLeaves.Add (NewBlockIndex blockStatedb
          { HeaderHash := block.HeaderHash, Header := block.Header,
            Transactions := block.Transactions }
          (parentTd + block.Header.Difficulty))).RemoveByHash block.Header.PreviousBlockHash,
        index.currentBlock.HeaderHash = block.HeaderHash ∧
        index.totalDifficulty = parentTd + block.Header.Difficulty) ∧
      (∀ index ∈ (bc.blockLeaves.Add (NewBlockIndex blockStatedb
          { HeaderHash := block.HeaderHash, Header := block.Header,
            Transactions := block.Transactions }
          (parentTd + block.Header.Difficulty))).RemoveByHash block.Header.PreviousBlockHash,
        index.currentBlock.HeaderHash = block.HeaderHash →
        index.totalDifficulty = parentTd + block.Header.Difficulty) := by
    constructor
    · refine ⟨NewBlockIndex blockStatedb _ (parentTd + block.Header.Difficulty), ?_, rfl, rfl⟩
      simp [BlockLeaves.RemoveByHash, BlockLeaves.Add, NewBlockIndex, hne]
    · intro index hmem hhash
      simp only [BlockLeaves.RemoveByHash, BlockLeaves.Add, NewBlockIndex, List.mem_filter,
        List.mem_cons] at hmem
      rcases hmem.1 with h | h
      · rw [h]
      · simp [hhash] at h
  obtain ⟨h1, h2⟩ := hleaves
  simp only [Statedb.Commit] at hroot
  unfold WriteBlock
  simp only [hdup, hpar, hval, happ, htd, Statedb.Commit, hroot, ne_eq, not_true_eq_false,
    if_false]
  generalize bc.blockLeaves.IsBestBlockIndex _ = isHead
  generalize hre : (if isHead = true then updateHashByHeight fuel bc.bcStore block
    else (none, bc.bcStore)) = re
  obtain ⟨e, store1⟩ := re
  cases e with
  | some err =>
    refine ⟨h1, h2, ?_, ?_⟩
    · intro hash td isHead' hmem
      cases isHead <;> simp at hmem
    · intro h
      cases h
  | none =>
    simp only
    generalize hput : store1.PutBlock block (parentTd + block.Header.Difficulty) isHead = pr
    cases pr with
    | error err =>
      refine ⟨h1, h2, ?_, ?_⟩
      · intro hash td isHead' hmem
        cases isHead <;> simp at hmem <;> exact hmem.2.1
      · intro h
        cases h
    | ok store2 =>
      have hstored : store2.totalDifficulties block.HeaderHash
          = some (parentTd + block.Header.Difficulty) := by
        unfold BlockchainStore.PutBlock at hput
        split at hput
        · cases hput
        · cases hput
          simp
      simp only
      generalize hcommit : Batch.Commit bc.accountStateDB
        ([] ++ [(block.Header.StateHash, blockStatedb)]) = cr
      cases cr with
      | error err =>
        refine ⟨h1, h2, ?_, ?_⟩
        · intro hash td isHead' hmem
          cases isHead <;> simp at hmem <;> exact hmem.2.1
        · intro h
          cases h
      | ok db =>
        refine ⟨h1, h2, ?_, ?_⟩
        · intro hash td isHead' hmem
          cases isHead <;> simp at hmem <;> exact hmem.2.1
        · intro _
          refine ⟨⟨isHead, ?_⟩, hstored⟩
          cases isHead <;> simp

/-- C3, worked example: a reward of `5` to address `7` followed by a transfer of
`3` from `7` to `8` on the empty view. -/
theorem updateStatedb_refines_spec_witness :
    updateStatedb (Transaction.Validate Example.env.verifySignature) Example.emptyView
        Example.rewardTx [Example.transferTx]
      = Except.ok (transfersSpec (creditSpec Example.emptyView 7 5) [Example.transferTx]) ∧
    (transfersSpec (creditSpec Example.emptyView 7 5) [Example.transferTx]) 7
      = some { Amount := 2, Nonce := 1 } ∧
    (transfersSpec (creditSpec Example.emptyView 7 5) [Example.transferTx]) 8
      = some { Amount := 3, Nonce := 0 } :=
  ⟨updateStatedb_refines_spec Example.env.verifySignature Example.emptyView Example.rewardTx
      [Example.transferTx] _ 7 5 rfl rfl rfl
      ⟨by decide, ⟨_, 8, rfl, rfl⟩, fun _ _ => trivial⟩,
    by decide, by decide⟩

/-- C4, worked example: a child of the genesis block whose header names the
state root `6` while its transactions produce the root `5`. -/
theorem WriteBlock_stateHashMismatch_iff_witness :
    (WriteBlock Example.env 8 Example.chain Example.badRootBlock).err
      = some Err.ErrBlockStateHashMismatch ∧
    (WriteBlock Example.env 8 Example.chain Example.badRootBlock).calls.getLast?
      = some Event.BatchRollback ∧
    Event.BatchCommit ∉ (WriteBlock Example.env 8 Example.chain Example.badRootBlock).calls :=
  have h := WriteBlock_stateHashMismatch_iff Example.env 8 Example.chain Example.badRootBlock
    Example.genesis Example.view1 rfl rfl rfl rfl
  ⟨h.1.mpr (by decide), (h.2 (by decide)).1, (h.2 (by decide)).2.1⟩

/-- C5, worked example: the block with the wrong state root leaves the
blockchain as it was. -/
theorem WriteBlock_early_failure_frame_witness :
    (WriteBlock Example.env 8 Example.chain Example.badRootBlock).err ≠ none ∧
    (WriteBlock Example.env 8 Example.chain Example.badRootBlock).chain = Example.chain ∧
    Event.BatchCommit ∉ (WriteBlock Example.env 8 Example.chain Example.badRootBlock).calls :=
  WriteBlock_early_failure_frame Example.env 8 Example.chain Example.badRootBlock
    (Or.inr (Or.inr ⟨Example.genesis, rfl,
      Or.inr (Or.inr ⟨Example.view1, rfl, by decide⟩)⟩))

/-- C6, worked example: the genesis block offered again. -/
theorem WriteBlock_duplicate_witness :
    (WriteBlock Example.env 8 Example.chain Example.duplicateBlock).err
      = some Err.ErrBlockAlreadyExists ∧
    (WriteBlock Example.env 8 Example.chain Example.duplicateBlock).calls
      = [Event.HasBlock 100] ∧
    (WriteBlock Example.env 8 Example.chain Example.duplicateBlock).chain = Example.chain :=
  WriteBlock_duplicate Example.env 8 Example.chain Example.duplicateBlock rfl

/-- C7, failing input: the parent of `block1` is in the store, the key-value
layer fails under `GetBlock`, and `WriteBlock` returns
`ErrBlockInvalidParentHash` instead of the I/O error of the store. -/
theorem WriteBlock_parent_lookup_hides_store_failure :
    Example.brokenStore.blocks Example.block1.Header.PreviousBlockHash
      = some Example.genesis ∧
    Example.brokenStore.HasBlock Example.block1.HeaderHash = Except.ok false ∧
    Example.brokenStore.GetBlock Example.block1.Header.PreviousBlockHash
      = Except.error (Err.store StoreErr.ioFailure) ∧
    (WriteBlock Example.env 8 Example.brokenChain Example.block1).err
      = some Err.ErrBlockInvalidParentHash :=
  ⟨rfl, rfl, rfl, rfl⟩

/-- C8, worked example: `block1` of difficulty `2` on the genesis block of total
difficulty `1` is stored and indexed with total difficulty `3`. -/
theorem WriteBlock_totalDifficulty_witness :
    (WriteBlock Example.env 8 Example.chain Example.block1).err = none ∧
    (∃ index ∈ (WriteBlock Example.env 8 Example.chain Example.block1).chain.blockLeaves,
      index.currentBlock.HeaderHash = 101 ∧ index.totalDifficulty = 3) ∧
    (WriteBlock Example.env 8 Example.chain Example.block1).chain.bcStore.totalDifficulties 101
      = some 3 :=
  have h := WriteBlock_totalDifficulty Example.env 8 Example.chain Example.block1
    Example.genesis Example.view1 1 rfl rfl rfl rfl rfl rfl
  ⟨rfl, h.1, (h.2.2.2 rfl).2⟩

/-- C9, counterexample: on the chain that holds the genesis block only, HEAD is
the hash of the best leaf. A child of the genesis block with difficulty `0` and
a higher hash is written successfully; it is not the best candidate, so HEAD
stays at the genesis block, which is removed from the leaves: the best leaf is
then the new block `101` while HEAD is `100`. -/
theorem WriteBlock_head_not_best_leaf :
    (Example.chain.blockLeaves.GetBestBlockIndex).map (fun i => i.currentBlock.HeaderHash)
      = Example.chain.bcStore.headBlockHash ∧
    (WriteBlock Example.env 8 Example.chain Example.zeroDifficultyBlock).err = none ∧
    ((WriteBlock Example.env 8 Example.chain
        Example.zeroDifficultyBlock).chain.blockLeaves.GetBestBlockIndex).map
        (fun i => i.currentBlock.HeaderHash) = some 101 ∧
    (WriteBlock Example.env 8 Example.chain
        Example.zeroDifficultyBlock).chain.bcStore.headBlockHash = some 100 :=
  ⟨rfl, rfl, rfl, rfl⟩

/-- C9, amended: after a successful `WriteBlock` of a block with positive
difficulty, starting from a state in which HEAD is the hash of the best block
leaf and every block leaf is a stored block recorded with its stored total
difficulty, HEAD is again the hash of the leaf with maximal total difficulty
(ties broken by lowest hash): if the new block is the best candidate HEAD is its
hash, and otherwise HEAD is unchanged and still names the best leaf after the
parent has been removed from the leaves. -/
theorem WriteBlock_head_is_best_leaf (env : Env) (fuel : Nat) (bc : Blockchain)
    (block : Block) (best : BlockIndex)
    (hok : (WriteBlock env fuel bc block).err = none)
    (hbest : bc.blockLeaves.GetBestBlockIndex = some best)
    (hhead : bc.bcStore.headBlockHash = some best.currentBlock.HeaderHash)
    (hstored : ∀ i ∈ bc.blockLeaves,
      bc.bcStore.blocks i.currentBlock.HeaderHash ≠ none ∧
      bc.bcStore.totalDifficulties i.currentBlock.HeaderHash = some i.totalDifficulty)
    (hdiff : 0 < block.Header.Difficulty) :
    (∃ best', (WriteBlock env fuel bc block).chain.blockLeaves.GetBestBlockIndex = some best' ∧
      (WriteBlock env fuel bc block).chain.bcStore.headBlockHash
        = some best'.currentBlock.HeaderHash) ∧
    (∀ index ∈ (WriteBlock env fuel bc block).chain.blockLeaves,
      index.currentBlock.HeaderHash = block.HeaderHash →
      (bc.blockLeaves.IsBestBlockIndex index = true →
        (WriteBlock env fuel bc block).chain.bcStore.headBlockHash = some block.HeaderHash) ∧
      (bc.blockLeaves.IsBestBlockIndex index = false →
        (WriteBlock env fuel bc block).chain.bcStore.headBlockHash
          = bc.bcStore.headBlockHash)) := by
  obtain ⟨preBlock, blockStatedb, parentTd, hdup, hpar, -, -, -, htd, hleaves, hnewhead⟩ :=
    WriteBlock_ok_inv env fuel bc block hok
  have hnone := HasBlock_false _ _ hdup
  have hparent := GetBlock_ok _ _ _ hpar
  have hptd := GetBlockTotalDifficulty_ok _ _ _ htd
  have hne : block.HeaderHash ≠ block.Header.PreviousBlockHash := by
    intro heq
    rw [← heq, hnone] at hparent
    cases hparent
  have hnoleaf : ∀ i ∈ bc.blockLeaves, i.currentBlock.HeaderHash ≠ block.HeaderHash := by
    intro i hi heq
    have := (hstored i hi).1
    rw [heq] at this
    exact this hnone
  generalize hidx : NewBlockIndex blockStatedb block (parentTd + block.Header.Difficulty)
    = idx at hleaves hnewhead
  have hidxhash : idx.currentBlock.HeaderHash = block.HeaderHash := by
    rw [← hidx]; rfl
  have hidxtd : idx.totalDifficulty = parentTd + block.Header.Difficulty := by
    rw [← hidx]; rfl
  -- membership in the leaves after `Add` and after `RemoveByHash`
  have hmemAdd : ∀ i, i ∈ bc.blockLeaves.Add idx ↔ i = idx ∨ i ∈ bc.blockLeaves := by
    intro i
    simp only [BlockLeaves.Add, List.mem_cons, List.mem_filter, ne_eq, decide_not,
      Bool.not_eq_true', decide_eq_false_iff_not]
    constructor
    · rintro (h | ⟨h, -⟩)
      · exact Or.inl h
      · exact Or.inr h
    · rintro (h | h)
      · exact Or.inl h
      · exact Or.inr ⟨h, by rw [hidxhash]; exact hnoleaf i h⟩
  have hmemNew : ∀ i, i ∈ (bc.blockLeaves.Add idx).RemoveByHash block.Header.PreviousBlockHash ↔
      (i = idx ∨ i ∈ bc.blockLeaves) ∧
        i.currentBlock.HeaderHash ≠ block.Header.PreviousBlockHash := by
    intro i
    simp only [BlockLeaves.RemoveByHash, List.mem_filter, ne_eq, decide_not,
      Bool.not_eq_true', decide_eq_false_iff_not]
    rw [hmemAdd]
  have hidxNew : idx ∈ (bc.blockLeaves.Add idx).RemoveByHash block.Header.PreviousBlockHash :=
    (hmemNew idx).mpr ⟨Or.inl rfl, by rw [hidxhash]; exact hne⟩
  have hbest0 := GetBestBlockIndex_isBest _ _ hbest
  -- the best leaf of the set with the new index added
  have haddne : ∃ b, BlockLeaves.GetBestBlockIndex (bc.blockLeaves.Add idx) = some b := by
    cases hb : BlockLeaves.GetBestBlockIndex (bc.blockLeaves.Add idx) with
    | none =>
      have := GetBestBlockIndex_eq_none _ hb
      simp [BlockLeaves.Add] at this
    | some b => exact ⟨b, rfl⟩
  obtain ⟨b, hb⟩ := haddne
  have hbBest := GetBestBlockIndex_isBest _ _ hb
  have hisHead : bc.blockLeaves.IsBestBlockIndex idx
      = decide (b.currentBlock.HeaderHash = idx.currentBlock.HeaderHash) := by
    unfold BlockLeaves.IsBestBlockIndex
    rw [hb]
  -- the head hash after the call names a best leaf
  have hmain : ∃ m, IsBestLeaf ((bc.blockLeaves.Add idx).RemoveByHash
        block.Header.PreviousBlockHash) m ∧
      (WriteBlock env fuel bc block).chain.bcStore.headBlockHash
        = some m.currentBlock.HeaderHash := by
    by_cases hh : b.currentBlock.HeaderHash = idx.currentBlock.HeaderHash
    · -- the new block is the best candidate
      have hbidx : b = idx := by
        rcases (hmemAdd b).mp hbBest.1 with h | h
        · exact h
        · exact absurd (hh.trans hidxhash) (hnoleaf b h)
      refine ⟨idx, ⟨hidxNew, ?_⟩, ?_⟩
      · intro i hi
        have hi' : i ∈ bc.blockLeaves.Add idx := (hmemAdd i).mpr ((hmemNew i).mp hi).1
        rw [← hbidx]
        exact hbBest.2 i hi'
      · rw [hnewhead, hisHead]
        simp [hh, hidxhash]
    · -- the new block is not the best candidate
      have hbL : b ∈ bc.blockLeaves := by
        rcases (hmemAdd b).mp hbBest.1 with h | h
        · rw [h] at hh
          exact absurd rfl hh
        · exact h
      have hbestAdd : best ∈ bc.blockLeaves.Add idx := (hmemAdd best).mpr (Or.inr hbest0.1)
      have h1 : best.better b = false := hbBest.2 best hbestAdd
      have h2 : b.better best = false := hbest0.2 b hbL
      have hidxb : idx.better b = false := hbBest.2 idx ((hmemAdd idx).mpr (Or.inl rfl))
      have hidxbest : idx.better best = false := not_better_trans idx b best hidxb h2
      have hbestne : best.currentBlock.HeaderHash ≠ block.Header.PreviousBlockHash := by
        intro heq
        have htdbest := (hstored best hbest0.1).2
        rw [heq, hptd] at htdbest
        have hlt : best.totalDifficulty < idx.totalDifficulty := by
          rw [hidxtd]
          have : parentTd = best.totalDifficulty := by simpa using htdbest
          omega
        rw [better_of_lt idx best hlt] at hidxbest
        cases hidxbest
      refine ⟨best, ⟨(hmemNew best).mpr ⟨Or.inr hbest0.1, hbestne⟩, ?_⟩, ?_⟩
      · intro i hi
        rcases ((hmemNew i).mp hi).1 with h | h
        · rw [h]
          exact hidxbest
        · exact hbest0.2 i h
      · rw [hnewhead, hisHead]
        simp [hh, hhead]
  constructor
  · obtain ⟨m, hm, hmhead⟩ := hmain
    rw [hleaves]
    obtain ⟨best', hbest', hhash⟩ := GetBestBlockIndex_of_isBest _ m hm
    exact ⟨best', hbest', by rw [hmhead, hhash]⟩
  · intro index hindex hindexhash
    rw [hleaves] at hindex
    have hindexidx : index = idx := by
      rcases ((hmemNew index).mp hindex).1 with h | h
      · exact h
      · exact absurd hindexhash (hnoleaf index h)
    rw [hindexidx, hnewhead]
    constructor
    · intro h
      simp [h]
    · intro h
      simp [h]

/-- C9, worked example of the amended claim: `block1` of difficulty `2` on the
chain that holds the genesis block only becomes the best leaf and HEAD. -/
theorem WriteBlock_head_is_best_leaf_witness :
    ∃ best', (WriteBlock Example.env 8 Example.chain Example.block1).chain.blockLeaves.GetBestBlockIndex
        = some best' ∧
      (WriteBlock Example.env 8 Example.chain Example.block1).chain.bcStore.headBlockHash
        = some best'.currentBlock.HeaderHash :=
  (WriteBlock_head_is_best_leaf Example.env 8 Example.chain Example.block1
    (NewBlockIndex Example.emptyView Example.genesis 1) rfl rfl rfl
    (by
      intro i hi
      have : i = NewBlockIndex Example.emptyView Example.genesis 1 := by
        simpa [Example.chain] using hi
      subst this
      exact ⟨by decide, rfl⟩)
    (by decide)).1

/-- C10, counterexample: HEAD is block `101` of height `1`, the canonical map
holds the ancestors of HEAD at the heights `0` and `1`, every stored header has
the height of its parent plus one, and a stale mapping `3 ↦ 113` is left above
HEAD. For the new best block `114` of height `4` on the fork `111, 112, 113`,
`updateHashByHeight` returns nil at once, because the first ancestor `113`
already matches: the canonical map at height `1` is still `101`, not the
ancestor `111` of the block. -/
theorem updateHashByHeight_stops_at_stale_entry :
    CanonicalUpTo Example.staleStore 101 (Example.forkHeader 101 100 1) ∧
    HeightsConsistent Example.staleStore.headers ∧
    (updateHashByHeight 8 Example.staleStore Example.forkBlock4).1 = none ∧
    ¬ AncestorsCanonical Example.staleStore.headers
        (updateHashByHeight 8 Example.staleStore Example.forkBlock4).2.hashByHeight
        Example.forkBlock4 := by
  refine ⟨Example.staleStore_canonical, Example.forkHeaders_consistent, rfl, ?_⟩
  intro h
  have h1 := h 1 111 (Example.forkHeader 111 100 1) (by decide) Example.onChain_111_113 rfl rfl
  revert h1
  decide

/-- C10, amended: suppose that before the call the canonical height-to-hash map
holds, for every height up to the height of the old HEAD, the hash of the
ancestor of the old HEAD at that height, and no mapping above that height, and
that every stored header has the height of its parent plus one (heights being
`uint64` values). Then after `updateHashByHeight(block)` returns nil, for every
height `h < block.Header.Height` the canonical map at `h` is the hash of the
ancestor of `block` at height `h`: stopping the walk at the first ancestor whose
entry already matches loses no required overwrite. -/
theorem updateHashByHeight_ancestors_canonical (fuel : Nat) (s : BlockchainStore)
    (block : Block) (head : Hash) (headHeader : BlockHeader)
    (hcanon : CanonicalUpTo s head headHeader)
    (habove : ∀ h, headHeader.Height < h → s.hashByHeight h = none)
    (hu64 : headHeader.Height < uint64Size)
    (hcons : HeightsConsistent s.headers)
    (hok : (updateHashByHeight fuel s block).1 = none) :
    AncestorsCanonical s.headers (updateHashByHeight fuel s block).2.hashByHeight block := by
  obtain ⟨hhead, hupto⟩ := hcanon
  have hsz := uint64Size_eq
  -- the entries of the canonical map are the heights up to the height of HEAD
  have hchar : ∀ h, s.hashByHeight h ≠ none ↔ h ≤ headHeader.Height := by
    intro h
    constructor
    · intro hne
      by_contra hgt
      exact hne (habove h (by omega))
    · intro hle
      obtain ⟨a, ha, hentry, -⟩ := hupto h hle
      rw [hentry]
      simp
  -- every canonical entry is a header of its height whose chain is canonical
  have hgood : ∀ h x, s.hashByHeight h = some x →
      (∃ hx, s.headers x = some hx ∧ hx.Height = h) ∧
      ∀ a ha, OnChain s.headers a x → s.headers a = some ha →
        s.hashByHeight ha.Height = some a := by
    intro h x hx
    have hle : h ≤ headHeader.Height := (hchar h).mp (by rw [hx]; simp)
    obtain ⟨x', hxh, hentry, hon, hhx, hheight⟩ := hupto h hle
    rw [hx] at hentry
    cases hentry
    refine ⟨⟨hxh, hhx, hheight⟩, ?_⟩
    intro a ha hona hha
    have hle' : ha.Height ≤ h := by
      rcases hona.height hcons ha hxh hha hhx with h' | h'
      · subst h'
        rw [hha] at hhx
        cases hhx
        omega
      · omega
    obtain ⟨a', ha', hentry', hon', hha', hheight'⟩ := hupto ha.Height (by omega)
    have : a' = a := hon'.unique hcons a ha' ha (hona.chain_trans hon) hha' hha hheight'
    rw [← this]
    exact hentry'
  unfold updateHashByHeight at hok ⊢
  have hsame1 := deleteLargerHeights_same fuel s (u64add block.Header.Height 1)
  cases hdel : deleteLargerHeights fuel s (u64add block.Header.Height 1) with
  | mk e s1 =>
    rw [hdel] at hok hsame1
    cases e with
    | some err => simp at hok
    | none =>
      simp only at hok hsame1 ⊢
      have hheaders : s1.headers = s.headers := hsame1.2.1
      have hi : u64add block.Header.Height 1 < uint64Size := by
        unfold u64add
        exact Nat.mod_lt _ (by omega)
      -- what the deletion loop leaves
      have hsurv : ∃ c, ∀ h, s1.hashByHeight h = if h < c then s.hashByHeight h else none := by
        by_cases hcase : u64add block.Header.Height 1 ≤ headHeader.Height + 1
        · obtain ⟨c, -, hc⟩ := deleteLargerHeights_survivors fuel s s1
            (u64add block.Header.Height 1) (u64add block.Header.Height 1)
            (headHeader.Height + 1) hi (le_refl _) (by omega)
            (by intro h; rw [hchar h]; omega) hdel
          exact ⟨c, hc⟩
        · obtain ⟨c, -, hc⟩ := deleteLargerHeights_survivors fuel s s1
            (u64add block.Header.Height 1) (headHeader.Height + 1)
            (u64add block.Header.Height 1) hi (by omega) (by omega)
            (by intro h; rw [hchar h]; omega) hdel
          exact ⟨c, hc⟩
      obtain ⟨c, hc⟩ := hsurv
      have hgood1 : ∀ n, GoodUpTo s1.headers s1.hashByHeight n := by
        intro n h x _ hx
        rw [hheaders]
        rw [hc h] at hx
        by_cases hlt : h < c
        · simp only [hlt, if_true] at hx
          obtain ⟨hstored, hchain⟩ := hgood h x hx
          refine ⟨hstored, ?_⟩
          intro a ha hona hha
          obtain ⟨hxh, hhx, hheight⟩ := hstored
          have hle' : ha.Height ≤ h := by
            rcases hona.height hcons ha hxh hha hhx with h' | h'
            · subst h'
              rw [hha] at hhx
              cases hhx
              omega
            · omega
          rw [hc ha.Height]
          have : ha.Height < c := by omega
          simp only [this, if_true]
          exact hchain a ha hona hha
        · simp [hlt] at hx
      cases hwalk : overwriteStaleHashes fuel s1 block.Header.PreviousBlockHash with
      | mk e3 s3 =>
        rw [hwalk] at hok
        simp only at hok
        subst hok
        obtain ⟨hA, -⟩ := overwriteStaleHashes_canonical fuel s1 s3
          block.Header.PreviousBlockHash (by rw [hheaders]; exact hcons)
          (fun _ hy _ => hgood1 hy.Height) hwalk
        intro h a ha _ hona hha hheight
        rw [← hheight]
        exact hA a ha (by rw [hheaders]; exact hona) (by rw [hheaders]; exact hha)

/-- C10, worked example of the amended claim: on the store with HEAD `101` and
canonical map `0 ↦ 100`, `1 ↦ 101`, the new best block `112` of height `2` on
the fork makes its parent `111` canonical at height `1` and keeps `100` at
height `0`. -/
theorem updateHashByHeight_ancestors_canonical_witness :
    (updateHashByHeight 8 Example.forkStore Example.forkBlock2).1 = none ∧
    AncestorsCanonical Example.forkStore.headers
      (updateHashByHeight 8 Example.forkStore Example.forkBlock2).2.hashByHeight
      Example.forkBlock2 ∧
    (updateHashByHeight 8 Example.forkStore Example.forkBlock2).2.hashByHeight 1 = some 111 ∧
    (updateHashByHeight 8 Example.forkStore Example.forkBlock2).2.hashByHeight 0 = some 100 :=
  ⟨rfl,
    updateHashByHeight_ancestors_canonical 8 Example.forkStore Example.forkBlock2 101
      (Example.forkHeader 101 100 1) Example.forkStore_canonical
      (by
        intro h hh
        have hh' : 1 < h := hh
        have h0 : h ≠ 0 := by omega
        have h1 : h ≠ 1 := by omega
        simp [Example.forkStore, h0, h1])
      (by decide) Example.forkHeaders_consistent rfl,
    rfl, rfl⟩

/-- C16, counterexample: after a reward of `5` to address `7`, a transaction
from `7` without recipient and of amount `100` is reached; `tx.Validate` rejects
it for its balance, and `updateStatedb` returns that error, not the
contract-creation error. -/
theorem updateStatedb_validate_error_first :
    (∃ d, Example.creationTx.Data = some d ∧ d.To = none) ∧
    (updateStatedbView (Transaction.Validate Example.env.verifySignature) Example.emptyView
        Example.rewardTx [Example.creationTx]).1 = some (Err.other 3) ∧
    updateStatedb (Transaction.Validate Example.env.verifySignature) Example.emptyView
        Example.rewardTx [Example.creationTx] = Except.error (Err.other 3) :=
  ⟨⟨_, rfl, rfl⟩, by decide, rfl⟩

/-- C16, amended: for every state view, reward transaction with recipient and
amount, and transaction list, if a non-reward transaction has a nil recipient
and passes `tx.Validate` on the view as it stands when it is reached (the
transactions before it having been applied without error), then `updateStatedb`
fails with the contract-creation-not-supported error at that transaction, and
the view is left as it was when the transaction was reached: the sender is not
debited and its nonce is unchanged. -/
theorem updateStatedb_contract_creation (validate : Transaction → Statedb → Option Err)
    (view view1 : Statedb) (minerRewardTx : Transaction) (before after : List Transaction)
    (tx : Transaction) (rd d : TransactionData) (recipient : Address) (amount : Int)
    (hrd : minerRewardTx.Data = some rd) (hrto : rd.To = some recipient)
    (hram : rd.Amount = some amount)
    (hbefore : updateStatedbLoopView validate
      ((view.GetOrNewStateObject recipient).AddAmount recipient amount) before = (none, view1))
    (hd : tx.Data = some d) (hto : d.To = none) (hvalid : validate tx view1 = none) :
    updateStatedbView validate view minerRewardTx (before ++ tx :: after)
      = (some Err.errContractCreationNotSupported, view1) ∧
    updateStatedb validate view minerRewardTx (before ++ tx :: after)
      = Except.error Err.errContractCreationNotSupported ∧
    (updateStatedbView validate view minerRewardTx (before ++ tx :: after)).2.GetBalance d.From
      = view1.GetBalance d.From ∧
    (updateStatedbView validate view minerRewardTx (before ++ tx :: after)).2.GetNonce d.From
      = view1.GetNonce d.From := by
  have hview : updateStatedbView validate view minerRewardTx (before ++ tx :: after)
      = (some Err.errContractCreationNotSupported, view1) := by
    unfold updateStatedbView
    simp only [hrd, hrto, hram]
    rw [updateStatedbLoopView_append validate before _ view1 _ hbefore]
    unfold updateStatedbLoopView updateStatedbTxView
    simp only [hvalid, hd, hto]
  refine ⟨hview, ?_, ?_, ?_⟩
  · rw [updateStatedb_eq_view, hview]
  · rw [hview]
  · rw [hview]

/-- C16, worked example of the amended claim: after a reward of `5` to address
`7` and a transfer of `3` from `7` to `8`, a transaction from `7` without
recipient, with the right nonce and an amount that the balance covers, is
rejected as contract creation; address `7` keeps balance `2` and nonce `1`. -/
theorem updateStatedb_contract_creation_witness :
    updateStatedb (Transaction.Validate Example.env.verifySignature) Example.emptyView
        Example.rewardTx ([Example.transferTx] ++ Example.smallCreationTx :: [])
      = Except.error Err.errContractCreationNotSupported ∧
    (updateStatedbView (Transaction.Validate Example.env.verifySignature) Example.emptyView
        Example.rewardTx ([Example.transferTx] ++ Example.smallCreationTx :: [])).2 7
      = some { Amount := 2, Nonce := 1 } :=
  have h := updateStatedb_contract_creation (Transaction.Validate Example.env.verifySignature)
    Example.emptyView
    (updateStatedbLoopView (Transaction.Validate Example.env.verifySignature)
      ((Example.emptyView.GetOrNewStateObject 7).AddAmount 7 5) [Example.transferTx]).2
    Example.rewardTx [Example.transferTx] [] Example.smallCreationTx _ _ 7 5 rfl rfl rfl
    rfl rfl rfl (by decide)
  ⟨h.2.1, by rw [h.1]; decide⟩

/-- C11, counterexample: the canonical map holds the single mapping `0 ↦ 100`
(the contiguous range `0..0`). For a block of the largest `uint64` height and
without parent, `block.Header.Height + 1` wraps to `0`: the deletion loop removes
the mapping at height `0`, which is not above the height of the block, and
`updateHashByHeight` returns nil. -/
theorem updateHashByHeight_deletes_from_zero :
    (∀ h, Example.store.hashByHeight h ≠ none ↔ h ≤ 0) ∧
    (updateHashByHeight 8 Example.store Example.maxHeightBlock).1 = none ∧
    0 ≤ Example.maxHeightBlock.Header.Height ∧
    Example.store.hashByHeight 0 = some 100 ∧
    (deleteLargerHeights 8 Example.store
      (u64add Example.maxHeightBlock.Header.Height 1)).2.hashByHeight 0 = none := by
  refine ⟨?_, rfl, by decide, rfl, by decide⟩
  intro h
  by_cases h0 : h = 0
  · subst h0
    simp [Example.store]
  · simp [Example.store, h0]

/-- C11, amended: if the heights that have a canonical mapping before the call
form a contiguous range `0..n`, and `n` and `block.Header.Height` are below the
largest `uint64` value, then after `updateHashByHeight(block)` returns nil there
is no canonical mapping at any height greater than `block.Header.Height`, and
the deletion loop removes no mapping at a height less than or equal to
`block.Header.Height`. -/
theorem updateHashByHeight_deletes_above (fuel : Nat) (s : BlockchainStore) (block : Block)
    (n : Nat)
    (hcontig : ∀ h, s.hashByHeight h ≠ none ↔ h ≤ n)
    (hn : n + 1 < uint64Size)
    (hheight : block.Header.Height + 1 < uint64Size)
    (hok : (updateHashByHeight fuel s block).1 = none) :
    (∀ h, block.Header.Height < h →
      (updateHashByHeight fuel s block).2.hashByHeight h = none) ∧
    (∀ h, h ≤ block.Header.Height →
      (deleteLargerHeights fuel s (u64add block.Header.Height 1)).2.hashByHeight h
        = s.hashByHeight h) := by
  have hsz := uint64Size_eq
  have hstart : u64add block.Header.Height 1 = block.Header.Height + 1 :=
    u64add_one_of_lt _ hheight
  constructor
  · intro h hlt
    unfold updateHashByHeight at hok ⊢
    cases hdel : deleteLargerHeights fuel s (u64add block.Header.Height 1) with
    | mk e s1 =>
      rw [hdel] at hok
      cases e with
      | some err => simp at hok
      | none =>
        simp only
        rw [overwriteStaleHashes_domain]
        rw [hstart] at hdel
        by_cases hcase : block.Header.Height + 1 ≤ n + 1
        · obtain ⟨c, hca, hc⟩ := deleteLargerHeights_survivors fuel s s1
            (block.Header.Height + 1) (block.Header.Height + 1) (n + 1) (by omega)
            (le_refl _) (by omega) (by intro x; rw [hcontig x]; omega) hdel
          rw [hc h]
          have : ¬ h < c := by omega
          simp [this]
        · obtain ⟨c, hca, hc⟩ := deleteLargerHeights_survivors fuel s s1
            (block.Header.Height + 1) (n + 1) (block.Header.Height + 1) (by omega)
            (by omega) (by omega) (by intro x; rw [hcontig x]; omega) hdel
          rw [hc h]
          by_cases hlt' : h < c
          · simp only [hlt', if_true]
            by_contra hsome
            have := (hcontig h).mp hsome
            omega
          · simp [hlt']
  · intro h hle
    rw [hstart]
    have hgap : s.hashByHeight (max (block.Header.Height + 1) (n + 1)) = none := by
      by_contra hsome
      have := (hcontig _).mp hsome
      omega
    exact deleteLargerHeights_below fuel s (block.Header.Height + 1)
      (max (block.Header.Height + 1) (n + 1)) (le_max_left _ _) (by omega) hgap h (by omega)

/-- C11, worked example of the amended claim: the canonical map `0 ↦ 100`,
`1 ↦ 101` and the new best block `112` of height `2`. -/
theorem updateHashByHeight_deletes_above_witness :
    (updateHashByHeight 8 Example.forkStore Example.forkBlock2).1 = none ∧
    (∀ h, Example.forkBlock2.Header.Height < h →
      (updateHashByHeight 8 Example.forkStore Example.forkBlock2).2.hashByHeight h = none) ∧
    (∀ h, h ≤ Example.forkBlock2.Header.Height →
      (deleteLargerHeights 8 Example.forkStore
        (u64add Example.forkBlock2.Header.Height 1)).2.hashByHeight h
        = Example.forkStore.hashByHeight h) :=
  have h := updateHashByHeight_deletes_above 8 Example.forkStore Example.forkBlock2 1
    (by
      intro h
      by_cases h0 : h = 0
      · subst h0
        simp [Example.forkStore]
      · by_cases h1 : h = 1
        · subst h1
          simp [Example.forkStore]
        · simp only [Example.forkStore, h0, h1, if_false, ne_eq, not_true_eq_false, false_iff]
          omega)
    (by decide) (by decide) rfl
  ⟨rfl, h.1, h.2⟩

/-- The reindex alone, on a store with canonical chain `100, 101` and headers of
the fork `100, 111, 112, 113`: for the block `113`, `updateHashByHeight` returns
the store's not-found error at the ancestor `112` of height `2`, whose height
has no canonical entry, and the entry of height `1` still names `101`. -/
theorem updateHashByHeight_fails_on_missing_entry :
    Example.forkStore.headers 112 = some (Example.forkHeader 112 111 2) ∧
    Example.forkStore.headers 111 = some (Example.forkHeader 111 100 1) ∧
    Example.forkStore.headers 100 = some (Example.forkHeader 100 EmptyHash 0) ∧
    Example.forkStore.hashByHeight 2 = none ∧
    (updateHashByHeight 8 Example.forkStore Example.forkBlock3).1
      = some (Err.store StoreErr.notFound) ∧
    (updateHashByHeight 8 Example.forkStore Example.forkBlock3).2.hashByHeight 1
      = some 101 :=
  ⟨rfl, rfl, rfl, rfl, rfl, rfl⟩

/-- C12, failing input, end to end: on the genesis block the heavy block `101`
and the light blocks `111` and `112` are written without error; HEAD is `101`
and the canonical map ends at height `1`. The block `113` then makes the fork
`111, 112, 113` the heaviest chain, with all its ancestors stored, and
`WriteBlock` fails with the store's not-found error of the canonical reindex;
HEAD stays `101` and block `113` is not stored. -/
theorem WriteBlock_longer_fork_fails :
    (WriteBlock Example.env 8 Example.chain (Example.rewardBlock 101 100 1 10 5)).err = none ∧
    (WriteBlock Example.env 8 Example.chainA (Example.rewardBlock 111 100 1 1 5)).err = none ∧
    (WriteBlock Example.env 8 Example.chainB (Example.rewardBlock 112 111 2 1 10)).err = none ∧
    Example.chainC.bcStore.headBlockHash = some 101 ∧
    Example.chainC.bcStore.hashByHeight 1 = some 101 ∧
    Example.chainC.bcStore.hashByHeight 2 = none ∧
    Example.chainC.bcStore.totalDifficulties 101 = some 11 ∧
    Example.chainC.bcStore.totalDifficulties 112 = some 3 ∧
    (Example.chainC.bcStore.headers 112).isSome = true ∧
    (Example.chainC.bcStore.headers 111).isSome = true ∧
    (Example.chainC.bcStore.headers 100).isSome = true ∧
    (WriteBlock Example.env 8 Example.chainC Example.winningBlock).err
      = some (Err.store StoreErr.notFound) ∧
    (WriteBlock Example.env 8 Example.chainC Example.winningBlock).calls.getLast?
      = some Event.BatchRollback ∧
    Event.updateHashByHeight
      ∈ (WriteBlock Example.env 8 Example.chainC Example.winningBlock).calls ∧
    (WriteBlock Example.env 8 Example.chainC Example.winningBlock).chain.bcStore.headBlockHash
      = some 101 ∧
    (WriteBlock Example.env 8 Example.chainC Example.winningBlock).chain.bcStore.blocks 113
      = none := by
  refine ⟨rfl, rfl, rfl, rfl, rfl, rfl, rfl, rfl, rfl, rfl, rfl, rfl, rfl, ?_, rfl, rfl⟩
  decide

/-- C13, failing input: on a chain whose account state database fails to commit
the batch, `WriteBlock` of the valid block `101` returns the I/O error of the
batch commit; the block leaves no longer hold the genesis block `100` but the
index of `101`, and the header chain has gained the header of `101`. -/
theorem WriteBlock_commit_error_mutates_leaves :
    (WriteBlock Example.env 8 Example.commitFailChain Example.block1).err
      = some (Err.store StoreErr.ioFailure) ∧
    Event.BatchCommit ∈ (WriteBlock Example.env 8 Example.commitFailChain Example.block1).calls ∧
    (WriteBlock Example.env 8 Example.commitFailChain Example.block1).calls.getLast?
      = some Event.BatchRollback ∧
    Example.commitFailChain.blockLeaves.map (fun i => i.currentBlock.HeaderHash) = [100] ∧
    (WriteBlock Example.env 8 Example.commitFailChain
        Example.block1).chain.blockLeaves.map (fun i => i.currentBlock.HeaderHash) = [101] ∧
    Example.commitFailChain.headerChain = [Example.genesis.Header] ∧
    (WriteBlock Example.env 8 Example.commitFailChain Example.block1).chain.headerChain
      = [Example.block1.Header, Example.genesis.Header] := by
  refine ⟨rfl, ?_, rfl, rfl, rfl, rfl, rfl⟩
  decide

/-- C14, failing input: on a chain whose account state database fails to commit
the batch, `WriteBlock` of the valid block `101` returns the I/O error of the
batch commit and the state of root `5` is not persisted, yet the blockchain
store holds the block, its header and its total difficulty, HEAD is `101` and
the canonical map names `101` at height `1`: `PutBlock` is not given the batch. -/
theorem WriteBlock_commit_error_keeps_block :
    (WriteBlock Example.env 8 Example.commitFailChain Example.block1).err
      = some (Err.store StoreErr.ioFailure) ∧
    Event.BatchCommit ∈ (WriteBlock Example.env 8 Example.commitFailChain Example.block1).calls ∧
    ((WriteBlock Example.env 8 Example.commitFailChain
        Example.block1).chain.accountStateDB.states 5).isSome = false ∧
    (WriteBlock Example.env 8 Example.commitFailChain Example.block1).chain.bcStore.blocks 101
      = some Example.block1 ∧
    (WriteBlock Example.env 8 Example.commitFailChain Example.block1).chain.bcStore.headers 101
      = some Example.block1.Header ∧
    (WriteBlock Example.env 8 Example.commitFailChain
        Example.block1).chain.bcStore.totalDifficulties 101 = some 3 ∧
    (WriteBlock Example.env 8 Example.commitFailChain
        Example.block1).chain.bcStore.headBlockHash = some 101 ∧
    (WriteBlock Example.env 8 Example.commitFailChain
        Example.block1).chain.bcStore.hashByHeight 1 = some 101 ∧
    Example.commitFailChain.bcStore.blocks 101 = none ∧
    Example.commitFailChain.bcStore.headBlockHash = some 100 := by
  refine ⟨rfl, ?_, rfl, rfl, rfl, rfl, rfl, rfl, rfl, rfl⟩
  decide

/-- C15, counterexample: the only leaf is the stored block `120`, whose parent
`101` is not stored, so no member's previous-block-hash is a key of the leaves.
After the successful `WriteBlock` of block `101` the leaves hold `101` and
`120`, and the previous-block-hash of `120` is a key of the set. -/
theorem WriteBlock_breaks_leaves_invariant :
    NoLeafIsParent Example.orphanChain.blockLeaves ∧
    (∀ i ∈ Example.orphanChain.blockLeaves,
      Example.orphanChain.bcStore.blocks i.currentBlock.HeaderHash ≠ none) ∧
    Example.orphanChain.bcStore.blocks Example.block1.HeaderHash = none ∧
    (WriteBlock Example.env 8 Example.orphanChain Example.block1).err = none ∧
    ¬ NoLeafIsParent (WriteBlock Example.env 8 Example.orphanChain Example.block1).chain.blockLeaves := by
  have hleaves : (WriteBlock Example.env 8 Example.orphanChain Example.block1).chain.blockLeaves
      = [NewBlockIndex Example.view1 Example.block1 3,
         NewBlockIndex Example.emptyView Example.orphan 1] := rfl
  refine ⟨?_, ?_, rfl, rfl, ?_⟩
  · intro i hi j hj
    have hi' : i = NewBlockIndex Example.emptyView Example.orphan 1 := by
      simpa [Example.orphanChain] using hi
    have hj' : j = NewBlockIndex Example.emptyView Example.orphan 1 := by
      simpa [Example.orphanChain] using hj
    subst hi' hj'
    decide
  · intro i hi
    have hi' : i = NewBlockIndex Example.emptyView Example.orphan 1 := by
      simpa [Example.orphanChain] using hi
    subst hi'
    decide
  · intro h
    rw [hleaves] at h
    exact h (NewBlockIndex Example.emptyView Example.orphan 1) (by simp)
      (NewBlockIndex Example.view1 Example.block1 3) (by simp) rfl

/-- C15, amended: if before the call no member's previous-block-hash is a key of
the leaves set, every leaf is a stored block and no leaf has the new block as
its parent, then after a successful `WriteBlock` of a block not previously
stored the set contains the new block's index, contains no entry for the new
block's parent hash, keeps every other entry unchanged, and again no member's
previous-block-hash is a key of the set. -/
theorem WriteBlock_preserves_leaves_invariant (env : Env) (fuel : Nat) (bc : Blockchain)
    (block : Block)
    (hinv : NoLeafIsParent bc.blockLeaves)
    (hstored : ∀ i ∈ bc.blockLeaves, bc.bcStore.blocks i.currentBlock.HeaderHash ≠ none)
    (hchild : ∀ i ∈ bc.blockLeaves,
      i.currentBlock.Header.PreviousBlockHash ≠ block.HeaderHash)
    (hok : (WriteBlock env fuel bc block).err = none) :
    bc.bcStore.blocks block.HeaderHash = none ∧
    (∃ index ∈ (WriteBlock env fuel bc block).chain.blockLeaves,
      index.currentBlock = block) ∧
    (∀ i ∈ (WriteBlock env fuel bc block).chain.blockLeaves,
      i.currentBlock.HeaderHash ≠ block.Header.PreviousBlockHash) ∧
    (∀ i, i.currentBlock.HeaderHash ≠ block.HeaderHash →
      (i ∈ (WriteBlock env fuel bc block).chain.blockLeaves ↔
        (i ∈ bc.blockLeaves ∧ i.currentBlock.HeaderHash ≠ block.Header.PreviousBlockHash))) ∧
    NoLeafIsParent (WriteBlock env fuel bc block).chain.blockLeaves := by
  obtain ⟨preBlock, blockStatedb, parentTd, hdup, hpar, -, -, -, -, hleaves, -⟩ :=
    WriteBlock_ok_inv env fuel bc block hok
  have hnone := HasBlock_false _ _ hdup
  have hparent := GetBlock_ok _ _ _ hpar
  have hne : block.HeaderHash ≠ block.Header.PreviousBlockHash := by
    intro heq
    rw [← heq, hnone] at hparent
    cases hparent
  have hnoleaf : ∀ i ∈ bc.blockLeaves, i.currentBlock.HeaderHash ≠ block.HeaderHash := by
    intro i hi heq
    have := hstored i hi
    rw [heq] at this
    exact this hnone
  generalize hidx : NewBlockIndex blockStatedb block (parentTd + block.Header.Difficulty)
    = idx at hleaves
  have hidxblock : idx.currentBlock = block := by
    rw [← hidx]; rfl
  have hmem : ∀ i, i ∈ (WriteBlock env fuel bc block).chain.blockLeaves ↔
      (i = idx ∨ i ∈ bc.blockLeaves) ∧
        i.currentBlock.HeaderHash ≠ block.Header.PreviousBlockHash := by
    intro i
    rw [hleaves]
    simp only [BlockLeaves.RemoveByHash, BlockLeaves.Add, List.mem_filter, List.mem_cons,
      ne_eq, decide_not, Bool.not_eq_true', decide_eq_false_iff_not]
    constructor
    · rintro ⟨h | ⟨h, -⟩, h2⟩
      · exact ⟨Or.inl h, h2⟩
      · exact ⟨Or.inr h, h2⟩
    · rintro ⟨h | h, h2⟩
      · exact ⟨Or.inl h, h2⟩
      · exact ⟨Or.inr ⟨h, by rw [hidxblock]; exact hnoleaf i h⟩, h2⟩
  refine ⟨hnone, ?_, ?_, ?_, ?_⟩
  · exact ⟨idx, (hmem idx).mpr ⟨Or.inl rfl, by rw [hidxblock]; exact hne⟩, hidxblock⟩
  · intro i hi
    exact ((hmem i).mp hi).2
  · intro i hi
    rw [hmem i]
    constructor
    · rintro ⟨h | h, h2⟩
      · rw [h, hidxblock] at hi
        exact absurd rfl hi
      · exact ⟨h, h2⟩
    · rintro ⟨h, h2⟩
      exact ⟨Or.inr h, h2⟩
  · intro i hi j hj
    obtain ⟨hi1, hi2⟩ := (hmem i).mp hi
    obtain ⟨hj1, hj2⟩ := (hmem j).mp hj
    rcases hi1 with hi1 | hi1
    · rw [hi1, hidxblock]
      exact fun h => hj2 h.symm
    · rcases hj1 with hj1 | hj1
      · rw [hj1, hidxblock]
        exact hchild i hi1
      · exact hinv i hi1 j hj1

/-- C15, worked example of the amended claim: block `101` on the chain whose only
leaf is the genesis block. -/
theorem WriteBlock_preserves_leaves_invariant_witness :
    (WriteBlock Example.env 8 Example.chain Example.block1).err = none ∧
    (WriteBlock Example.env 8 Example.chain
        Example.block1).chain.blockLeaves.map (fun i => i.currentBlock.HeaderHash) = [101] ∧
    NoLeafIsParent (WriteBlock Example.env 8 Example.chain Example.block1).chain.blockLeaves :=
  have hleaf : ∀ i ∈ Example.chain.blockLeaves,
      i = NewBlockIndex Example.emptyView Example.genesis 1 := by
    intro i hi
    simpa [Example.chain] using hi
  have h := WriteBlock_preserves_leaves_invariant Example.env 8 Example.chain Example.block1
    (by
      intro i hi j hj
      rw [hleaf i hi, hleaf j hj]
      decide)
    (by
      intro i hi
      rw [hleaf i hi]
      decide)
    (by
      intro i hi
      rw [hleaf i hi]
      decide)
    rfl
  ⟨rfl, rfl, h.2.2.2.2⟩

/-- C17, counterexample: on the store that holds the genesis block as HEAD, the
genesis height mapping, the genesis block, the HEAD hash, the HEAD block, its
total difficulty and the state at its state root can all be read, yet
`NewBlockchain` returns the error of `NewHeaderChain` (line 89-92) and no
blockchain. -/
theorem NewBlockchain_header_chain_error :
    (∃ genesisHash genesisBlock headHash headBlock td view,
      Example.store.GetBlockHash genesisBlockHeight = Except.ok genesisHash ∧
      Example.store.GetBlock genesisHash = Except.ok genesisBlock ∧
      Example.store.GetHeadBlockHash = Except.ok headHash ∧
      Example.store.GetBlock headHash = Except.ok headBlock ∧
      Example.store.GetBlockTotalDifficulty headHash = Except.ok td ∧
      NewStatedb headBlock.Header.StateHash Example.chain.accountStateDB = Except.ok view) ∧
    (match NewBlockchain Example.failingNewHeaderChain Example.engine Example.store
        Example.chain.accountStateDB with
      | Except.error err => err = Err.store StoreErr.ioFailure
      | Except.ok _ => False) :=
  ⟨⟨100, Example.genesis, 100, Example.genesis, 1, Example.emptyView, rfl, rfl, rfl, rfl, rfl,
    rfl⟩, rfl⟩

/-- C17, amended: `NewBlockchain` returns the error of `NewHeaderChain` if the
header chain cannot be built. Otherwise, for every store in which the genesis
height mapping, the genesis block, the HEAD hash, the HEAD block, the total
difficulty of the HEAD block and the state at the state root of the HEAD block
can all be read, `NewBlockchain` succeeds and its block leaves contain exactly
one index, made of the HEAD block, the state view at `HEAD.Header.StateHash` and
the stored total difficulty of HEAD, so that `CurrentBlock` returns the HEAD
block; if one of these reads fails, `NewBlockchain` returns that error and no
blockchain. -/
theorem NewBlockchain_loads_head (NewHeaderChain : BlockchainStore → Except Err HeaderChain)
    (powEngine : consensusEngine) (bcStore : BlockchainStore) (accountStateDB : Database) :
    (∀ e, NewHeaderChain bcStore = Except.error e →
      NewBlockchain NewHeaderChain powEngine bcStore accountStateDB = Except.error e) ∧
    (∀ headerChain, NewHeaderChain bcStore = Except.ok headerChain →
      (∀ e, bcStore.GetBlockHash genesisBlockHeight = Except.error e →
        NewBlockchain NewHeaderChain powEngine bcStore accountStateDB = Except.error e) ∧
      (∀ genesisHash, bcStore.GetBlockHash genesisBlockHeight = Except.ok genesisHash →
        (∀ e, bcStore.GetBlock genesisHash = Except.error e →
          NewBlockchain NewHeaderChain powEngine bcStore accountStateDB = Except.error e) ∧
        (∀ genesisBlock, bcStore.GetBlock genesisHash = Except.ok genesisBlock →
          (∀ e, bcStore.GetHeadBlockHash = Except.error e →
            NewBlockchain NewHeaderChain powEngine bcStore accountStateDB = Except.error e) ∧
          (∀ headHash, bcStore.GetHeadBlockHash = Except.ok headHash →
            (∀ e, bcStore.GetBlock headHash = Except.error e →
              NewBlockchain NewHeaderChain powEngine bcStore accountStateDB
                = Except.error e) ∧
            (∀ headBlock, bcStore.GetBlock headHash = Except.ok headBlock →
              (∀ e, bcStore.GetBlockTotalDifficulty headHash = Except.error e →
                NewBlockchain NewHeaderChain powEngine bcStore accountStateDB
                  = Except.error e) ∧
              (∀ td, bcStore.GetBlockTotalDifficulty headHash = Except.ok td →
                (∀ e, NewStatedb headBlock.Header.StateHash accountStateDB = Except.error e →
                  NewBlockchain NewHeaderChain powEngine bcStore accountStateDB
                    = Except.error e) ∧
                (∀ view, NewStatedb headBlock.Header.StateHash accountStateDB
                    = Except.ok view →
                  ∃ bc, NewBlockchain NewHeaderChain powEngine bcStore accountStateDB
                      = Except.ok bc ∧
                    bc.blockLeaves = [NewBlockIndex view headBlock td] ∧
                    bc.CurrentBlock = some (headBlock, view) ∧
                    bc.genesisBlock = genesisBlock ∧
                    bc.headerChain = headerChain ∧
                    bc.bcStore = bcStore ∧
                    bc.accountStateDB = accountStateDB))))))) := by
  refine ⟨?_, ?_⟩
  · intro e h
    simp [NewBlockchain, h]
  · intro headerChain hhc
    refine ⟨?_, ?_⟩
    · intro e h
      simp [NewBlockchain, hhc, h]
    · intro genesisHash hgh
      refine ⟨?_, ?_⟩
      · intro e h
        simp [NewBlockchain, hhc, hgh, h]
      · intro genesisBlock hg
        refine ⟨?_, ?_⟩
        · intro e h
          simp [NewBlockchain, hhc, hgh, hg, h]
        · intro headHash hh
          refine ⟨?_, ?_⟩
          · intro e h
            simp [NewBlockchain, hhc, hgh, hg, hh, h]
          · intro headBlock hb
            refine ⟨?_, ?_⟩
            · intro e h
              simp [NewBlockchain, hhc, hgh, hg, hh, hb, h]
            · intro td htd
              refine ⟨?_, ?_⟩
              · intro e h
                simp [NewBlockchain, hhc, hgh, hg, hh, hb, htd, h]
              · intro view hview
                simp only [NewBlockchain, hhc, hgh, hg, hh, hb, htd, hview]
                refine ⟨_, rfl, ?_, ?_, rfl, rfl, rfl, rfl⟩
                · simp [NewBlockLeaves, BlockLeaves.Add]
                · simp [Blockchain.CurrentBlock, NewBlockLeaves, BlockLeaves.Add,
                    BlockLeaves.GetBestBlockIndex, NewBlockIndex]

/-- C17, worked example of the amended claim: on the store that holds the genesis
block as HEAD, with a header chain constructor that succeeds, `NewBlockchain`
builds a blockchain whose only leaf is the genesis block with total difficulty
`1`. -/
theorem NewBlockchain_loads_head_witness :
    ∃ bc, NewBlockchain Example.loadingNewHeaderChain Example.engine Example.store
        Example.chain.accountStateDB = Except.ok bc ∧
      bc.blockLeaves = [NewBlockIndex Example.emptyView Example.genesis 1] ∧
      bc.CurrentBlock = some (Example.genesis, Example.emptyView) :=
  have h := (((((((NewBlockchain_loads_head Example.loadingNewHeaderChain Example.engine
    Example.store Example.chain.accountStateDB).2 [Example.genesis.Header] rfl).2 100 rfl).2
    Example.genesis rfl).2 100 rfl).2 Example.genesis rfl).2 1 rfl).2 Example.emptyView rfl
  match h with
  | ⟨bc, h1, h2, h3, _⟩ => ⟨bc, h1, h2, h3⟩

/-- C18: `GetBlockByHeight` returns the output of the current HEAD block when
`request.Height` is negative, and otherwise the output of the block whose hash
the canonical height-to-hash index gives for that height; if the height has no
canonical mapping or the block cannot be read, it returns that error and leaves
the result unchanged. The output is what `rpcOutputBlock` makes of the block. -/
theorem GetBlockByHeight_spec (api : PublicSeeleAPI) (request : GetBlockByHeightRequest)
    (result : Option RpcBlock) :
    (request.Height < 0 →
      ∀ block state, api.s.chain.CurrentBlock = some (block, state) →
        api.GetBlockByHeight request result
          = match rpcOutputBlock (some block) request.FullTx with
            | Except.error err => (some err, result)
            | Except.ok response => (none, some response)) ∧
    (0 ≤ request.Height →
      (∀ e, api.s.chain.GetStore.GetBlockHash request.Height.toNat = Except.error e →
        api.GetBlockByHeight request result = (some e, result)) ∧
      (∀ hash, api.s.chain.GetStore.GetBlockHash request.Height.toNat = Except.ok hash →
        (∀ e, api.s.chain.GetStore.GetBlock hash = Except.error e →
          api.GetBlockByHeight request result = (some e, result)) ∧
        (∀ block, api.s.chain.GetStore.GetBlock hash = Except.ok block →
          api.GetBlockByHeight request result
            = match rpcOutputBlock (some block) request.FullTx with
              | Except.error err => (some err, result)
              | Except.ok response => (none, some response)))) := by
  refine ⟨?_, ?_⟩
  · intro hneg block state hcur
    unfold PublicSeeleAPI.GetBlockByHeight
    simp only [hneg, if_true, hcur]
  · intro hpos
    have hnot : ¬ request.Height < 0 := not_lt.mpr hpos
    refine ⟨?_, ?_⟩
    · intro e h
      unfold PublicSeeleAPI.GetBlockByHeight
      simp only [hnot, if_false, h]
    · intro hash hhash
      refine ⟨?_, ?_⟩
      · intro e h
        unfold PublicSeeleAPI.GetBlockByHeight
        simp only [hnot, if_false, hhash, h]
      · intro block h
        unfold PublicSeeleAPI.GetBlockByHeight
        simp only [hnot, if_false, hhash, h]

/-- C18, worked example: on the chain after block `101`, height `-1` and height
`1` both give the output of block `101`, height `0` gives the genesis block, and
height `2`, which has no canonical mapping, gives the not-found error of the
store and leaves the result as it was. -/
theorem GetBlockByHeight_spec_witness :
    (Example.api.GetBlockByHeight { Height := -1, FullTx := false } none).1 = none ∧
    ((Example.api.GetBlockByHeight { Height := -1, FullTx := false } none).2.map
      (fun r => r.hash)) = some 101 ∧
    Example.api.GetBlockByHeight { Height := 1, FullTx := true } none
      = Example.api.GetBlockByHeight { Height := -1, FullTx := true } none ∧
    ((Example.api.GetBlockByHeight { Height := 0, FullTx := false } none).2.map
      (fun r => r.hash)) = some 100 ∧
    Example.api.GetBlockByHeight { Height := 2, FullTx := false } none
      = (some (Err.store StoreErr.notFound), none) :=
  ⟨by decide, by decide, by decide, by decide,
    ((GetBlockByHeight_spec Example.api { Height := 2, FullTx := false } none).2
      (by decide)).1 _ rfl⟩

/-- C19, failing input: for a nil `account`, line 50 stores the coinbase through
the nil pointer: `GetBalance` panics instead of reporting the balance of the
coinbase, and the result is left as it was. -/
theorem GetBalance_nil_account_panics (api : PublicSeeleAPI) (result : Option Int) :
    api.GetBalance none result
      = { err := some Err.nilDereference, account := none, result := result } := by
  rfl

/-- C20: for every trie and every sequence of `Put` operations on it, `Get(k)`
returns the value of the most recent `Put` for `k`, and what the trie read for
`k` before when no `Put` names `k`: a later `Put` to the same key overwrites the
earlier value and a `Put` to another key, also one that shares a run of bytes
with `k`, does not change the value read for `k`. -/
theorem Trie_Get_most_recent_Put (t : Trie) (puts : List (TrieKey × TrieValue))
    (k : TrieKey) :
    (t.PutAll puts).Get k
      = match mostRecentPut puts k with
        | some v => (v, true)
        | none => t.Get k := by
  induction puts using List.reverseRecOn with
  | nil => rfl
  | append_singleton puts p ih =>
    rw [Trie.PutAll_append, Trie.Get_Put, mostRecentPut_append, ih]
    by_cases h : k = p.1
    · simp [h]
    · have h2 : ¬ p.1 = k := fun e => h e.symm
      simp [h, h2]

/-- C20, worked example: the reads of `Test_trie_Update` (lines 51-74) after its
`Put` operations: the key put twice reads the later value `"testnew"`, and the
keys `"24375879"`, `"24375878"` and `"24355879"`, which share a run of bytes, read
their own values. -/
theorem Trie_Get_most_recent_Put_witness :
    Example.updateTrie.Get (Example.digits [1, 2, 3, 4, 5, 6, 7, 8])
      = (Example.testValue [110, 101, 119], true) ∧
    Example.updateTrie.Get (Example.digits [2, 4, 3, 7, 5, 8, 7, 9])
      = (Example.testValue [53], true) ∧
    Example.updateTrie.Get (Example.digits [2, 4, 3, 7, 5, 8, 7, 8])
      = (Example.testValue [54], true) ∧
    Example.updateTrie.Get (Example.digits [2, 4, 3, 5, 5, 8, 7, 9])
      = (Example.testValue [55], true) :=
  ⟨Trie_Get_most_recent_Put _ Example.updatePuts _,
    Trie_Get_most_recent_Put _ Example.updatePuts _,
    Trie_Get_most_recent_Put _ Example.updatePuts _,
    Trie_Get_most_recent_Put _ Example.updatePuts _⟩

/-- C21: for every trie and key `k`, `Delete(k)` returns true if and only if `k`
has a value in the trie; after `Delete(k)`, `Get(k)` returns an empty value, and
`Get` of every other key returns the same value as before the deletion. -/
theorem Trie_Delete_spec (t : Trie) (k : TrieKey) :
    ((t.Delete k).1 = true ↔ (t.Get k).2 = true) ∧
    (t.Delete k).2.Get k = ([], false) ∧
    (∀ q, q ≠ k → (t.Delete k).2.Get q = t.Get q) := by
  refine ⟨?_, ?_, ?_⟩
  · rw [Trie.Get_snd]
    unfold Trie.Delete
    simp only [TrieNode.delete_fst]
  · rw [Trie.Get_Delete]
    simp
  · intro q hq
    rw [Trie.Get_Delete]
    simp [hq]

/-- C21, worked example: in the trie of `Test_trie_Delete` the key
`"24375879"` has the value `"test5"` and `Delete` reports it; afterwards it reads
empty, and the key `"24375878"`, which differs in its last byte, still reads
`"test6"`. -/
theorem Trie_Delete_spec_witness :
    (Example.deleteTrie0.Get (Example.digits [2, 4, 3, 7, 5, 8, 7, 9])).2 = true ∧
    (Example.deleteTrie0.Delete (Example.digits [2, 4, 3, 7, 5, 8, 7, 9])).1 = true ∧
    (Example.deleteTrie0.Delete (Example.digits [2, 4, 3, 7, 5, 8, 7, 9])).2.Get
      (Example.digits [2, 4, 3, 7, 5, 8, 7, 9]) = ([], false) ∧
    (Example.deleteTrie0.Delete (Example.digits [2, 4, 3, 7, 5, 8, 7, 9])).2.Get
      (Example.digits [2, 4, 3, 7, 5, 8, 7, 8]) = (Example.testValue [54], true) :=
  have h := Trie_Delete_spec Example.deleteTrie0 (Example.digits [2, 4, 3, 7, 5, 8, 7, 9])
  ⟨by decide, h.1.mpr (by decide), h.2.1,
    (h.2.2 (Example.digits [2, 4, 3, 7, 5, 8, 7, 8]) (by decide)).trans (by decide)⟩

/-- C23: for every block, `applyTxs` evaluates `block.Transactions[1:]` and
`updateStatedb` dereferences the recipient and the amount of the reward
transaction only after `validateMinerRewardTx` has succeeded. An error of
`validateMinerRewardTx` is returned as it is, and a block with an empty
transaction list yields `ErrBlockEmptyTxs`. When `validateMinerRewardTx`
succeeds, the transaction list starts with the reward transaction, which has
data, a recipient and an amount: the slice is the rest of the list, and
`updateStatedb` credits the recipient and goes on to the loop over the rest. -/
theorem applyTxs_reward_checked_first (env : Env) (bc : Blockchain) (block preBlock : Block) :
    (block.Transactions = [] →
      applyTxs env bc block preBlock = Except.error Err.ErrBlockEmptyTxs) ∧
    (∀ e, validateMinerRewardTx bc.engine block = Except.error e →
      applyTxs env bc block preBlock = Except.error e) ∧
    (∀ minerRewardTx, validateMinerRewardTx bc.engine block = Except.ok minerRewardTx →
      ∃ txs d dst amount, block.Transactions = minerRewardTx :: txs ∧
        minerRewardTx.Data = some d ∧ d.To = some dst ∧ d.Amount = some amount ∧
        (∀ e, NewStatedb preBlock.Header.StateHash bc.accountStateDB = Except.error e →
          applyTxs env bc block preBlock = Except.error e) ∧
        (∀ statedb, NewStatedb preBlock.Header.StateHash bc.accountStateDB = Except.ok statedb →
          updateStatedb (Transaction.Validate env.verifySignature) statedb minerRewardTx txs
            = updateStatedbLoop (Transaction.Validate env.verifySignature)
                ((statedb.GetOrNewStateObject dst).AddAmount dst amount) txs ∧
          applyTxs env bc block preBlock
            = updateStatedb (Transaction.Validate env.verifySignature) statedb
                minerRewardTx txs)) := by
  refine ⟨?_, ?_, ?_⟩
  · intro h
    simp [applyTxs, validateMinerRewardTx, h]
  · intro e h
    simp [applyTxs, h]
  · intro minerRewardTx h
    obtain ⟨txs, d, dst, amount, htxs, hd, hto, ham, -, -, -⟩ :=
      validateMinerRewardTx_ok_inv bc.engine block minerRewardTx h
    refine ⟨txs, d, dst, amount, htxs, hd, hto, ham, ?_, ?_⟩
    · intro e he
      simp [applyTxs, h, he]
    · intro statedb hs
      refine ⟨?_, ?_⟩
      · simp [updateStatedb, hd, hto, ham]
      · simp only [applyTxs, h, hs, htxs]
        cases updateStatedb (Transaction.Validate env.verifySignature) statedb minerRewardTx
            txs with
        | error e => rfl
        | ok v => rfl

/-- C23, worked example: the block `101` without its transactions is rejected
with `ErrBlockEmptyTxs`, and for the block `101` itself `applyTxs` is
`updateStatedb` on the rest of the list after the reward transaction, which
gives the view with balance `5` at address `7`. -/
theorem applyTxs_reward_checked_first_witness :
    applyTxs Example.env Example.chain Example.emptyTxsBlock Example.genesis
      = Except.error Err.ErrBlockEmptyTxs ∧
    (∃ txs d dst amount, Example.block1.Transactions = Example.rewardTx :: txs ∧
      Example.rewardTx.Data = some d ∧ d.To = some dst ∧ d.Amount = some amount ∧
      applyTxs Example.env Example.chain Example.block1 Example.genesis
        = updateStatedb (Transaction.Validate Example.env.verifySignature) Example.emptyView
            Example.rewardTx txs) :=
  ⟨(applyTxs_reward_checked_first Example.env Example.chain Example.emptyTxsBlock
      Example.genesis).1 rfl,
    match (applyTxs_reward_checked_first Example.env Example.chain Example.block1
      Example.genesis).2.2 Example.rewardTx rfl with
    | ⟨txs, d, dst, amount, h1, h2, h3, h4, _, h6⟩ =>
      ⟨txs, d, dst, amount, h1, h2, h3, h4, (h6 Example.emptyView rfl).2⟩⟩

/-- C24, counterexample: on the empty view, where no balance is negative,
`updateStatedb` with a reward transaction of amount `-5` to address `7` and no
further transactions returns nil, and afterwards the balance of address `7` is
`-5`. -/
theorem updateStatedb_negative_reward_balance :
    (∀ a, 0 ≤ Example.emptyView.GetBalance a) ∧
    (updateStatedbView (Transaction.Validate Example.env.verifySignature) Example.emptyView
      Example.negativeRewardTx []).1 = none ∧
    updateStatedb (Transaction.Validate Example.env.verifySignature) Example.emptyView
        Example.negativeRewardTx []
      = Except.ok (updateStatedbView (Transaction.Validate Example.env.verifySignature)
          Example.emptyView Example.negativeRewardTx []).2 ∧
    (updateStatedbView (Transaction.Validate Example.env.verifySignature) Example.emptyView
      Example.negativeRewardTx []).2.GetBalance 7 = -5 ∧
    ¬ (∀ a, 0 ≤ (updateStatedbView (Transaction.Validate Example.env.verifySignature)
      Example.emptyView Example.negativeRewardTx []).2.GetBalance a) := by
  refine ⟨?_, rfl, rfl, by decide, ?_⟩
  · intro a
    simp [Example.emptyView, Statedb.GetBalance]
  · intro h
    have h7 := h 7
    revert h7
    decide

/-- C24, amended: for every state view, reward transaction and transaction list
for which `updateStatedb` returns nil, the sum of all account balances in the
view afterwards equals the sum before plus the reward amount: ordinary
transactions conserve the total balance. No account balance is negative
afterwards provided none was negative before and neither the reward amount nor
the amount of a transaction of the list is negative. -/
theorem updateStatedb_total_balance (verifySignature : Transaction → Bool)
    (view view1 : Statedb) (minerRewardTx : Transaction) (txs : List Transaction)
    (hok : updateStatedb (Transaction.Validate verifySignature) view minerRewardTx txs
      = Except.ok view1) :
    ∃ d amount, minerRewardTx.Data = some d ∧ d.Amount = some amount ∧
      (∀ before after : Finset Address, view.CoveredBy before → view1.CoveredBy after →
        view1.totalBalance after = view.totalBalance before + amount) ∧
      ((∀ a, 0 ≤ view.GetBalance a) → 0 ≤ amount →
        (∀ tx ∈ txs, ∀ td a, tx.Data = some td → td.Amount = some a → 0 ≤ a) →
        ∀ a, 0 ≤ view1.GetBalance a) := by
  unfold updateStatedb at hok
  cases hd : minerRewardTx.Data with
  | none => simp [hd] at hok
  | some d =>
    cases hto : d.To with
    | none => simp [hd, hto] at hok
    | some dst =>
      cases ham : d.Amount with
      | none => simp [hd, hto, ham] at hok
      | some amount =>
        simp only [hd, hto, ham] at hok
        rw [credit_eq_creditSpec] at hok
        obtain ⟨hrec, hsum, hpos⟩ := updateStatedbLoop_balances verifySignature txs _ _ hok
        refine ⟨d, amount, rfl, ham, ?_, ?_⟩
        · intro before after hbefore hafter
          have hcov : view.CoveredBy after := fun a ha =>
            hafter a (hrec a (creditSpec_record view dst amount a (Or.inl ha)))
          have hdst : dst ∈ after :=
            hafter dst (hrec dst (creditSpec_record view dst amount dst (Or.inr rfl)))
          rw [hsum after hafter, totalBalance_creditSpec view dst amount after hdst,
            totalBalance_cover_indep view before after hbefore hcov]
        · intro hview hamount htxs
          apply hpos _ htxs
          intro a
          rw [GetBalance_creditSpec]
          have ha := hview a
          by_cases hr : a = dst
          · simp [hr]
            rw [hr] at ha
            omega
          · simp [hr]
            exact ha

/-- C24, worked example of the amended claim: a reward of `5` to address `7`
followed by a transfer of `3` from `7` to `8` on the empty view: the balances
of the accounts `7` and `8` afterwards sum to `0 + 5`, and no balance is
negative. -/
theorem updateStatedb_total_balance_witness :
    updateStatedb (Transaction.Validate Example.env.verifySignature) Example.emptyView
        Example.rewardTx [Example.transferTx] = Except.ok Example.view2 ∧
    Example.view2.totalBalance {7, 8} = Example.emptyView.totalBalance ∅ + 5 ∧
    (∀ a, 0 ≤ Example.view2.GetBalance a) := by
  have hok : updateStatedb (Transaction.Validate Example.env.verifySignature)
      Example.emptyView Example.rewardTx [Example.transferTx] = Except.ok Example.view2 := rfl
  obtain ⟨d, amount, hd, ham, hsum, hpos⟩ :=
    updateStatedb_total_balance Example.env.verifySignature Example.emptyView Example.view2
      Example.rewardTx [Example.transferTx] hok
  have hd5 : amount = 5 := by
    cases hd
    cases ham
    rfl
  subst hd5
  refine ⟨hok, hsum ∅ {7, 8} ?_ ?_, hpos ?_ (by decide) ?_⟩
  · intro a ha
    exact absurd rfl ha
  · intro a ha
    by_contra hmem
    simp only [Finset.mem_insert, Finset.mem_singleton, not_or] at hmem
    apply ha
    simp [Example.view2, Example.view1, Example.emptyView, Statedb.AddAmount,
      Statedb.GetOrNewStateObject, Statedb.SubAmount, Statedb.SetNonce, Function.update_apply,
      hmem.1, hmem.2]
  · intro a
    simp [Example.emptyView, Statedb.GetBalance]
  · intro tx htx td a htd ha
    simp only [List.mem_singleton] at htx
    subst htx
    cases htd
    cases ha
    decide

/-- C22: commit round trip, for a hash function on stored nodes that has no
collision and never gives the empty hash. For every trie, in particular every
trie built by `Put` operations, if `Commit(batch)` returns the root hash `h` and
the batch is committed, then `NewTrie(h, same prefix, same database)` succeeds,
given fuel for the height of the trie, and the reopened trie returns for every
key the same value as the original trie; after further `Put` and `Delete`
operations the reopened trie reads as a trie in memory does: deleted keys read
empty, new keys read their value, untouched keys keep their value. -/
theorem Trie_Commit_round_trip (hashNode : StoredNode → Hash)
    (hinj : Function.Injective hashNode) (hne : ∀ s, hashNode s ≠ EmptyHash)
    (t : Trie) (batch : TrieBatch) (db db1 : TrieDatabase)
    (hcommit : TrieBatch.Commit db (t.Commit hashNode batch).2 = Except.ok db1)
    (fuel : Nat) (hfuel : t.root.height ≤ fuel) :
    ∃ reopened,
      NewTrie fuel (t.Commit hashNode batch).1 t.dbPrefix db1 = Except.ok reopened ∧
      (∀ k, IsByteKey k → reopened.Get k = t.Get k) ∧
      (∀ ops k, IsByteKey k → (reopened.applyAll ops).Get k = readAfter (t.Get k) ops k) := by
  have hwf := writes_wellformed hashNode t.dbPrefix t.root
  have hnodes : ∀ w ∈ t.root.writes hashNode t.dbPrefix,
      db1.nodes w.dbPrefix w.hash = some w.node := by
    unfold TrieBatch.Commit at hcommit
    by_cases hfail : db.commitFails = true
    · simp [hfail] at hcommit
    · simp only [hfail, Trie.Commit, List.foldl_append] at hcommit
      cases hcommit
      exact foldl_writes_nodes hashNode hinj _ (fun w hw => (hwf w hw).2) _
  obtain ⟨loaded, hload, hread⟩ :=
    loadNode_of_writes hashNode hne db1 t.dbPrefix t.root hnodes fuel hfuel
  have hget : ∀ k, IsByteKey k →
      ({ root := loaded, dbPrefix := t.dbPrefix } : Trie).Get k = t.Get k := by
    intro k hk
    simp only [Trie.Get, hread k hk]
  refine ⟨{ root := loaded, dbPrefix := t.dbPrefix }, ?_, hget, ?_⟩
  · simp only [NewTrie, Trie.Commit, hload]
  · intro ops k hk
    rw [Trie.Get_applyAll, hget k hk]

/-- C22, worked example: the trie of `Test_trie_Commit` is committed to an empty
database under a hash function without collision and reopened from the root
hash. The reopened trie reads `"test"` at `"12345678"`, and after the `Delete`
and the two `Put` operations of the test it reads empty at the deleted key
`"24355879"`, `"test8"` at the new key `"243558790"` and `"test6"` at the
untouched key `"24375878"`. -/
theorem Trie_Commit_round_trip_witness :
    ∃ reopened,
      NewTrie Example.commitTrie.root.height
          (Example.commitTrie.Commit Example.hashNode []).1 Example.testPrefix
          Example.committedTrieDb = Except.ok reopened ∧
      reopened.Get (Example.digits [1, 2, 3, 4, 5, 6, 7, 8]) = (Example.testValue [], true) ∧
      (reopened.applyAll Example.reopenOps).Get (Example.digits [2, 4, 3, 5, 5, 8, 7, 9])
        = ([], false) ∧
      (reopened.applyAll Example.reopenOps).Get (Example.digits [2, 4, 3, 5, 5, 8, 7, 9, 0])
        = (Example.testValue [56], true) ∧
      (reopened.applyAll Example.reopenOps).Get (Example.digits [2, 4, 3, 7, 5, 8, 7, 8])
        = (Example.testValue [54], true) := by
  obtain ⟨reopened, hnew, hget, hops⟩ :=
    Trie_Commit_round_trip Example.hashNode Example.hashNode_injective
      Example.hashNode_ne_empty Example.commitTrie [] Example.emptyTrieDb
      Example.committedTrieDb rfl Example.commitTrie.root.height (le_refl _)
  exact ⟨reopened, hnew, (hget _ (by decide)).trans (by decide),
    (hops _ _ (by decide)).trans (by decide), (hops _ _ (by decide)).trans (by decide),
    (hops _ _ (by decide)).trans (by decide)⟩

end Seele
